import Mathlib

/-!
# florinutz/enspired: the floor-plan parser

A shallow embedding of `src/segment.go` and `src/flat.go`.

Conventions of the embedding:

* a Go `string` is the list of its runes (`List Char`), the text being valid UTF-8;
  offsets and `len` are byte counts of the UTF-8 encoding, as in Go (`byteLen`);
* Go `int` values (column offsets, lengths, counters) are unbounded integers: what
  `Split`, `segmentData` and `Ingest` compute from the lines is bounded by the size of the
  input and stays in the range of `int`. `Overlaps`, `roomData.append` and `totals` also
  take whatever integers their caller holds, so the section on the range of `int` gives
  them with the wrap-around of the 64-bit `int` (namespace `int64`);
* a `map[rune]int` is an association list kept sorted by key with unique keys,
  so that two maps are equal exactly when the lists are; a nil map reads like
  an empty one, and the only writer (`roomData.append`) initialises it first;
* `*openRoom` and `*roomData` are addresses into a store (`Store`), because the
  parser compares room pointers and mutates rooms through them.
-/

namespace Enspired

/-! ## Strings -/

/-- Number of bytes of the UTF-8 encoding of a string: Go's `len(s)`. -/
def byteLen : List Char → Nat
  | [] => 0
  | c :: cs => c.utf8Size + byteLen cs

/-- The runes of `s` whose byte offset (counted from `off`) lies in `[a, b)`. -/
def substrFrom (off : Nat) (a b : Nat) : List Char → List Char
  | [] => []
  | c :: cs =>
    if a ≤ off ∧ off < b then c :: substrFrom (off + c.utf8Size) a b cs
    else substrFrom (off + c.utf8Size) a b cs

/-- Go's `s[a:b]` for offsets that fall on rune boundaries. -/
def substr (s : List Char) (a b : Nat) : List Char := substrFrom 0 a b s

/-- Go's `strings.TrimLeft(s, cutset)`. -/
def TrimLeft (s cutset : List Char) : List Char := s.dropWhile (fun c => cutset.contains c)

/-- Go's `strings.TrimRight(s, cutset)`. -/
def TrimRight (s cutset : List Char) : List Char :=
  (s.reverse.dropWhile (fun c => cutset.contains c)).reverse

/-- Go's `strings.Trim(s, cutset)`. -/
def Trim (s cutset : List Char) : List Char := TrimRight (TrimLeft s cutset) cutset

/-- Go's `unicode.IsSpace`. -/
def isSpace (c : Char) : Bool :=
  c == '\t' || c == '\n' || c.toNat == 0x0B || c.toNat == 0x0C || c == '\r' || c == ' ' ||
  c.toNat == 0x85 || c.toNat == 0xA0 || c.toNat == 0x1680 ||
  (0x2000 ≤ c.toNat && c.toNat ≤ 0x200A) ||
  c.toNat == 0x2028 || c.toNat == 0x2029 || c.toNat == 0x202F || c.toNat == 0x205F ||
  c.toNat == 0x3000

/-- Go's `strings.TrimSpace`. -/
def TrimSpace (s : List Char) : List Char :=
  ((s.dropWhile isSpace).reverse.dropWhile isSpace).reverse

/-! ## segment.go -/

/-- The struct `segment`. -/
structure segment where
  start : Int
  content : List Char
deriving DecidableEq, Repr

/-- The type `LineSegments` (`[]*segment`); segments are never mutated nor compared by
address, so a pointer to a segment is modelled by the segment. -/
abbrev LineSegments := List segment

/-- The method `segment.IsSame`. -/
def segment.IsSame (s seg : segment) : Bool :=
  s.start == seg.start && s.content == seg.content

/-- The method `segment.IsInSet`. -/
def segment.IsInSet (s : segment) : LineSegments → Bool
  | [] => false
  | seg :: set => if s.IsSame seg then true else segment.IsInSet s set

/-- The keys of the map `delimiters` in `Split`. -/
def isDelimiter (c : Char) : Bool :=
  c == '|' || c == '\\' || c == '/' || c == '+' || c == '-'

/-- The body of the `for i, c := range line` loop of `Split`: `rest` is what is left of the
line, `i` the byte offset of its first rune. -/
def splitLoop (line : List Char) :
    List Char → Nat → Int → Bool → LineSegments → LineSegments
  | [], _, _, _, segments => segments
  | c :: rest, i, start, foundFirstDelimiter, segments =>
    if isDelimiter c then
      let segments :=
        if start ≥ 0 ∧ foundFirstDelimiter = true ∧ (i : Int) > start then
          segments ++ [⟨start, Trim (substr line start.toNat i) ['+', '-']⟩]
        else segments
      splitLoop line rest (i + c.utf8Size) ((i : Int) + 1) true segments
    else
      let start := if start = -1 ∧ foundFirstDelimiter = true then (i : Int) else start
      splitLoop line rest (i + c.utf8Size) start foundFirstDelimiter segments

/-- The function `Split`. -/
def Split (line : List Char) : LineSegments :=
  splitLoop line line 0 (-1) false []

/-- The function `Overlaps`. -/
def Overlaps (start length : Int) : LineSegments → LineSegments
  | [] => []
  | segment :: set =>
    if segment.start + (byteLen segment.content : Int) ≤ start ∨ start + length ≤ segment.start then
      Overlaps start length set
    else segment :: Overlaps start length set

/-- The method `segment.Overlaps`. -/
def segment.Overlaps (s : segment) (set : LineSegments) : LineSegments :=
  Enspired.Overlaps s.start (byteLen s.content : Int) set

/-- The function `segmentsDiff`. -/
def segmentsDiff (set1 set2 : LineSegments) : LineSegments :=
  if set1.length = 0 then []
  else if set2.length = 0 then set1
  else set1.filter (fun s1 => !s1.IsInSet set2)

/-- The inner loop of `MultipleOverlaps`, over `set1`, for one `s2`. -/
def overlapsOfOne (s2 : segment) : LineSegments → LineSegments → LineSegments
  | [], overlappingSegments => overlappingSegments
  | s1 :: set1, overlappingSegments =>
    overlapsOfOne s2 set1 (overlappingSegments ++ s1.Overlaps [s2])

/-- The outer loop of `MultipleOverlaps`, over `set2`. -/
def overlapsLoop (set1 : LineSegments) : LineSegments → LineSegments → LineSegments
  | [], overlappingSegments => overlappingSegments
  | s2 :: set2, overlappingSegments =>
    overlapsLoop set1 set2 (overlapsOfOne s2 set1 overlappingSegments)

/-- The function `MultipleOverlaps`: `(overlappingSegments, nonOverlappingSegments)`. -/
def MultipleOverlaps (set1 set2 : LineSegments) : LineSegments × LineSegments :=
  let overlappingSegments := overlapsLoop set1 set2 []
  (overlappingSegments, segmentsDiff set2 overlappingSegments)

/-! ## roomData -/

/-- A `map[rune]int`: entries sorted by key, keys unique. -/
abbrev ChairMap := List (Char × Int)

/-- The value `m[k]` (zero when the key is absent). -/
def ChairMap.get : ChairMap → Char → Int
  | [], _ => 0
  | (k, v) :: m, c => if k = c then v else ChairMap.get m c

/-- The test `_, exists := m[k]`. -/
def ChairMap.has : ChairMap → Char → Bool
  | [], _ => false
  | (k, _) :: m, c => if k = c then true else ChairMap.has m c

/-- The assignment `m[k] = v`. -/
def ChairMap.set : ChairMap → Char → Int → ChairMap
  | [], c, v => [(c, v)]
  | (k, w) :: m, c, v =>
    if c < k then (c, v) :: (k, w) :: m
    else if c = k then (k, v) :: m
    else (k, w) :: ChairMap.set m c v

/-- The struct `roomData`. -/
structure roomData where
  Name : List Char
  Chairs : ChairMap
deriving DecidableEq, Repr

/-- The function `newRoomData`. -/
def newRoomData : roomData := ⟨[], []⟩

/-- The two errors of `segmentData`. -/
inductive parseError where
  | strangeCharacter (c : Char)
  | titleNotClosed (roomTitle : List Char)
deriving DecidableEq, Repr

/-- The `for _, c := range str` loop of `segmentData` and the check that follows it. -/
def segmentDataLoop : List Char → List Char → roomData → Bool → Except parseError roomData
  | [], roomTitle, roomData, stillInsideTitle =>
    if stillInsideTitle then .error (.titleNotClosed roomTitle) else .ok roomData
  | c :: str, roomTitle, roomData, stillInsideTitle =>
    if c = '(' then segmentDataLoop str roomTitle roomData true
    else if c = ')' then
      segmentDataLoop str roomTitle { roomData with Name := TrimSpace roomTitle } false
    else if stillInsideTitle then segmentDataLoop str (roomTitle ++ [c]) roomData stillInsideTitle
    else if c = 'W' ∨ c = 'P' ∨ c = 'S' ∨ c = 'C' then
      segmentDataLoop str roomTitle
        { roomData with Chairs := roomData.Chairs.set c (roomData.Chairs.get c + 1) }
        stillInsideTitle
    else if c = ' ' then segmentDataLoop str roomTitle roomData stillInsideTitle
    else .error (.strangeCharacter c)

/-- The function `segmentData`. -/
def segmentData (str : List Char) : Except parseError roomData :=
  segmentDataLoop str [] newRoomData false

/-- The method `roomData.append`: the loop over the entries of `d2.Chairs`. -/
def appendChairs : ChairMap → ChairMap → ChairMap
  | chairs, [] => chairs
  | chairs, (incomingChairType, incomingCount) :: incoming =>
    if chairs.has incomingChairType then
      appendChairs (chairs.set incomingChairType (chairs.get incomingChairType + incomingCount))
        incoming
    else appendChairs (chairs.set incomingChairType incomingCount) incoming

/-- The method `roomData.append`. -/
def roomData.append (d d2 : roomData) : roomData :=
  { Name := if d2.Name ≠ [] then d2.Name else d.Name
    Chairs := appendChairs d.Chairs d2.Chairs }

/-! ## The range of `int`

The sums of `Overlaps` and of `roomData.append` are sums of Go's `int`: on a 64-bit platform
a result outside the range from `-2^63` to `2^63 - 1` wraps around. The definitions of the
namespace `int64` keep that; they agree with `Overlaps` and `roomData.append` above whenever
no sum leaves the range. -/

/-- The value that a 64-bit `int` holds for the exact result `v` of an addition: `v` wrapped
around into the range from `-2^63` to `2^63 - 1`. -/
def wrapInt (v : Int) : Int :=
  (v + 9223372036854775808) % 18446744073709551616 - 9223372036854775808

namespace int64

/-- The function `Overlaps`, the two sums of its test taken in `int`. -/
def Overlaps (start length : Int) : LineSegments → LineSegments
  | [] => []
  | segment :: set =>
    if wrapInt (segment.start + (byteLen segment.content : Int)) ≤ start ∨
        wrapInt (start + length) ≤ segment.start then
      Overlaps start length set
    else segment :: Overlaps start length set

/-- The method `roomData.append`: the loop over the entries of `d2.Chairs`, the sum of
`d.Chairs[incomingChairType] += incomingCount` taken in `int`. -/
def appendChairs : ChairMap → ChairMap → ChairMap
  | chairs, [] => chairs
  | chairs, (incomingChairType, incomingCount) :: incoming =>
    if chairs.has incomingChairType then
      appendChairs
        (chairs.set incomingChairType (wrapInt (chairs.get incomingChairType + incomingCount)))
        incoming
    else appendChairs (chairs.set incomingChairType incomingCount) incoming

/-- The method `roomData.append`, its sums taken in `int`. -/
def roomData.append (d d2 : roomData) : roomData :=
  { Name := if d2.Name ≠ [] then d2.Name else d.Name
    Chairs := appendChairs d.Chairs d2.Chairs }

end int64

/-! ## flat.go -/

/-- The struct `openRoom`; `RoomData` is the address of the room's `roomData`. -/
structure openRoom where
  RoomData : Nat
  segments : LineSegments
deriving DecidableEq, Repr

/-- The store: the `roomData` and `openRoom` objects, each addressed by its index. -/
structure Store where
  datas : List roomData
  rooms : List openRoom
deriving DecidableEq, Repr

/-- Read through a `*roomData`. -/
def Store.data (m : Store) (a : Nat) : roomData := m.datas.getD a newRoomData

/-- Read through a `*openRoom`. -/
def Store.room (m : Store) (a : Nat) : openRoom := m.rooms.getD a ⟨0, []⟩

/-- Write through a `*roomData`. -/
def Store.setData (m : Store) (a : Nat) (d : roomData) : Store :=
  { m with datas := m.datas.set a d }

/-- Write through a `*openRoom`. -/
def Store.setRoom (m : Store) (a : Nat) (r : openRoom) : Store :=
  { m with rooms := m.rooms.set a r }

/-- The struct `FlatParser`: `OpenRooms` holds addresses of `openRoom`s, `closedRooms`
addresses of `roomData`s. -/
structure FlatParser where
  OpenRooms : List Nat
  closedRooms : List Nat
  Line : Int
deriving DecidableEq, Repr

/-- The function `NewRoomParser`. -/
def NewRoomParser : FlatParser := ⟨[], [], 0⟩

/-- The error of `appendDataFromSegments`: the segment's content and the parse error. -/
structure segmentError where
  content : List Char
  err : parseError
deriving DecidableEq, Repr

/-- The errors of `Ingest`. -/
inductive ingestError where
  | ingestingSegments (err : segmentError)
  | cantIngestSegment (line : Int) (err : segmentError)
deriving DecidableEq, Repr

/-- The method `roomData.appendDataFromSegments`, on the `roomData` at address `d`. -/
def appendDataFromSegments (m : Store) (d : Nat) : LineSegments → Store × Option segmentError
  | [] => (m, none)
  | segment :: segments =>
    match segmentData segment.content with
    | .error err => (m, some ⟨segment.content, err⟩)
    | .ok data => appendDataFromSegments (m.setData d ((m.data d).append data)) d segments

/-- What the first loop of `Ingest` reads and writes. The `range` clause copies the slice
header of `p.OpenRooms` once, so the loop reads `backing`, the array under `p.OpenRooms`,
at the indices up to the length it had when the loop began, while `closeRoom` shortens
`p.OpenRooms` (to `backing[:len]`) and moves elements of `backing`. -/
structure rangeState where
  mem : Store
  backing : List Nat
  len : Nat
  closedRooms : List Nat
  lineSegments : LineSegments
deriving DecidableEq, Repr

/-- The search loop of `closeRoom`: the first index of `room` in `OpenRooms`. -/
def findRoom (room : Nat) : List Nat → Nat → Option Nat
  | [], _ => none
  | r :: OpenRooms, i => if r ≠ room then findRoom room OpenRooms (i + 1) else some i

/-- The method `FlatParser.closeRoom`. With `p.OpenRooms = backing[:len]`, the statement
`p.OpenRooms = append(p.OpenRooms[:i], p.OpenRooms[i+1:]...)` copies `backing[i+1:len]` down
to index `i` inside the same array and leaves `backing[len-1:]` as it was. -/
def closeRoom (s : rangeState) (room : Nat) : rangeState :=
  match findRoom room (s.backing.take s.len) 0 with
  | none => s
  | some i =>
    { s with
      closedRooms := s.closedRooms ++ [(s.mem.room (s.backing.getD i 0)).RoomData]
      backing := s.backing.take i ++ (s.backing.take s.len).drop (i + 1)
        ++ s.backing.drop (s.len - 1)
      len := s.len - 1 }

/-- The loop `for _, room := range p.OpenRooms` of `Ingest`: `todo` iterations are left and
the next one reads index `idx`. -/
def ingestRooms : Nat → Nat → rangeState → rangeState × Option ingestError
  | 0, _, s => (s, none)
  | todo + 1, idx, s =>
    let room := s.backing.getD idx 0
    let overlaps := (MultipleOverlaps (s.mem.room room).segments s.lineSegments).1
    let rest := (MultipleOverlaps (s.mem.room room).segments s.lineSegments).2
    if overlaps.length = 0 then ingestRooms todo (idx + 1) (closeRoom s room)
    else
      match appendDataFromSegments s.mem (s.mem.room room).RoomData overlaps with
      | (mem, some err) => ({ s with mem := mem }, some (.ingestingSegments err))
      | (mem, none) =>
        ingestRooms todo (idx + 1)
          { s with
            mem := mem.setRoom room { mem.room room with segments := overlaps }
            lineSegments := rest }

/-- The loop `for _, segment := range lineSegments` of `Ingest`, which opens the rooms. -/
def openRooms (Line : Int) :
    LineSegments → Store → List Nat → Store × List Nat × Option ingestError
  | [], m, OpenRooms => (m, OpenRooms, none)
  | segment :: lineSegments, m, OpenRooms =>
    let data := m.datas.length
    let m := { m with datas := m.datas ++ [⟨[], []⟩] }
    match appendDataFromSegments m data [segment] with
    | (m, some err) => (m, OpenRooms, some (.cantIngestSegment Line err))
    | (m, none) =>
      let room := m.rooms.length
      openRooms Line lineSegments { m with rooms := m.rooms ++ [⟨data, [segment]⟩] }
        (OpenRooms ++ [room])

/-- The method `FlatParser.Ingest`: the store and parser after the call, and the error. -/
def Ingest (m : Store) (p : FlatParser) (line : List Char) :
    Store × FlatParser × Option ingestError :=
  let Line := p.Line + 1
  match ingestRooms p.OpenRooms.length 0 ⟨m, p.OpenRooms, p.OpenRooms.length, p.closedRooms,
      Split line⟩ with
  | (s, some err) => (s.mem, ⟨s.backing.take s.len, s.closedRooms, Line⟩, some err)
  | (s, none) =>
    match openRooms Line s.lineSegments s.mem (s.backing.take s.len) with
    | (m, OpenRooms, err) => (m, ⟨OpenRooms, s.closedRooms, Line⟩, err)

/-- The loop of `TestRoomParser_Ingest`: ingest the lines in order, stop at the first
error. -/
def ingestLines (m : Store) (p : FlatParser) :
    List (List Char) → Store × FlatParser × Option ingestError
  | [] => (m, p, none)
  | line :: lines =>
    match Ingest m p line with
    | (m, p, some err) => (m, p, some err)
    | (m, p, none) => ingestLines m p lines

/-! ## flat.go: the report -/

/-- Go's `%d` verb for an `int`. -/
def formatInt (v : Int) : List Char :=
  if v < 0 then '-' :: Nat.toDigits 10 v.natAbs else Nat.toDigits 10 v.natAbs

/-- Go's `strings.Join(elems, sep)`. -/
def Join (elems : List (List Char)) (sep : List Char) : List Char := sep.intercalate elems

/-- The method `roomData.String`. The keys of a map are distinct, so `sort.Slice(keys, ...)`
with `keys[i] < keys[j]` has one possible result, the keys in ascending order. -/
def roomData.String (d : roomData) : List Char :=
  if d.Chairs.length = 0 then
    if d.Name = [] then "(no data)".toList else d.Name
  else
    let keys := (d.Chairs.map Prod.fst).insertionSort (fun a b => a ≤ b)
    let pairs := keys.map (fun key => [key] ++ ": ".toList ++ formatInt (d.Chairs.get key))
    d.Name ++ ":\n".toList ++ Join pairs ", ".toList

/-- The method `FlatParser.totals`; the closed rooms hold whatever counts the state has, so
the sums are those of `int` (`int64.roomData.append`). -/
def FlatParser.totals (m : Store) (p : FlatParser) (totalsEntryName : List Char) : roomData :=
  { p.closedRooms.foldl (fun totals room => int64.roomData.append totals (m.data room))
      newRoomData with
    Name := totalsEntryName }

/-- Go's `<` on strings; on valid UTF-8 the bytewise order is the order of the runes. -/
def stringLess : List Char → List Char → Bool
  | [], [] => false
  | [], _ :: _ => true
  | _ :: _, [] => false
  | a :: as, b :: bs => if a < b then true else if b < a then false else stringLess as bs

/-- Go's `sort.Slice(x, less)` as the library runs it on a slice of at most 12 elements, by
insertion: each element moves to the left past the elements it is less than. Longer slices
are sorted by pattern-defeating quicksort, and for them the library promises only a
permutation ordered by `less`, equal elements in any order. -/
def insertionSortSlice (less : Nat → Nat → Bool) (x : List Nat) : List Nat :=
  x.insertionSort (fun a b => less b a = false)

/-- The method `FlatParser.String`: the parser after the call (its `closedRooms` are sorted
in place) and the returned text. `sortSlice less x` stands for `sort.Slice` of the Go library
applied to `x` (`insertionSortSlice`). -/
def FlatParser.String (sortSlice : (Nat → Nat → Bool) → List Nat → List Nat) (m : Store)
    (p : FlatParser) : FlatParser × List Char :=
  let closedRooms :=
    sortSlice (fun i j => stringLess (m.data i).Name (m.data j).Name) p.closedRooms
  let p := { p with closedRooms := closedRooms }
  let roomStrings := [(p.totals m "total".toList).String] ++
    p.closedRooms.map (fun room => (m.data room).String)
  (p, Join roomStrings "\n".toList)

/-- The method `FlatParser.HasOpenRooms`. -/
def FlatParser.HasOpenRooms (p : FlatParser) : Bool := decide (p.OpenRooms.length > 0)

/-! ## flat.go: reading the input -/

/-- The method `bufio.Reader.ReadString(delim)` of the Go library, on a reader that holds the
text `reader` and has no other error than the end of the input: the text read up to and
including the first `delim`, what is left in the reader, and whether the error is `io.EOF`
(the input ended before a `delim`; the text read so far is still returned). -/
def ReadString (delim : Char) : List Char → List Char × List Char × Bool
  | [] => ([], [], true)
  | c :: reader =>
    if c = delim then ([c], reader, false)
    else ((c :: (ReadString delim reader).1), (ReadString delim reader).2.1,
      (ReadString delim reader).2.2)

/-- The error of `IngestAllFromReader`: the line number and the error of `Ingest`. -/
structure readerError where
  line : Int
  err : ingestError
deriving DecidableEq, Repr

/-- The recursion of `IngestAllFromReader` on a reader that holds the text `reader`, with a
bound on the number of calls. -/
def ingestAllCalls : Nat → Store → FlatParser → List Char → Store × FlatParser × Option readerError
  | 0, m, p, _ => (m, p, none)
  | calls + 1, m, p, reader =>
    if (ReadString '\n' reader).2.2 = true then (m, p, none)
    else
      match Ingest m p (ReadString '\n' reader).1 with
      | (m2, p2, some err) => (m2, p2, some ⟨p2.Line, err⟩)
      | (m2, p2, none) => ingestAllCalls calls m2 p2 (ReadString '\n' reader).2.1

/-- The method `FlatParser.IngestAllFromReader`. Every call that goes on has read at least
one character, so a text of `n` characters takes at most `n + 1` calls. -/
def IngestAllFromReader (m : Store) (p : FlatParser) (reader : List Char) :
    Store × FlatParser × Option readerError :=
  ingestAllCalls (reader.length + 1) m p reader

/-! ## Specification vocabulary -/

/-- The pairwise overlap test: the span of `s` intersects the span of `t`. -/
def spansOverlap (s t : segment) : Prop :=
  ¬ (t.start + (byteLen t.content : Int) ≤ s.start ∨
      s.start + (byteLen s.content : Int) ≤ t.start)

instance (s t : segment) : Decidable (spansOverlap s t) := by
  unfold spansOverlap; infer_instance

/-- A title is open at the end of `pre`: some `(` of `pre` is followed by no later `)`. -/
def titleOpen (pre : List Char) : Prop :=
  ∃ a b : List Char, pre = a ++ '(' :: b ∧ ')' ∉ b

/-- The value of the flag `stillInsideTitle` once the loop of `segmentData`, entered with
the flag at `st`, has read `pre` without failing. -/
def titleFlag : Bool → List Char → Bool
  | st, [] => st
  | st, c :: cs => titleFlag (if c = '(' then true else if c = ')' then false else st) cs

/-- The furniture symbols. -/
def isFurniture (c : Char) : Prop := c = 'W' ∨ c = 'P' ∨ c = 'S' ∨ c = 'C'

instance (c : Char) : Decidable (isFurniture c) := by
  unfold isFurniture; infer_instance

/-- The segment `s` is a bounded run of `line`: its content is a non-empty run of
non-delimiter runes with a delimiter immediately before it and immediately after it, and its
start is the byte offset of the run's first rune. -/
def isBoundedRun (line : List Char) (s : segment) : Prop :=
  ∃ (pre : List Char) (d1 d2 : Char) (post : List Char),
    line = pre ++ d1 :: s.content ++ d2 :: post ∧
    isDelimiter d1 = true ∧ isDelimiter d2 = true ∧
    s.content ≠ [] ∧ (∀ c ∈ s.content, isDelimiter c = false) ∧
    s.start = (byteLen (pre ++ [d1]) : Int)

/-- An executable form of "every character of `str` outside a title is a space, a
parenthesis or a furniture symbol", for a text read with the title flag at `st`. -/
def outsideAllowed : Bool → List Char → Bool
  | _, [] => true
  | st, c :: cs =>
    (st || decide (c = ' ' ∨ c = '(' ∨ c = ')' ∨ isFurniture c)) &&
      outsideAllowed (if c = '(' then true else if c = ')' then false else st) cs

/-- The room at address `room` has been closed by a call that started from the store `m` and
ended with the parser `p2`: its aggregate is in `closedRooms` and it is no longer in
`OpenRooms`. -/
def closedBy (m : Store) (p2 : FlatParser) (room : Nat) : Prop :=
  (m.room room).RoomData ∈ p2.closedRooms ∧ room ∉ p2.OpenRooms

instance (m : Store) (p2 : FlatParser) (room : Nat) : Decidable (closedBy m p2 room) := by
  unfold closedBy; infer_instance

/-- The store after the lines `+--+--+` and `|  |  |`: two rooms side by side. -/
def twoRoomsStore : Store :=
  ⟨[⟨[], []⟩, ⟨[], []⟩], [⟨0, [⟨1, [' ', ' ']⟩]⟩, ⟨1, [⟨4, [' ', ' ']⟩]⟩]⟩

/-- The parser after the lines `+--+--+` and `|  |  |`. -/
def twoRoomsParser : FlatParser := ⟨[0, 1], [], 2⟩

/-- The store after the lines `+-+-+-+` and `|W|P|S|`: three rooms side by side. -/
def threeRoomsStore : Store :=
  ⟨[⟨[], [('W', 1)]⟩, ⟨[], [('P', 1)]⟩, ⟨[], [('S', 1)]⟩],
    [⟨0, [⟨1, ['W']⟩]⟩, ⟨1, [⟨3, ['P']⟩]⟩, ⟨2, [⟨5, ['S']⟩]⟩]⟩

/-- The parser after the lines `+-+-+-+` and `|W|P|S|`. -/
def threeRoomsParser : FlatParser := ⟨[0, 1, 2], [], 2⟩

/-- The data `segmentData` returns for the text `b` (the empty data when it fails). -/
def parsed (b : List Char) : roomData :=
  match segmentData b with
  | .ok d => d
  | .error _ => newRoomData

/-- The last non-empty name of a list of names, the empty name when there is none. -/
def lastName (names : List (List Char)) : List Char :=
  (names.reverse.find? (fun n => decide (n ≠ []))).getD []

/-- The content line `"|" + b + "|"` of a rectangular room. -/
def contentLine (b : List Char) : List Char := '|' :: b ++ ['|']

/-- Every way to cut `str` at one of its characters: the pairs `(pre, c)` with
`str = pre ++ c :: post`, from left to right. -/
def splits : List Char → List (List Char × Char)
  | [] => []
  | x :: xs => ([], x) :: (splits xs).map (fun pc => (x :: pc.1, pc.2))

/-- The number of occurrences of `c` in `str` outside titles, for a text entered with the
title flag at `st`: the cuts `(pre, c)` of `str` at which no title is open (`titleFlag` is
false after `pre`, that is `titleOpen pre` fails). -/
def occurrencesFrom (st : Bool) (c : Char) (str : List Char) : Nat :=
  ((splits str).filter (fun pc => decide (pc.2 = c) && !titleFlag st pc.1)).length

/-- The number of occurrences of `c` in `str` outside titles. -/
def occurrencesOutside (c : Char) (str : List Char) : Nat := occurrencesFrom false c str

/-- The integer `v` is a value of the 64-bit `int`. -/
def isInt (v : Int) : Prop := -9223372036854775808 ≤ v ∧ v ≤ 9223372036854775807

instance (v : Int) : Decidable (isInt v) := by
  unfold isInt; infer_instance

/-- The list represents a map: its keys are distinct. -/
def ChairMap.isMap (m : ChairMap) : Prop := (m.map Prod.fst).Nodup

instance (m : ChairMap) : Decidable (ChairMap.isMap m) := by
  unfold ChairMap.isMap; infer_instance

/-- The parser state is well formed, as every state reached from `NewRoomParser` is: the open
rooms are distinct allocated rooms, the aggregates of the open rooms and the closed aggregates
are allocated and all distinct (no aggregate is shared, none is both open and closed, none is
closed twice). -/
def wellFormed (m : Store) (p : FlatParser) : Prop :=
  p.OpenRooms.Nodup ∧ (∀ r ∈ p.OpenRooms, r < m.rooms.length) ∧
  (p.OpenRooms.map (fun r => (m.room r).RoomData) ++ p.closedRooms).Nodup ∧
  ∀ a ∈ p.OpenRooms.map (fun r => (m.room r).RoomData) ++ p.closedRooms, a < m.datas.length

instance (m : Store) (p : FlatParser) : Decidable (wellFormed m p) := by
  unfold wellFormed; infer_instance

/-- The invariant of the first loop of `Ingest` started from the store `m`, the open rooms
`R` and the closed rooms `closed`: the array under `p.OpenRooms` keeps its length and holds
rooms of `R`; `closedRooms` is `closed` followed by the aggregates of a list `C` of rooms,
and `p.OpenRooms` with `C` is a permutation of `R`; no room is allocated or changes its
aggregate, no aggregate is allocated and the aggregates of `closed` are unchanged. -/
def closingInv (m : Store) (R closed : List Nat) (s : rangeState) : Prop :=
  s.len ≤ s.backing.length ∧ s.backing.length = R.length ∧ (∀ x ∈ s.backing, x ∈ R) ∧
  (∃ C : List Nat, s.closedRooms = closed ++ C.map (fun r => (m.room r).RoomData) ∧
    (s.backing.take s.len ++ C).Perm R) ∧
  s.mem.rooms.length = m.rooms.length ∧
  (∀ a, (s.mem.room a).RoomData = (m.room a).RoomData) ∧
  s.mem.datas.length = m.datas.length ∧ ∀ a ∈ closed, s.mem.data a = m.data a

/-! # Theorems -/

/-! ## Overlaps -/

theorem Overlaps_eq_filter (start length : Int) (S : LineSegments) :
    Overlaps start length S = S.filter (fun s =>
      decide (¬ (s.start + (byteLen s.content : Int) ≤ start ∨ start + length ≤ s.start))) := by
  induction S with
  | nil => rfl
  | cons s S ih =>
    by_cases h : s.start + (byteLen s.content : Int) ≤ start ∨ start + length ≤ s.start
    · simp only [Overlaps, if_pos h, ih, List.filter_cons]
      simp [h]
    · simp only [Overlaps, if_neg h, ih, List.filter_cons]
      simp [h]

theorem segment_Overlaps_single (s1 s2 : segment) :
    s1.Overlaps [s2] = if spansOverlap s1 s2 then [s2] else [] := by
  unfold segment.Overlaps spansOverlap
  by_cases h : s2.start + (byteLen s2.content : Int) ≤ s1.start ∨
      s1.start + (byteLen s1.content : Int) ≤ s2.start
  · simp [Overlaps, h]
  · simp [Overlaps, h]

theorem mem_overlapsOfOne (s2 : segment) (set1 acc : LineSegments) (s : segment) :
    s ∈ overlapsOfOne s2 set1 acc ↔ s ∈ acc ∨ (s = s2 ∧ ∃ s1 ∈ set1, spansOverlap s1 s2) := by
  induction set1 generalizing acc with
  | nil => simp [overlapsOfOne]
  | cons s1 set1 ih =>
    rw [overlapsOfOne, ih, segment_Overlaps_single]
    by_cases h : spansOverlap s1 s2
    · simp only [if_pos h, List.mem_append, List.mem_singleton, List.mem_cons, exists_eq_or_imp]
      tauto
    · simp only [if_neg h, List.append_nil, List.mem_cons, exists_eq_or_imp]
      tauto

theorem mem_overlapsLoop (set1 set2 acc : LineSegments) (s : segment) :
    s ∈ overlapsLoop set1 set2 acc ↔
      s ∈ acc ∨ (s ∈ set2 ∧ ∃ s1 ∈ set1, spansOverlap s1 s) := by
  induction set2 generalizing acc with
  | nil => simp [overlapsLoop]
  | cons s2 set2 ih =>
    rw [overlapsLoop, ih, mem_overlapsOfOne]
    constructor
    · rintro ((h | ⟨rfl, h⟩) | ⟨h1, h2⟩)
      · exact Or.inl h
      · exact Or.inr ⟨List.mem_cons_self _ _, h⟩
      · exact Or.inr ⟨List.mem_cons_of_mem _ h1, h2⟩
    · rintro (h | ⟨h1, h2⟩)
      · exact Or.inl (Or.inl h)
      · rcases List.mem_cons.mp h1 with rfl | h1
        · exact Or.inl (Or.inr ⟨rfl, h2⟩)
        · exact Or.inr ⟨h1, h2⟩

theorem IsSame_iff (s t : segment) : s.IsSame t = true ↔ s = t := by
  cases s; cases t; simp [segment.IsSame]

theorem IsInSet_iff (s : segment) (set : LineSegments) : s.IsInSet set = true ↔ s ∈ set := by
  induction set with
  | nil => simp [segment.IsInSet]
  | cons t set ih =>
    by_cases h : s.IsSame t = true
    · have e := (IsSame_iff s t).mp h
      subst e
      simp [segment.IsInSet, h]
    · have : s ≠ t := fun e => h ((IsSame_iff s t).mpr e)
      simp [segment.IsInSet, h, ih, this]

theorem segmentsDiff_eq_filter (set1 set2 : LineSegments) :
    segmentsDiff set1 set2 = set1.filter (fun s => decide (s ∉ set2)) := by
  unfold segmentsDiff
  split
  · rename_i h; rw [List.length_eq_zero] at h; simp [h]
  · split
    · rename_i h; rw [List.length_eq_zero] at h; simp [h]
    · apply List.filter_congr
      intro s _
      by_cases h : s ∈ set2
      · simp [h, (IsInSet_iff s set2).mpr h]
      · have : ¬ s.IsInSet set2 = true := fun e => h ((IsInSet_iff s set2).mp e)
        simp [h, this]

theorem mem_overlapping (set1 set2 : LineSegments) (s : segment) :
    s ∈ (MultipleOverlaps set1 set2).1 ↔ s ∈ set2 ∧ ∃ s1 ∈ set1, spansOverlap s1 s := by
  simp [MultipleOverlaps, mem_overlapsLoop]

theorem nonOverlapping_eq_filter (set1 set2 : LineSegments) :
    (MultipleOverlaps set1 set2).2 =
      set2.filter (fun s => decide (∀ s1 ∈ set1, ¬ spansOverlap s1 s)) := by
  show segmentsDiff set2 (overlapsLoop set1 set2 []) = _
  rw [segmentsDiff_eq_filter]
  apply List.filter_congr
  intro s hs
  have := mem_overlapsLoop set1 set2 [] s
  simp only [List.not_mem_nil, false_or] at this
  simp only [this, hs, true_and, not_exists, not_and]

/-! ## segmentData -/

theorem titleOpen_cons (c : Char) (cs : List Char) :
    titleOpen (c :: cs) ↔ (c = '(' ∧ ')' ∉ cs) ∨ titleOpen cs := by
  constructor
  · rintro ⟨a, b, h, hb⟩
    cases a with
    | nil =>
      simp only [List.nil_append, List.cons.injEq] at h
      exact Or.inl ⟨h.1, h.2 ▸ hb⟩
    | cons x a =>
      simp only [List.cons_append, List.cons.injEq] at h
      exact Or.inr ⟨a, b, h.2, hb⟩
  · rintro (⟨rfl, h⟩ | ⟨a, b, h, hb⟩)
    · exact ⟨[], cs, rfl, h⟩
    · exact ⟨c :: a, b, by simp [h], hb⟩

theorem titleOpen_nil : ¬ titleOpen [] := by
  rintro ⟨a, b, h, _⟩
  cases a <;> simp at h

theorem titleFlag_iff (st : Bool) (pre : List Char) :
    titleFlag st pre = true ↔ titleOpen pre ∨ (st = true ∧ ')' ∉ pre) := by
  induction pre generalizing st with
  | nil => simp [titleFlag, titleOpen_nil]
  | cons c cs ih =>
    rw [titleFlag, ih, titleOpen_cons]
    by_cases h1 : c = '('
    · subst h1
      simp only [if_true, true_and, List.mem_cons]
      have : ¬ (')' = '(') := by decide
      tauto
    · by_cases h2 : c = ')'
      · subst h2
        simp [h1]
      · simp only [if_neg h1, if_neg h2, List.mem_cons, false_and, false_or]
        have : ¬ (')' = c) := fun e => h2 e.symm
        tauto

theorem titleOpen_iff_flag (pre : List Char) : titleOpen pre ↔ titleFlag false pre = true := by
  rw [titleFlag_iff]; simp

theorem segmentDataLoop_open_fails (str roomTitle : List Char) (d : roomData) (st : Bool)
    (h : titleFlag st str = true) : ∃ e, segmentDataLoop str roomTitle d st = .error e := by
  induction str generalizing roomTitle d st with
  | nil =>
    simp only [titleFlag] at h
    exact ⟨.titleNotClosed roomTitle, by simp [segmentDataLoop, h]⟩
  | cons c cs ih =>
    rw [titleFlag] at h
    rw [segmentDataLoop]
    by_cases h1 : c = '('
    · simp only [if_pos h1] at h ⊢
      exact ih _ _ _ h
    · by_cases h2 : c = ')'
      · simp only [if_neg h1, if_pos h2] at h ⊢
        exact ih _ _ _ h
      · simp only [if_neg h1, if_neg h2] at h ⊢
        split
        · exact ih _ _ _ h
        · split
          · exact ih _ _ _ h
          · split
            · exact ih _ _ _ h
            · exact ⟨_, rfl⟩

theorem segmentDataLoop_prefix (pre rest roomTitle : List Char) (d : roomData) (st : Bool) :
    (∃ e, segmentDataLoop (pre ++ rest) roomTitle d st = .error e) ∨
      ∃ roomTitle2 d2, segmentDataLoop (pre ++ rest) roomTitle d st =
        segmentDataLoop rest roomTitle2 d2 (titleFlag st pre) := by
  induction pre generalizing roomTitle d st with
  | nil => exact Or.inr ⟨roomTitle, d, rfl⟩
  | cons c cs ih =>
    rw [titleFlag, List.cons_append, segmentDataLoop]
    by_cases h1 : c = '('
    · simp only [if_pos h1]
      exact ih _ _ _
    · by_cases h2 : c = ')'
      · simp only [if_neg h1, if_pos h2]
        exact ih _ _ _
      · simp only [if_neg h1, if_neg h2]
        split
        · exact ih _ _ _
        · split
          · exact ih _ _ _
          · split
            · exact ih _ _ _
            · exact Or.inl ⟨_, rfl⟩

theorem segmentDataLoop_succeeds (str roomTitle : List Char) (d : roomData) (st : Bool)
    (hclosed : titleFlag st str = false)
    (hchars : ∀ pre c post, str = pre ++ c :: post → titleFlag st pre = false →
      c = ' ' ∨ c = '(' ∨ c = ')' ∨ isFurniture c) :
    ∃ d2, segmentDataLoop str roomTitle d st = .ok d2 := by
  induction str generalizing roomTitle d st with
  | nil =>
    simp only [titleFlag] at hclosed
    exact ⟨d, by simp [segmentDataLoop, hclosed]⟩
  | cons c cs ih =>
    rw [titleFlag] at hclosed
    have hstep : ∀ pre c2 post, cs = pre ++ c2 :: post →
        titleFlag (if c = '(' then true else if c = ')' then false else st) pre = false →
        c2 = ' ' ∨ c2 = '(' ∨ c2 = ')' ∨ isFurniture c2 := by
      intro pre c2 post e hf
      exact hchars (c :: pre) c2 post (by simp [e]) (by rw [titleFlag]; exact hf)
    have hhead := hchars [] c cs rfl
    rw [segmentDataLoop]
    by_cases h1 : c = '('
    · simp only [if_pos h1] at hclosed hstep ⊢
      exact ih _ _ _ hclosed hstep
    · by_cases h2 : c = ')'
      · simp only [if_neg h1, if_pos h2] at hclosed hstep ⊢
        exact ih _ _ _ hclosed hstep
      · simp only [if_neg h1, if_neg h2] at hclosed hstep ⊢
        split
        · exact ih _ _ _ hclosed hstep
        · rename_i hst
          have hst2 : st = false := by simpa using hst
          have := hhead (by simp [titleFlag, hst2])
          split
          · exact ih _ _ _ hclosed hstep
          · rename_i hf
            split
            · exact ih _ _ _ hclosed hstep
            · rename_i hsp
              unfold isFurniture at this
              tauto

/-! ## Split -/

theorem byteLen_append (a b : List Char) : byteLen (a ++ b) = byteLen a + byteLen b := by
  induction a with
  | nil => simp [byteLen]
  | cons c a ih => simp [byteLen, ih, Nat.add_assoc]

theorem byteLen_pos {s : List Char} (h : s ≠ []) : 0 < byteLen s := by
  cases s with
  | nil => exact absurd rfl h
  | cons c cs =>
    have := Char.utf8Size_pos c
    simp only [byteLen]; omega

theorem utf8Size_of_isDelimiter {c : Char} (h : isDelimiter c = true) : c.utf8Size = 1 := by
  simp only [isDelimiter, Bool.or_eq_true, beq_iff_eq] at h
  rcases h with (((h | h) | h) | h) | h <;> subst h <;> decide

theorem substrFrom_skip (off a b : Nat) (s t : List Char) (h : off + byteLen s ≤ a) :
    substrFrom off a b (s ++ t) = substrFrom (off + byteLen s) a b t := by
  induction s generalizing off with
  | nil => simp [byteLen]
  | cons c s ih =>
    have hc := Char.utf8Size_pos c
    simp only [byteLen] at h
    have hlt : ¬ (a ≤ off ∧ off < b) := by omega
    rw [List.cons_append, substrFrom, if_neg hlt, ih _ (by omega)]
    simp only [byteLen, Nat.add_assoc]

theorem substrFrom_keep (off a b : Nat) (s t : List Char) (h1 : a ≤ off)
    (h2 : off + byteLen s ≤ b) :
    substrFrom off a b (s ++ t) = s ++ substrFrom (off + byteLen s) a b t := by
  induction s generalizing off with
  | nil => simp [byteLen]
  | cons c s ih =>
    have hc := Char.utf8Size_pos c
    simp only [byteLen] at h2
    have hin : a ≤ off ∧ off < b := by omega
    rw [List.cons_append, substrFrom, if_pos hin, ih _ (by omega) (by omega)]
    simp only [byteLen, Nat.add_assoc, List.cons_append]

theorem substrFrom_past (off a b : Nat) (s : List Char) (h : b ≤ off) :
    substrFrom off a b s = [] := by
  induction s generalizing off with
  | nil => rfl
  | cons c s ih =>
    have hlt : ¬ (a ≤ off ∧ off < b) := by omega
    rw [substrFrom, if_neg hlt, ih _ (by omega)]

theorem substr_middle (s run t : List Char) :
    substr (s ++ run ++ t) (byteLen s) (byteLen s + byteLen run) = run := by
  unfold substr
  rw [List.append_assoc, substrFrom_skip 0 _ _ s _ (by omega),
    substrFrom_keep _ _ _ run t (by omega) (by omega), substrFrom_past _ _ _ _ (by omega)]
  simp

theorem dropWhile_of_forall_not {p : Char → Bool} (l : List Char)
    (h : ∀ c ∈ l, p c = false) : l.dropWhile p = l := by
  cases l with
  | nil => rfl
  | cons c l => simp [List.dropWhile, h c (List.mem_cons_self _ _)]

theorem Trim_of_no_delimiter (run : List Char) (h : ∀ c ∈ run, isDelimiter c = false) :
    Trim run ['+', '-'] = run := by
  have hp : ∀ c ∈ run, (fun c => ['+', '-'].contains c) c = false := by
    intro c hc
    have := h c hc
    simp only [isDelimiter, Bool.or_eq_false_iff, beq_eq_false_iff_ne] at this
    simp [this.1.2, this.2]
  unfold Trim TrimRight TrimLeft
  rw [dropWhile_of_forall_not run hp,
    dropWhile_of_forall_not run.reverse (fun c hc => hp c (List.mem_reverse.mp hc))]
  simp

theorem last_delimiter_unique (pre pre2 run run2 : List Char) (d d2 : Char)
    (e : pre ++ d :: run = pre2 ++ d2 :: run2)
    (hd : isDelimiter d = true) (hd2 : isDelimiter d2 = true)
    (hr : ∀ c ∈ run, isDelimiter c = false) (hr2 : ∀ c ∈ run2, isDelimiter c = false) :
    pre = pre2 ∧ d = d2 ∧ run = run2 := by
  induction pre generalizing pre2 with
  | nil =>
    cases pre2 with
    | nil => simpa using e
    | cons y p2 =>
      simp only [List.nil_append, List.cons_append, List.cons.injEq] at e
      have := hr d2 (by rw [e.2]; simp)
      simp [this] at hd2
  | cons x p ih =>
    cases pre2 with
    | nil =>
      simp only [List.nil_append, List.cons_append, List.cons.injEq] at e
      have := hr2 d (by rw [← e.2]; simp)
      simp [this] at hd
    | cons y p2 =>
      simp only [List.cons_append, List.cons.injEq] at e
      obtain ⟨h1, h2, h3⟩ := ih p2 e.2
      exact ⟨by rw [e.1, h1], h2, h3⟩

theorem isBoundedRun_snoc_of_not_delimiter (done : List Char) (c : Char)
    (hc : isDelimiter c = false) (s : segment) :
    isBoundedRun (done ++ [c]) s ↔ isBoundedRun done s := by
  constructor
  · rintro ⟨pre, d1, d2, post, e, h1, h2, h3, h4, h5⟩
    rcases List.eq_nil_or_concat post with rfl | ⟨post2, x, rfl⟩
    · have e2 : done ++ [c] = (pre ++ d1 :: s.content) ++ [d2] := by simp [e]
      have := (List.append_inj' e2 rfl).2
      simp only [List.cons.injEq, and_true] at this
      rw [this, h2] at hc
      exact absurd hc (by simp)
    · have e2 : done ++ [c] = (pre ++ d1 :: s.content ++ d2 :: post2) ++ [x] := by
        simp [e, List.concat_eq_append]
      exact ⟨pre, d1, d2, post2, (List.append_inj' e2 rfl).1, h1, h2, h3, h4, h5⟩
  · rintro ⟨pre, d1, d2, post, e, h1, h2, h3, h4, h5⟩
    exact ⟨pre, d1, d2, post ++ [c], by simp [e], h1, h2, h3, h4, h5⟩

theorem isBoundedRun_snoc_of_delimiter (done : List Char) (c : Char)
    (hc : isDelimiter c = true) (s : segment) :
    isBoundedRun (done ++ [c]) s ↔ isBoundedRun done s ∨
      ∃ (pre : List Char) (d1 : Char), done = pre ++ d1 :: s.content ∧ isDelimiter d1 = true ∧
        s.content ≠ [] ∧ (∀ c ∈ s.content, isDelimiter c = false) ∧
        s.start = (byteLen (pre ++ [d1]) : Int) := by
  constructor
  · rintro ⟨pre, d1, d2, post, e, h1, h2, h3, h4, h5⟩
    rcases List.eq_nil_or_concat post with rfl | ⟨post2, x, rfl⟩
    · have e2 : done ++ [c] = (pre ++ d1 :: s.content) ++ [d2] := by simp [e]
      exact Or.inr ⟨pre, d1, (List.append_inj' e2 rfl).1, h1, h3, h4, h5⟩
    · have e2 : done ++ [c] = (pre ++ d1 :: s.content ++ d2 :: post2) ++ [x] := by
        simp [e, List.concat_eq_append]
      exact Or.inl ⟨pre, d1, d2, post2, (List.append_inj' e2 rfl).1, h1, h2, h3, h4, h5⟩
  · rintro (⟨pre, d1, d2, post, e, h1, h2, h3, h4, h5⟩ | ⟨pre, d1, e, h1, h3, h4, h5⟩)
    · exact ⟨pre, d1, d2, post ++ [c], by simp [e], h1, h2, h3, h4, h5⟩
    · exact ⟨pre, d1, c, [], by simp [e], h1, hc, h3, h4, h5⟩

theorem not_isBoundedRun_of_no_delimiter (done : List Char)
    (h : ∀ c ∈ done, isDelimiter c = false) (s : segment) : ¬ isBoundedRun done s := by
  rintro ⟨pre, d1, d2, post, e, h1, _⟩
  have := h d1 (by rw [e]; simp)
  simp [this] at h1

theorem splitLoop_found (line : List Char) :
    ∀ (rest pre : List Char) (d : Char) (run : List Char) (i : Nat) (start : Int)
      (segs : LineSegments),
      line = pre ++ d :: run ++ rest → isDelimiter d = true →
      (∀ c ∈ run, isDelimiter c = false) →
      i = byteLen (pre ++ d :: run) → start = (byteLen (pre ++ [d]) : Int) →
      (∀ s, s ∈ segs ↔ isBoundedRun (pre ++ d :: run) s) →
      segs.Pairwise (fun a b => a.start < b.start) →
      (∀ s ∈ segs, s.start < start) →
      (∀ s, s ∈ splitLoop line rest i start true segs ↔ isBoundedRun line s) ∧
        (splitLoop line rest i start true segs).Pairwise (fun a b => a.start < b.start) := by
  intro rest
  induction rest with
  | nil =>
    intro pre d run i start segs hline _ _ _ _ hmem hpw _
    rw [splitLoop]
    rw [List.append_nil] at hline
    rw [hline]
    exact ⟨hmem, hpw⟩
  | cons c rest ih =>
    intro pre d run i start segs hline hd hrun hi hstart hmem hpw hlt
    have hlen : byteLen (pre ++ d :: run) = byteLen (pre ++ [d]) + byteLen run := by
      simp only [byteLen_append, byteLen]; omega
    rw [splitLoop]
    by_cases hc : isDelimiter c = true
    · rw [if_pos hc]
      have hcs := utf8Size_of_isDelimiter hc
      by_cases hre : run = []
      · subst hre
        have hcond : ¬ (start ≥ 0 ∧ True ∧ (i : Int) > start) := by
          rw [hi, hstart]; simp
        simp only [if_neg hcond]
        refine ih (pre ++ [d]) c [] _ _ segs (by simp [hline]) hc (by simp) ?_ ?_ ?_ hpw ?_
        · rw [hi, hcs]; simp only [byteLen_append, byteLen, hcs]
        · rw [hi]; simp only [byteLen_append, byteLen, hcs]; push_cast; ring
        · intro s
          rw [hmem s]
          have e : pre ++ [d] ++ [c] = (pre ++ [d]) ++ [c] := rfl
          rw [show pre ++ [d] ++ [c] = (pre ++ [d]) ++ [c] from rfl,
            isBoundedRun_snoc_of_delimiter _ _ hc]
          constructor
          · intro h; exact Or.inl h
          · rintro (h | ⟨pre2, d1, e2, h1, h3, h4, _⟩)
            · exact h
            · have := last_delimiter_unique pre pre2 [] s.content d d1 e2 hd h1 (by simp) h4
              exact absurd this.2.2.symm h3
        · intro s hs
          have := hlt s hs
          rw [hi]; rw [hstart] at this
          simp only [byteLen_append, byteLen] at this ⊢
          push_cast at this ⊢
          omega
      · have hpos := byteLen_pos hre
        have hcond : start ≥ 0 ∧ True ∧ (i : Int) > start := by
          rw [hi, hstart, hlen]; push_cast
          refine ⟨by omega, trivial, by omega⟩
        simp only [if_pos hcond]
        have hsub : Trim (substr line start.toNat i) ['+', '-'] = run := by
          have e1 : line = (pre ++ [d]) ++ run ++ (c :: rest) := by simp [hline]
          rw [hstart, Int.toNat_natCast, hi, hlen, e1, substr_middle]
          exact Trim_of_no_delimiter run hrun
        rw [hsub]
        refine ih (pre ++ d :: run) c [] _ _ (segs ++ [⟨start, run⟩]) (by simp [hline]) hc
          (by simp) ?_ ?_ ?_ ?_ ?_
        · rw [hi, hcs]; simp only [byteLen_append, byteLen, hcs]
        · rw [hi]; simp only [byteLen_append, byteLen, hcs]; push_cast; ring
        · intro s
          rw [List.mem_append, hmem s, List.mem_singleton,
            show pre ++ d :: run ++ [c] = (pre ++ d :: run) ++ [c] from rfl,
            isBoundedRun_snoc_of_delimiter _ _ hc]
          constructor
          · rintro (h | rfl)
            · exact Or.inl h
            · exact Or.inr ⟨pre, d, rfl, hd, hre, hrun, hstart⟩
          · rintro (h | ⟨pre2, d1, e2, h1, h3, h4, h5⟩)
            · exact Or.inl h
            · right
              obtain ⟨e3, e4, e5⟩ :=
                last_delimiter_unique pre pre2 run s.content d d1 e2 hd h1 hrun h4
              cases s with
              | mk st ct =>
                simp only at e5 h5
                rw [segment.mk.injEq]
                exact ⟨by rw [h5, hstart, e3, e4], e5.symm⟩
        · rw [List.pairwise_append]
          refine ⟨hpw, by simp, ?_⟩
          intro a ha b hb
          rw [List.mem_singleton] at hb
          rw [hb]
          exact hlt a ha
        · intro s hs
          rw [List.mem_append, List.mem_singleton] at hs
          rw [hi, hlen]
          rcases hs with hs | rfl
          · have := hlt s hs
            push_cast; omega
          · show start < _
            rw [hstart]; push_cast; omega
    · have hc2 : isDelimiter c = false := by simpa using hc
      rw [if_neg hc]
      have hne : ¬ (start = -1 ∧ True) := by
        rw [hstart]; omega
      simp only [if_neg hne]
      refine ih pre d (run ++ [c]) _ start segs (by simp [hline]) hd ?_ ?_ hstart ?_ hpw hlt
      · intro x hx
        rcases List.mem_append.mp hx with hx | hx
        · exact hrun x hx
        · rw [List.mem_singleton] at hx; rw [hx]; exact hc2
      · rw [hi]; simp only [byteLen_append, byteLen]; omega
      · intro s
        rw [hmem s, show pre ++ d :: (run ++ [c]) = (pre ++ d :: run) ++ [c] by simp,
          isBoundedRun_snoc_of_not_delimiter _ _ hc2]

theorem splitLoop_notfound (line : List Char) :
    ∀ (rest done : List Char) (i : Nat),
      line = done ++ rest → i = byteLen done → (∀ c ∈ done, isDelimiter c = false) →
      (∀ s, s ∈ splitLoop line rest i (-1) false [] ↔ isBoundedRun line s) ∧
        (splitLoop line rest i (-1) false []).Pairwise (fun a b => a.start < b.start) := by
  intro rest
  induction rest with
  | nil =>
    intro done i hline _ hdone
    rw [splitLoop]
    rw [List.append_nil] at hline
    refine ⟨fun s => ?_, List.Pairwise.nil⟩
    rw [hline]
    simp [not_isBoundedRun_of_no_delimiter done hdone s]
  | cons c rest ih =>
    intro done i hline hi hdone
    rw [splitLoop]
    by_cases hc : isDelimiter c = true
    · rw [if_pos hc]
      have hcs := utf8Size_of_isDelimiter hc
      have hcond : ¬ ((-1 : Int) ≥ 0 ∧ false = true ∧ (i : Int) > -1) := by simp
      simp only [if_neg hcond]
      refine splitLoop_found line rest done c [] _ _ [] (by simp [hline]) hc (by simp) ?_ ?_ ?_
        List.Pairwise.nil (by simp)
      · rw [hi, hcs]; simp only [byteLen_append, byteLen, hcs]
      · rw [hi]; simp only [byteLen_append, byteLen, hcs]; push_cast; ring
      · intro s
        rw [isBoundedRun_snoc_of_delimiter _ _ hc]
        simp only [List.not_mem_nil, false_iff, not_or]
        refine ⟨not_isBoundedRun_of_no_delimiter done hdone s, ?_⟩
        rintro ⟨pre2, d1, e2, h1, _⟩
        have := hdone d1 (by rw [e2]; simp)
        simp [this] at h1
    · have hc2 : isDelimiter c = false := by simpa using hc
      rw [if_neg hc]
      have hne : ¬ ((-1 : Int) = -1 ∧ false = true) := by simp
      simp only [if_neg hne]
      refine ih (done ++ [c]) _ (by simp [hline]) ?_ ?_
      · rw [hi]; simp only [byteLen_append, byteLen]; omega
      · intro x hx
        rcases List.mem_append.mp hx with hx | hx
        · exact hdone x hx
        · rw [List.mem_singleton] at hx; rw [hx]; exact hc2

theorem mem_Split (line : List Char) (s : segment) : s ∈ Split line ↔ isBoundedRun line s :=
  (splitLoop_notfound line line [] 0 rfl rfl (by simp)).1 s

theorem Split_pairwise (line : List Char) :
    (Split line).Pairwise (fun a b => a.start < b.start) :=
  (splitLoop_notfound line line [] 0 rfl rfl (by simp)).2

theorem of_outsideAllowed (str : List Char) (st : Bool) (h : outsideAllowed st str = true) :
    ∀ pre c post, str = pre ++ c :: post → titleFlag st pre = false →
      c = ' ' ∨ c = '(' ∨ c = ')' ∨ isFurniture c := by
  induction str generalizing st with
  | nil =>
    intro pre c post e
    exact absurd e (by simp)
  | cons x xs ih =>
    intro pre c post e hf
    rw [outsideAllowed, Bool.and_eq_true, Bool.or_eq_true, decide_eq_true_eq] at h
    cases pre with
    | nil =>
      simp only [List.nil_append, List.cons.injEq] at e
      simp only [titleFlag] at hf
      rw [← e.1]
      rcases h.1 with h1 | h1
      · rw [hf] at h1; exact absurd h1 (by simp)
      · exact h1
    | cons y pre =>
      simp only [List.cons_append, List.cons.injEq] at e
      rw [titleFlag, ← e.1] at hf
      exact ih _ h.2 pre c post e.2 hf

/-! ## The store -/

theorem appendDataFromSegments_rooms (m : Store) (d : Nat) (segs : LineSegments) :
    (appendDataFromSegments m d segs).1.rooms = m.rooms := by
  induction segs generalizing m with
  | nil => rfl
  | cons s segs ih =>
    rw [appendDataFromSegments]
    split
    · rfl
    · rw [ih]; rfl

theorem room_setRoom_of_ne (m : Store) (a b : Nat) (r : openRoom) (h : a ≠ b) :
    (m.setRoom a r).room b = m.room b := by
  unfold Store.room Store.setRoom
  simp only [List.getD_eq_getElem?_getD, List.getElem?_set, if_neg h]

theorem room_setRoom_RoomData (m : Store) (a b : Nat) (segs : LineSegments) :
    ((m.setRoom a { m.room a with segments := segs }).room b).RoomData = (m.room b).RoomData := by
  by_cases h : a = b
  · subst h
    unfold Store.room Store.setRoom
    simp only [List.getD_eq_getElem?_getD, List.getElem?_set]
    by_cases h2 : a < m.rooms.length
    · simp [h2]
    · simp only [if_true, if_neg h2]
      rw [List.getElem?_eq_none (by omega)]
  · rw [room_setRoom_of_ne _ _ _ _ h]

theorem room_of_rooms_eq {m m2 : Store} (h : m2.rooms = m.rooms) (a : Nat) :
    m2.room a = m.room a := by
  unfold Store.room; rw [h]

/-! ## closeRoom -/

theorem findRoom_none (room : Nat) (l : List Nat) (k : Nat) (h : findRoom room l k = none) :
    room ∉ l := by
  induction l generalizing k with
  | nil => simp
  | cons r l ih =>
    rw [findRoom] at h
    by_cases hr : r ≠ room
    · rw [if_pos hr] at h
      simp only [List.mem_cons, not_or]
      exact ⟨fun e => hr e.symm, ih (k + 1) h⟩
    · rw [if_neg hr] at h
      exact absurd h (by simp)

theorem findRoom_some (room : Nat) (l : List Nat) (k f : Nat) (h : findRoom room l k = some f) :
    k ≤ f ∧ l[f - k]? = some room ∧ room ∉ l.take (f - k) := by
  induction l generalizing k with
  | nil => simp [findRoom] at h
  | cons r l ih =>
    rw [findRoom] at h
    by_cases hr : r ≠ room
    · rw [if_pos hr] at h
      obtain ⟨h1, h2, h3⟩ := ih (k + 1) h
      have e : f - k = (f - (k + 1)) + 1 := by omega
      refine ⟨by omega, ?_, ?_⟩
      · rw [e, List.getElem?_cons_succ]; exact h2
      · rw [e, List.take_succ_cons, List.mem_cons, not_or]
        exact ⟨fun e => hr e.symm, h3⟩
    · rw [if_neg hr] at h
      simp only [Option.some.injEq] at h
      have hr2 : r = room := by simpa using hr
      subst h
      simp [hr2]

/-- What `closeRoom` does: nothing when `room` is not in `p.OpenRooms`; otherwise it removes
the first occurrence of `room`, at index `f`, and appends the room's data to `closedRooms`. -/
theorem closeRoom_cases (s : rangeState) (room : Nat) :
    (room ∉ s.backing.take s.len ∧ closeRoom s room = s) ∨
    ∃ f, (s.backing.take s.len)[f]? = some room ∧ room ∉ s.backing.take f ∧
      closeRoom s room =
        { s with
          closedRooms := s.closedRooms ++ [(s.mem.room room).RoomData]
          backing := s.backing.take f ++ (s.backing.take s.len).drop (f + 1)
            ++ s.backing.drop (s.len - 1)
          len := s.len - 1 } := by
  unfold closeRoom
  cases h : findRoom room (s.backing.take s.len) 0 with
  | none => exact Or.inl ⟨findRoom_none _ _ _ h, rfl⟩
  | some f =>
    right
    obtain ⟨_, h2, h3⟩ := findRoom_some _ _ _ _ h
    simp only [Nat.sub_zero] at h2 h3
    have hf : f < s.len := by
      by_contra hc
      rw [List.getElem?_take, if_neg hc] at h2
      exact absurd h2 (by simp)
    have h4 : s.backing[f]? = some room := by
      rw [List.getElem?_take, if_pos hf] at h2; exact h2
    refine ⟨f, h2, ?_, ?_⟩
    · rw [List.take_take, min_eq_left (by omega)] at h3; exact h3
    · simp only [List.getD_eq_getElem?_getD, h4, Option.getD_some]

/-! ## The loop over the open rooms -/

/-- Induction over the iterations of the first loop of `Ingest`, for a call that succeeds. -/
theorem ingestRooms_invariant (P : Nat → rangeState → Prop) (bound : Nat)
    (hclose : ∀ idx s, idx < bound → P idx s →
      (MultipleOverlaps (s.mem.room (s.backing.getD idx 0)).segments
        s.lineSegments).1.length = 0 →
      P (idx + 1) (closeRoom s (s.backing.getD idx 0)))
    (hkeep : ∀ idx s mem, idx < bound → P idx s →
      ¬ (MultipleOverlaps (s.mem.room (s.backing.getD idx 0)).segments
        s.lineSegments).1.length = 0 →
      appendDataFromSegments s.mem (s.mem.room (s.backing.getD idx 0)).RoomData
        (MultipleOverlaps (s.mem.room (s.backing.getD idx 0)).segments s.lineSegments).1
        = (mem, none) →
      P (idx + 1)
        { s with
          mem := mem.setRoom (s.backing.getD idx 0)
            { mem.room (s.backing.getD idx 0) with
              segments := (MultipleOverlaps (s.mem.room (s.backing.getD idx 0)).segments
                s.lineSegments).1 }
          lineSegments := (MultipleOverlaps (s.mem.room (s.backing.getD idx 0)).segments
            s.lineSegments).2 }) :
    ∀ todo idx s s2, idx + todo = bound → P idx s → ingestRooms todo idx s = (s2, none) →
      P bound s2 := by
  intro todo
  induction todo with
  | zero =>
    intro idx s s2 hb hP h
    simp only [ingestRooms, Prod.mk.injEq, and_true] at h
    rw [← h, ← hb]; exact hP
  | succ todo ih =>
    intro idx s s2 hb hP h
    rw [ingestRooms] at h
    simp only at h
    split at h
    · rename_i h0
      exact ih (idx + 1) _ s2 (by omega) (hclose idx s (by omega) hP h0) h
    · rename_i h0
      split at h
      · simp at h
      · rename_i mem hap
        exact ih (idx + 1) _ s2 (by omega) (hkeep idx s mem (by omega) hP h0 hap) h

theorem shift_length (b : List Nat) (f len : Nat) (hf : f < len) (hlen : len ≤ b.length) :
    (b.take f ++ (b.take len).drop (f + 1) ++ b.drop (len - 1)).length = b.length := by
  simp only [List.length_append, List.length_take, List.length_drop]
  omega

theorem shift_take (b : List Nat) (f len : Nat) (hf : f < len) (hlen : len ≤ b.length) :
    (b.take f ++ (b.take len).drop (f + 1) ++ b.drop (len - 1)).take (len - 1) =
      b.take f ++ (b.take len).drop (f + 1) := by
  apply List.take_left'
  simp only [List.length_append, List.length_take, List.length_drop]
  omega

theorem mem_shift_take (b : List Nat) (f len : Nat) (x : Nat)
    (h : x ∈ b.take f ++ (b.take len).drop (f + 1)) (hf : f < len) : x ∈ b.take len := by
  rcases List.mem_append.mp h with h | h
  · have : b.take f = (b.take len).take f := by
      rw [List.take_take, min_eq_left (by omega)]
    rw [this] at h
    exact List.mem_of_mem_take h
  · exact List.mem_of_mem_drop h

/-- The fields of the state after `closeRoom`, when the room is found at index `f`. -/
theorem closeRoom_found (s : rangeState) (room : Nat) (hlen : s.len ≤ s.backing.length) :
    (room ∉ s.backing.take s.len ∧ closeRoom s room = s) ∨
    ∃ f, f < s.len ∧ s.backing[f]? = some room ∧ room ∉ s.backing.take f ∧
      (closeRoom s room).mem = s.mem ∧
      (closeRoom s room).lineSegments = s.lineSegments ∧
      (closeRoom s room).closedRooms = s.closedRooms ++ [(s.mem.room room).RoomData] ∧
      (closeRoom s room).backing =
        s.backing.take f ++ (s.backing.take s.len).drop (f + 1) ++ s.backing.drop (s.len - 1) ∧
      (closeRoom s room).len = s.len - 1 ∧
      (closeRoom s room).backing.length = s.backing.length ∧
      (closeRoom s room).backing.take (closeRoom s room).len =
        s.backing.take f ++ (s.backing.take s.len).drop (f + 1) := by
  rcases closeRoom_cases s room with h | ⟨f, h1, h2, h3⟩
  · exact Or.inl h
  · right
    have hf : f < s.len := by
      by_contra hc
      rw [List.getElem?_take, if_neg hc] at h1
      exact absurd h1 (by simp)
    have h4 : s.backing[f]? = some room := by
      rw [List.getElem?_take, if_pos hf] at h1; exact h1
    refine ⟨f, hf, h4, h2, ?_, ?_, ?_, ?_, ?_, ?_, ?_⟩ <;> rw [h3]
    · exact shift_length _ _ _ hf hlen
    · exact shift_take _ _ _ hf hlen

theorem closeRoom_len_le (s : rangeState) (room : Nat) (hlen : s.len ≤ s.backing.length) :
    (closeRoom s room).len ≤ (closeRoom s room).backing.length := by
  rcases closeRoom_found s room hlen with ⟨_, h⟩ | ⟨f, hf, _, _, _, _, _, _, h5, h6, _⟩
  · rw [h]; exact hlen
  · rw [h5, h6]; omega

theorem closeRoom_open_subset (s : rangeState) (room : Nat) (hlen : s.len ≤ s.backing.length)
    (x : Nat) (h : x ∈ (closeRoom s room).backing.take (closeRoom s room).len) :
    x ∈ s.backing.take s.len := by
  rcases closeRoom_found s room hlen with ⟨_, e⟩ | ⟨f, hf, _, _, _, _, _, _, _, _, h7⟩
  · rw [e] at h; exact h
  · rw [h7] at h
    exact mem_shift_take _ _ _ _ h hf

/-- A room that `closeRoom` finds in a duplicate-free `p.OpenRooms` is in `closedRooms`
afterwards and no longer in `p.OpenRooms`. -/
theorem closeRoom_closes (s : rangeState) (room : Nat) (hlen : s.len ≤ s.backing.length)
    (hmem : room ∈ s.backing.take s.len) (hnodup : (s.backing.take s.len).Nodup) :
    (s.mem.room room).RoomData ∈ (closeRoom s room).closedRooms ∧
      room ∉ (closeRoom s room).backing.take (closeRoom s room).len := by
  rcases closeRoom_found s room hlen with ⟨h, _⟩ | ⟨f, hf, h1, h2, _, _, h4, _, _, _, h7⟩
  · exact absurd hmem h
  · refine ⟨by rw [h4]; simp, ?_⟩
    rw [h7]
    have hfl : f < s.backing.length := by omega
    have hsplit : s.backing.take s.len =
        s.backing.take f ++ room :: (s.backing.take s.len).drop (f + 1) := by
      have h1b : (s.backing.take s.len)[f]? = some room := by
        rw [List.getElem?_take, if_pos hf]; exact h1
      have hfl2 : f < (s.backing.take s.len).length := by
        rw [List.length_take]; omega
      have e1 : (s.backing.take s.len)[f] = room := by
        rw [List.getElem?_eq_getElem hfl2] at h1b
        exact Option.some.inj h1b
      conv_lhs => rw [← List.take_append_drop f (s.backing.take s.len)]
      rw [List.take_take, min_eq_left (by omega), List.drop_eq_getElem_cons hfl2, e1]
    rw [hsplit] at hnodup
    rw [List.nodup_append] at hnodup
    obtain ⟨_, hn2, hdis⟩ := hnodup
    rw [List.mem_append, not_or]
    exact ⟨h2, (List.nodup_cons.mp hn2).1⟩

/-- The first loop of `Ingest` keeps the length of the array under `p.OpenRooms`, the bound
`len(p.OpenRooms) <= len(array)`, the number of allocated rooms and every room's `RoomData`
pointer. -/
theorem ingestRooms_frame (todo idx : Nat) (s s2 : rangeState)
    (hlen : s.len ≤ s.backing.length) (h : ingestRooms todo idx s = (s2, none)) :
    s2.len ≤ s2.backing.length ∧ s2.backing.length = s.backing.length ∧
      s2.mem.rooms.length = s.mem.rooms.length ∧
      ∀ a, (s2.mem.room a).RoomData = (s.mem.room a).RoomData := by
  refine ingestRooms_invariant
    (fun _ t => t.len ≤ t.backing.length ∧ t.backing.length = s.backing.length ∧
      t.mem.rooms.length = s.mem.rooms.length ∧
      ∀ a, (t.mem.room a).RoomData = (s.mem.room a).RoomData)
    (idx + todo) ?_ ?_ todo idx s s2 rfl ⟨hlen, rfl, rfl, fun _ => rfl⟩ h
  · intro j t _ ⟨h1, h2, h3, h4⟩ _
    refine ⟨closeRoom_len_le t _ h1, ?_, ?_, ?_⟩
    · rcases closeRoom_found t (t.backing.getD j 0) h1 with
        ⟨_, e⟩ | ⟨f, _, _, _, _, _, _, _, _, e, _⟩
      · rw [e]; exact h2
      · rw [e]; exact h2
    · rcases closeRoom_found t (t.backing.getD j 0) h1 with
        ⟨_, e⟩ | ⟨f, _, _, _, e, _⟩
      · rw [e]; exact h3
      · rw [e]; exact h3
    · rcases closeRoom_found t (t.backing.getD j 0) h1 with
        ⟨_, e⟩ | ⟨f, _, _, _, e, _⟩
      · rw [e]; exact h4
      · rw [e]; exact h4
  · intro j t mem _ ⟨h1, h2, h3, h4⟩ _ hap
    have hrooms : mem.rooms = t.mem.rooms := by
      have := appendDataFromSegments_rooms t.mem (t.mem.room (t.backing.getD j 0)).RoomData
        (MultipleOverlaps (t.mem.room (t.backing.getD j 0)).segments t.lineSegments).1
      rw [hap] at this; exact this
    refine ⟨h1, h2, ?_, ?_⟩
    · show (mem.rooms.set _ _).length = _
      rw [List.length_set, hrooms]; exact h3
    · intro a
      show ((mem.setRoom _ _).room a).RoomData = _
      rw [room_setRoom_RoomData, room_of_rooms_eq hrooms]
      exact h4 a

/-- Once a room's data is in `closedRooms` and the room is out of `p.OpenRooms`, the rest of
the loop leaves it so. -/
theorem ingestRooms_closed_stable (todo idx : Nat) (s s2 : rangeState) (agg room : Nat)
    (hlen : s.len ≤ s.backing.length) (hagg : agg ∈ s.closedRooms)
    (hroom : room ∉ s.backing.take s.len) (h : ingestRooms todo idx s = (s2, none)) :
    agg ∈ s2.closedRooms ∧ room ∉ s2.backing.take s2.len := by
  have := ingestRooms_invariant
    (fun _ t => t.len ≤ t.backing.length ∧ agg ∈ t.closedRooms ∧
      room ∉ t.backing.take t.len)
    (idx + todo) ?_ ?_ todo idx s s2 rfl ⟨hlen, hagg, hroom⟩ h
  · exact this.2
  · intro j t _ ⟨h1, h2, h3⟩ _
    refine ⟨closeRoom_len_le t _ h1, ?_, fun hx => h3 (closeRoom_open_subset t _ h1 _ hx)⟩
    rcases closeRoom_found t (t.backing.getD j 0) h1 with
      ⟨_, e⟩ | ⟨f, _, _, _, _, _, e, _⟩
    · rw [e]; exact h2
    · rw [e]; exact List.mem_append_left _ h2
  · intro j t mem _ ⟨h1, h2, h3⟩ _ _
    exact ⟨h1, h2, h3⟩

theorem mem_drop_of_le {b : List Nat} {a c x : Nat} (hac : a ≤ c) (h : x ∈ b.drop c) :
    x ∈ b.drop a := by
  have e : b.drop c = (b.drop a).drop (c - a) := by
    rw [List.drop_drop]; congr 1; omega
  rw [e] at h
  exact List.mem_of_mem_drop h

theorem mem_drop_of_getElem_some {b : List Nat} {a j x : Nat} (haj : a ≤ j) (h : b[j]? = some x) :
    x ∈ b.drop a := by
  rw [List.mem_iff_getElem?]
  refine ⟨j - a, ?_⟩
  rw [List.getElem?_drop]
  rw [show a + (j - a) = j by omega]; exact h

theorem mem_take_of_getElem_some {b : List Nat} {a j x : Nat} (hja : j < a) (h : b[j]? = some x) :
    x ∈ b.take a := by
  rw [List.mem_iff_getElem?]
  exact ⟨j, by rw [List.getElem?_take, if_pos hja]; exact h⟩

theorem getD_eq_of_lt (b : List Nat) (j : Nat) (h : j < b.length) :
    b[j]? = some (b.getD j 0) := by
  rw [List.getD_eq_getElem?_getD, List.getElem?_eq_getElem h]; rfl

/-- The rooms at the indices up to `i` of a duplicate-free `p.OpenRooms` stay where they are
while the loop handles the indices after `i`. -/
theorem ingestRooms_survivor (R : List Nat) (i : Nat) (hnodup : R.Nodup)
    (todo idx : Nat) (s s2 : rangeState) (hidx : i < idx) (hb : idx + todo = R.length)
    (hlen : s.len ≤ s.backing.length) (hbl : s.backing.length = R.length)
    (htake : s.backing.take (i + 1) = R.take (i + 1)) (hi : i < s.len)
    (hdrop : ∀ x ∈ s.backing.drop (i + 1), x ∈ R.drop (i + 1))
    (h : ingestRooms todo idx s = (s2, none)) :
    s2.backing.take (i + 1) = R.take (i + 1) ∧ i < s2.len := by
  have := ingestRooms_invariant
    (fun j t => i < j ∧ t.len ≤ t.backing.length ∧ t.backing.length = R.length ∧
      t.backing.take (i + 1) = R.take (i + 1) ∧ i < t.len ∧
      ∀ x ∈ t.backing.drop (i + 1), x ∈ R.drop (i + 1))
    R.length ?_ ?_ todo idx s s2 hb ⟨hidx, hlen, hbl, htake, hi, hdrop⟩ h
  · exact ⟨this.2.2.2.1, this.2.2.2.2.1⟩
  · intro j t hj ⟨h0, h1, h2, h3, h4, h5⟩ _
    have hroom : t.backing[j]? = some (t.backing.getD j 0) := getD_eq_of_lt _ _ (by omega)
    have hnot : t.backing.getD j 0 ∉ t.backing.take (i + 1) := by
      have hin := h5 _ (mem_drop_of_getElem_some (show i + 1 ≤ j by omega) hroom)
      rw [h3]
      have hn := hnodup
      rw [← List.take_append_drop (i + 1) R, List.nodup_append] at hn
      exact fun hx => hn.2.2 hx hin
    rcases closeRoom_found t (t.backing.getD j 0) h1 with
      ⟨_, e⟩ | ⟨f, hf, hf1, _, _, _, _, e4, e5, e6, _⟩
    · rw [e]; exact ⟨by omega, h1, h2, h3, h4, h5⟩
    · have hfi : i + 1 ≤ f := by
        by_contra hc
        exact hnot (mem_take_of_getElem_some (by omega) hf1)
      have hAlen : i + 1 ≤ (t.backing.take f).length := by
        rw [List.length_take]; omega
      refine ⟨by omega, closeRoom_len_le t _ h1, by rw [e6]; exact h2, ?_, by rw [e5]; omega,
        ?_⟩
      · rw [e4, List.append_assoc, List.take_append_of_le_length hAlen, List.take_take,
          min_eq_left hfi]
        exact h3
      · intro x hx
        rw [e4, List.append_assoc, List.drop_append_of_le_length hAlen] at hx
        apply h5
        rcases List.mem_append.mp hx with hx | hx
        · rw [List.drop_take] at hx
          exact List.mem_of_mem_take hx
        · rcases List.mem_append.mp hx with hx | hx
          · rw [List.drop_take] at hx
            exact mem_drop_of_le (show i + 1 ≤ f + 1 by omega) (List.mem_of_mem_take hx)
          · exact mem_drop_of_le (show i + 1 ≤ t.len - 1 by omega) hx
  · intro j t mem hj ⟨h0, h1, h2, h3, h4, h5⟩ _ _
    exact ⟨by omega, h1, h2, h3, h4, h5⟩

theorem getD_ne_of_nodup {R : List Nat} (hnodup : R.Nodup) {j k : Nat} (hj : j < R.length)
    (hk : k < R.length) (hjk : j ≠ k) : R.getD j 0 ≠ R.getD k 0 := by
  rw [List.getD_eq_getElem _ _ hj, List.getD_eq_getElem _ _ hk]
  intro e
  exact hjk ((hnodup.getElem_inj_iff).mp e)

theorem getD_mem {R : List Nat} {j : Nat} (hj : j < R.length) : R.getD j 0 ∈ R := by
  rw [List.getD_eq_getElem _ _ hj]
  exact List.getElem_mem hj

/-- The loop up to and including the room at index `i`, when no room before it is closed by
the call: that room ends closed exactly when no segment left in the pool overlaps it. -/
theorem ingestRooms_prefix (m : Store) (R : List Nat) (hnodup : R.Nodup) (i : Nat)
    (hi : i < R.length) :
    ∀ (todo idx : Nat) (s s2 : rangeState), idx ≤ i → idx + todo = R.length →
      s.backing = R → s.len = R.length →
      (∀ a, (s.mem.room a).RoomData = (m.room a).RoomData) →
      (∀ k, idx ≤ k → k < R.length →
        (s.mem.room (R.getD k 0)).segments = (m.room (R.getD k 0)).segments) →
      ingestRooms todo idx s = (s2, none) →
      (∀ k, idx ≤ k → k < i →
        ¬ ((m.room (R.getD k 0)).RoomData ∈ s2.closedRooms ∧
            R.getD k 0 ∉ s2.backing.take s2.len)) →
      (((m.room (R.getD i 0)).RoomData ∈ s2.closedRooms ∧
          R.getD i 0 ∉ s2.backing.take s2.len) ↔
        ∀ x ∈ s.lineSegments,
          (∃ t ∈ (m.room (R.getD i 0)).segments, spansOverlap t x) →
          ∃ k, idx ≤ k ∧ k < i ∧ ∃ t ∈ (m.room (R.getD k 0)).segments, spansOverlap t x) := by
  intro todo
  induction todo with
  | zero =>
    intro idx s s2 hidx hb
    omega
  | succ todo ih =>
    intro idx s s2 hidx hb hback hslen hdata hsegs h hearlier
    have hidxlt : idx < R.length := by omega
    have hlen : s.len ≤ s.backing.length := by rw [hback, hslen]
    have hroom : s.backing.getD idx 0 = R.getD idx 0 := by rw [hback]
    have hseg : (s.mem.room (R.getD idx 0)).segments = (m.room (R.getD idx 0)).segments :=
      hsegs idx (le_refl _) hidxlt
    rw [ingestRooms] at h
    simp only [hroom, hseg] at h
    split at h
    · -- the room at `idx` has no overlapping segment: it is closed
      rename_i h0
      have hmemR : R.getD idx 0 ∈ s.backing.take s.len := by
        rw [hback, hslen, List.take_length]; exact getD_mem hidxlt
      have hnd : (s.backing.take s.len).Nodup := by
        rw [hback, hslen, List.take_length]; exact hnodup
      obtain ⟨c1, c2⟩ := closeRoom_closes s (R.getD idx 0) hlen hmemR hnd
      rw [hdata] at c1
      have hstable := ingestRooms_closed_stable todo (idx + 1) _ s2 _ _
        (closeRoom_len_le s _ hlen) c1 c2 h
      rcases Nat.lt_or_ge idx i with hlt | hge
      · exact absurd hstable (hearlier idx (le_refl _) hlt)
      · have e : idx = i := by omega
        subst e
        refine ⟨fun _ x hx ⟨t, ht, hov⟩ => ?_, fun _ => hstable⟩
        have hx2 := (mem_overlapping (m.room (R.getD idx 0)).segments s.lineSegments x).mpr
          ⟨hx, t, ht, hov⟩
        rw [List.length_eq_zero] at h0
        rw [h0] at hx2
        exact absurd hx2 (List.not_mem_nil _)
    · rename_i h0
      split at h
      · simp at h
      · rename_i mem hap
        have hrooms : mem.rooms = s.mem.rooms := by
          have := appendDataFromSegments_rooms s.mem (s.mem.room (R.getD idx 0)).RoomData
            (MultipleOverlaps (m.room (R.getD idx 0)).segments s.lineSegments).1
          rw [hap] at this; exact this
        obtain ⟨x0, hx0⟩ := List.exists_mem_of_ne_nil
          (MultipleOverlaps (m.room (R.getD idx 0)).segments s.lineSegments).1
          (fun e => h0 (by rw [e]; rfl))
        obtain ⟨hx0pool, t0, ht0, hov0⟩ :=
          (mem_overlapping (m.room (R.getD idx 0)).segments s.lineSegments x0).mp hx0
        obtain ⟨s1, hs1, h⟩ : ∃ s1 : rangeState, s1 =
            { s with
              mem := mem.setRoom (R.getD idx 0)
                { mem.room (R.getD idx 0) with
                  segments := (MultipleOverlaps (m.room (R.getD idx 0)).segments
                    s.lineSegments).1 }
              lineSegments := (MultipleOverlaps (m.room (R.getD idx 0)).segments
                s.lineSegments).2 } ∧
            ingestRooms todo (idx + 1) s1 = (s2, none) := ⟨_, rfl, h⟩
        have hb1 : s1.backing = R := by rw [hs1]; exact hback
        have hl1 : s1.len = R.length := by rw [hs1]; exact hslen
        have hp1 : s1.lineSegments =
            (MultipleOverlaps (m.room (R.getD idx 0)).segments s.lineSegments).2 := by rw [hs1]
        have hd1 : ∀ a, (s1.mem.room a).RoomData = (m.room a).RoomData := by
          intro a
          rw [hs1]
          show ((mem.setRoom _ _).room a).RoomData = _
          rw [room_setRoom_RoomData, room_of_rooms_eq hrooms]; exact hdata a
        rcases Nat.lt_or_ge idx i with hlt | hge
        · -- an earlier room, which survives
          have key := ih (idx + 1) s1 s2 (by omega) (by omega) hb1 hl1 hd1
            (fun k hk1 hk2 => by
              rw [hs1]
              show ((mem.setRoom _ _).room (R.getD k 0)).segments = _
              rw [room_setRoom_of_ne _ _ _ _
                (getD_ne_of_nodup hnodup hidxlt hk2 (by omega)),
                room_of_rooms_eq hrooms]
              exact hsegs k (by omega) hk2)
            h (fun k hk1 hk2 => hearlier k (by omega) hk2)
          rw [key, hp1, nonOverlapping_eq_filter]
          constructor
          · intro hh x hx hov
            by_cases hc : ∃ t ∈ (m.room (R.getD idx 0)).segments, spansOverlap t x
            · exact ⟨idx, le_refl _, hlt, hc⟩
            · have hxf : x ∈ s.lineSegments.filter (fun s =>
                  decide (∀ s1 ∈ (m.room (R.getD idx 0)).segments, ¬ spansOverlap s1 s)) := by
                rw [List.mem_filter]
                refine ⟨hx, ?_⟩
                simp only [decide_eq_true_eq]
                intro s1 hs1 ho
                exact hc ⟨s1, hs1, ho⟩
              obtain ⟨k, hk1, hk2, hk3⟩ := hh x hxf hov
              exact ⟨k, by omega, hk2, hk3⟩
          · intro hh x hx hov
            rw [List.mem_filter] at hx
            have hno := hx.2
            simp only [decide_eq_true_eq] at hno
            obtain ⟨k, hk1, hk2, t, ht, ho⟩ := hh x hx.1 hov
            rcases Nat.eq_or_lt_of_le hk1 with e | hk
            · subst e
              exact absurd ho (hno t ht)
            · exact ⟨k, hk, hk2, t, ht, ho⟩
        · -- the room at index `i` itself, which survives
          have e : idx = i := by omega
          subst e
          obtain ⟨s1t, s2b⟩ := ingestRooms_survivor R idx hnodup todo (idx + 1) s1 s2
            (by omega) (by omega) (by rw [hb1, hl1]) (by rw [hb1]) (by rw [hb1])
            (by omega) (fun x hx => by rw [hb1] at hx; exact hx) h
          have hin : R.getD idx 0 ∈ s2.backing.take s2.len := by
            have h1 : R.getD idx 0 ∈ R.take (idx + 1) :=
              mem_take_of_getElem_some (by omega) (getD_eq_of_lt R idx hidxlt)
            rw [← s1t] at h1
            have e2 : s2.backing.take (idx + 1) = (s2.backing.take s2.len).take (idx + 1) := by
              rw [List.take_take, min_eq_left (by omega)]
            rw [e2] at h1
            exact List.mem_of_mem_take h1
          constructor
          · intro hc; exact absurd hin hc.2
          · intro hh
            obtain ⟨k, hk1, hk2, _⟩ := hh x0 hx0pool ⟨t0, ht0, hov0⟩
            omega

/-! ## Ingest -/

/-- The second loop of `Ingest` appends to `OpenRooms` rooms that it allocates. -/
theorem openRooms_appends (Line : Int) (segs : LineSegments) (m : Store) (OpenRooms : List Nat) :
    ∃ new, (openRooms Line segs m OpenRooms).2.1 = OpenRooms ++ new ∧
      ∀ x ∈ new, m.rooms.length ≤ x := by
  induction segs generalizing m OpenRooms with
  | nil => exact ⟨[], by simp [openRooms], by simp⟩
  | cons seg segs ih =>
    rw [openRooms]
    simp only
    split
    · exact ⟨[], by simp, by simp⟩
    · rename_i m2 hap
      have hrooms : m2.rooms = m.rooms := by
        have := appendDataFromSegments_rooms { m with datas := m.datas ++ [⟨[], []⟩] }
          m.datas.length [seg]
        rw [hap] at this; exact this
      obtain ⟨new, h1, h2⟩ := ih { m2 with rooms := m2.rooms ++ [⟨m.datas.length, [seg]⟩] }
        (OpenRooms ++ [m2.rooms.length])
      refine ⟨m2.rooms.length :: new, by rw [h1]; simp, ?_⟩
      intro x hx
      rcases List.mem_cons.mp hx with rfl | hx
      · rw [hrooms]
      · have := h2 x hx
        simp only [List.length_append, List.length_cons, List.length_nil, hrooms] at this
        omega

/-- A successful `Ingest`: the first loop ends in a state `s2` without error, `closedRooms`
is the one of `s2`, and `OpenRooms` is `p.OpenRooms` as the first loop left it followed by
newly allocated rooms. -/
theorem Ingest_ok (m : Store) (p : FlatParser) (line : List Char)
    (hok : (Ingest m p line).2.2 = none) :
    ∃ s2 new,
      ingestRooms p.OpenRooms.length 0
        ⟨m, p.OpenRooms, p.OpenRooms.length, p.closedRooms, Split line⟩ = (s2, none) ∧
      (Ingest m p line).2.1.OpenRooms = s2.backing.take s2.len ++ new ∧
      (∀ x ∈ new, s2.mem.rooms.length ≤ x) ∧
      (Ingest m p line).2.1.closedRooms = s2.closedRooms ∧
      (Ingest m p line).2.1.Line = p.Line + 1 := by
  unfold Ingest at hok ⊢
  simp only at hok ⊢
  split at hok
  · simp at hok
  · rename_i s2 hs2
    rw [hs2]
    obtain ⟨new, h1, h2⟩ := openRooms_appends (p.Line + 1) s2.lineSegments s2.mem
      (s2.backing.take s2.len)
    exact ⟨s2, new, rfl, h1, h2, rfl, rfl⟩

/-! ## Lines of the round trip -/

theorem Split_of_delimiters (line : List Char) (h : ∀ c ∈ line, isDelimiter c = true) :
    Split line = [] := by
  rw [List.eq_nil_iff_forall_not_mem]
  intro s hs
  obtain ⟨pre, d1, d2, post, e, _, _, h3, h4, _⟩ := (mem_Split line s).mp hs
  obtain ⟨c, hc⟩ := List.exists_mem_of_ne_nil _ h3
  have h5 := h c (by rw [e]; simp [hc])
  rw [h4 c hc] at h5
  exact absurd h5 (by simp)

theorem splitLoop_run (line : List Char) (run rest : List Char) (i : Nat) (start : Int)
    (segs : LineSegments) (hrun : ∀ c ∈ run, isDelimiter c = false) (hstart : start ≠ -1) :
    splitLoop line (run ++ rest) i start true segs =
      splitLoop line rest (i + byteLen run) start true segs := by
  induction run generalizing i with
  | nil => simp [byteLen]
  | cons c run ih =>
    have hc : ¬ isDelimiter c = true := by
      rw [hrun c (List.mem_cons_self _ _)]; simp
    have hne : ¬ (start = -1 ∧ True) := fun h => hstart h.1
    rw [List.cons_append, splitLoop, if_neg hc]
    simp only [if_neg hne]
    rw [ih _ (fun x hx => hrun x (List.mem_cons_of_mem _ hx))]
    simp only [byteLen, Nat.add_assoc]

theorem Split_of_body (b : List Char) (hne : b ≠ []) (hb : ∀ c ∈ b, isDelimiter c = false) :
    Split ('|' :: b ++ ['|']) = [⟨1, b⟩] := by
  have hpos := byteLen_pos hne
  have hd : isDelimiter '|' = true := by decide
  have hsz : ('|' : Char).utf8Size = 1 := by decide
  unfold Split
  rw [List.cons_append, splitLoop, if_pos hd]
  have hc1 : ¬ ((-1 : Int) ≥ 0 ∧ False ∧ ((0 : Nat) : Int) > -1) := by simp
  simp only [if_neg hc1, hsz]
  rw [splitLoop_run _ b ['|'] _ _ _ hb (by simp), splitLoop, if_pos hd]
  have hc2 : (((0 : Nat) : Int) + 1 ≥ 0 ∧ True ∧ ((0 + 1 + byteLen b : Nat) : Int) >
      ((0 : Nat) : Int) + 1) := by
    refine ⟨by simp, trivial, ?_⟩
    push_cast; omega
  simp only [if_pos hc2, splitLoop]
  have hsub : substr ('|' :: (b ++ ['|'])) (((0 : Nat) : Int) + 1).toNat (0 + 1 + byteLen b) =
      b := by
    have e1 : '|' :: (b ++ ['|']) = ['|'] ++ b ++ ['|'] := by simp
    have e2 : (((0 : Nat) : Int) + 1).toNat = byteLen ['|'] := by
      simp [byteLen, hsz]
    have e3 : 0 + 1 + byteLen b = byteLen ['|'] + byteLen b := by
      simp [byteLen, hsz]
    rw [e1, e2, e3, substr_middle]
  rw [hsub, Trim_of_no_delimiter b hb]
  simp

/-! ## Chair maps -/

theorem ChairMap.get_set (m : ChairMap) (k c : Char) (v : Int) :
    (m.set k v).get c = if c = k then v else m.get c := by
  induction m with
  | nil =>
    simp only [ChairMap.set, ChairMap.get]
    by_cases h : c = k
    · rw [if_pos h, if_pos h.symm]
    · rw [if_neg h, if_neg (fun e => h e.symm)]
  | cons x m ih =>
    obtain ⟨k2, w⟩ := x
    simp only [ChairMap.set]
    by_cases h1 : k < k2
    · simp only [if_pos h1, ChairMap.get]
      by_cases h : c = k
      · rw [if_pos h, if_pos h.symm]
      · rw [if_neg h, if_neg (fun e => h e.symm)]
    · simp only [if_neg h1]
      by_cases h2 : k = k2
      · subst h2
        simp only [if_true, ChairMap.get]
        by_cases h : c = k
        · rw [if_pos h, if_pos h.symm]
        · rw [if_neg h, if_neg (fun e => h e.symm), if_neg (fun e => h e.symm)]
      · simp only [if_neg h2, ChairMap.get, ih]
        by_cases h : k2 = c
        · subst h
          rw [if_pos rfl, if_neg (fun e => h2 e.symm), if_pos rfl]
        · rw [if_neg h, if_neg h]

theorem ChairMap.get_of_not_has (m : ChairMap) (k : Char) (h : m.has k = false) :
    m.get k = 0 := by
  induction m with
  | nil => rfl
  | cons x m ih =>
    obtain ⟨k2, w⟩ := x
    simp only [ChairMap.has] at h
    by_cases h1 : k2 = k
    · simp [h1] at h
    · simp only [if_neg h1] at h
      simp only [ChairMap.get, if_neg h1, ih h]

theorem ChairMap.get_of_forall_ne (m : ChairMap) (k : Char) (h : ∀ x ∈ m, x.1 ≠ k) :
    m.get k = 0 := by
  induction m with
  | nil => rfl
  | cons x m ih =>
    obtain ⟨k2, w⟩ := x
    have h1 : k2 ≠ k := h (k2, w) (List.mem_cons_self _ _)
    simp only [ChairMap.get, if_neg h1]
    exact ih (fun y hy => h y (List.mem_cons_of_mem _ hy))

theorem ChairMap.mem_set (m : ChairMap) (k : Char) (v : Int) (x : Char × Int)
    (h : x ∈ m.set k v) : x.1 = k ∨ x ∈ m := by
  induction m with
  | nil =>
    simp only [ChairMap.set, List.mem_singleton] at h
    exact Or.inl (by rw [h])
  | cons y m ih =>
    obtain ⟨k2, w⟩ := y
    simp only [ChairMap.set] at h
    by_cases h1 : k < k2
    · simp only [if_pos h1, List.mem_cons] at h
      rcases h with h | h | h
      · exact Or.inl (by rw [h])
      · exact Or.inr (by rw [h]; exact List.mem_cons_self _ _)
      · exact Or.inr (List.mem_cons_of_mem _ h)
    · simp only [if_neg h1] at h
      by_cases h2 : k = k2
      · simp only [if_pos h2, List.mem_cons] at h
        rcases h with h | h
        · exact Or.inl (by rw [h, h2])
        · exact Or.inr (List.mem_cons_of_mem _ h)
      · simp only [if_neg h2, List.mem_cons] at h
        rcases h with h | h
        · exact Or.inr (by rw [h]; exact List.mem_cons_self _ _)
        · rcases ih h with h | h
          · exact Or.inl h
          · exact Or.inr (List.mem_cons_of_mem _ h)

theorem ChairMap.sorted_set (m : ChairMap) (k : Char) (v : Int)
    (h : m.Pairwise (fun a b => a.1 < b.1)) : (m.set k v).Pairwise (fun a b => a.1 < b.1) := by
  induction m with
  | nil => simp [ChairMap.set]
  | cons y m ih =>
    obtain ⟨k2, w⟩ := y
    rw [List.pairwise_cons] at h
    simp only [ChairMap.set]
    by_cases h1 : k < k2
    · simp only [if_pos h1]
      rw [List.pairwise_cons]
      refine ⟨?_, List.pairwise_cons.mpr h⟩
      intro x hx
      rcases List.mem_cons.mp hx with rfl | hx
      · exact h1
      · exact lt_trans h1 (h.1 x hx)
    · simp only [if_neg h1]
      by_cases h2 : k = k2
      · simp only [if_pos h2]
        exact List.pairwise_cons.mpr h
      · simp only [if_neg h2]
        rw [List.pairwise_cons]
        refine ⟨?_, ih h.2⟩
        intro x hx
        rcases ChairMap.mem_set m k v x hx with e | hx
        · rw [e]
          rcases lt_trichotomy k k2 with h3 | h3 | h3
          · exact absurd h3 h1
          · exact absurd h3 h2
          · exact h3
        · exact h.1 x hx

theorem appendChairs_get (chairs incoming : ChairMap) (c : Char)
    (h : incoming.Pairwise (fun a b => a.1 < b.1)) :
    (appendChairs chairs incoming).get c = chairs.get c + incoming.get c := by
  induction incoming generalizing chairs with
  | nil => simp [appendChairs, ChairMap.get]
  | cons x incoming ih =>
    obtain ⟨k, v⟩ := x
    rw [List.pairwise_cons] at h
    have hstep : appendChairs chairs ((k, v) :: incoming) =
        appendChairs (chairs.set k (chairs.get k + v)) incoming := by
      rw [appendChairs]
      by_cases hh : chairs.has k = true
      · rw [if_pos hh]
      · have hh2 : chairs.has k = false := by simpa using hh
        rw [if_neg hh, ChairMap.get_of_not_has chairs k hh2, zero_add]
    rw [hstep, ih _ h.2, ChairMap.get_set]
    by_cases hc : c = k
    · subst hc
      have h0 : ChairMap.get incoming c = 0 :=
        ChairMap.get_of_forall_ne incoming c (fun y hy => ne_of_gt (h.1 y hy))
      simp [ChairMap.get, h0]
    · rw [if_neg hc]
      simp only [ChairMap.get]
      rw [if_neg (fun e => hc e.symm)]

theorem segmentDataLoop_sorted (str roomTitle : List Char) (d d2 : roomData) (st : Bool)
    (h : d.Chairs.Pairwise (fun a b => a.1 < b.1))
    (hok : segmentDataLoop str roomTitle d st = .ok d2) :
    d2.Chairs.Pairwise (fun a b => a.1 < b.1) := by
  induction str generalizing roomTitle d st with
  | nil =>
    rw [segmentDataLoop] at hok
    split at hok
    · simp at hok
    · simp only [Except.ok.injEq] at hok
      rw [← hok]; exact h
  | cons c cs ih =>
    rw [segmentDataLoop] at hok
    split at hok
    · exact ih _ _ _ h hok
    · split at hok
      · exact ih _ { d with Name := TrimSpace roomTitle } _ h hok
      · split at hok
        · exact ih _ _ _ h hok
        · split at hok
          · exact ih _ { d with Chairs := d.Chairs.set c (d.Chairs.get c + 1) } _
              (ChairMap.sorted_set _ _ _ h) hok
          · split at hok
            · exact ih _ _ _ h hok
            · simp at hok

theorem segmentData_sorted (str : List Char) (d : roomData) (h : segmentData str = .ok d) :
    d.Chairs.Pairwise (fun a b => a.1 < b.1) :=
  segmentDataLoop_sorted str [] newRoomData d false List.Pairwise.nil h

/-! ## The round trip of one rectangular room -/

theorem Ingest_no_room_no_segment (m : Store) (closed : List Nat) (L : Int) (line : List Char)
    (hsplit : Split line = []) :
    Ingest m ⟨[], closed, L⟩ line = (m, ⟨[], closed, L + 1⟩, none) := by
  simp [Ingest, ingestRooms, hsplit, openRooms]

theorem Ingest_first_body (L : Int) (line b : List Char) (d : roomData)
    (hsplit : Split line = [⟨1, b⟩]) (hd : segmentData b = .ok d) :
    Ingest ⟨[], []⟩ ⟨[], [], L⟩ line =
      (⟨[(⟨[], []⟩ : roomData).append d], [⟨0, [⟨1, b⟩]⟩]⟩, ⟨[0], [], L + 1⟩, none) := by
  simp [Ingest, ingestRooms, hsplit, openRooms, appendDataFromSegments, hd, Store.setData,
    Store.data]

theorem MultipleOverlaps_body (b b2 : List Char) (hb : b ≠ []) (hb2 : b2 ≠ []) :
    MultipleOverlaps [⟨1, b⟩] [⟨1, b2⟩] = ([⟨1, b2⟩], []) := by
  have h1 := byteLen_pos hb
  have h2 := byteLen_pos hb2
  have h3 : ¬ byteLen b = 0 := by omega
  have h4 : ¬ byteLen b2 = 0 := by omega
  simp [MultipleOverlaps, overlapsLoop, overlapsOfOne, segment.Overlaps, Overlaps, h3, h4,
    segmentsDiff, segment.IsInSet, segment.IsSame]

theorem Ingest_next_body (L : Int) (line b b2 : List Char) (D d : roomData)
    (hb : b ≠ []) (hb2 : b2 ≠ [])
    (hsplit : Split line = [⟨1, b2⟩]) (hd : segmentData b2 = .ok d) :
    Ingest ⟨[D], [⟨0, [⟨1, b⟩]⟩]⟩ ⟨[0], [], L⟩ line =
      (⟨[D.append d], [⟨0, [⟨1, b2⟩]⟩]⟩, ⟨[0], [], L + 1⟩, none) := by
  simp [Ingest, ingestRooms, hsplit, openRooms, appendDataFromSegments, hd, Store.setData,
    Store.data, Store.room, Store.setRoom, MultipleOverlaps_body b b2 hb hb2]

theorem Ingest_bottom (L : Int) (line b : List Char) (D : roomData)
    (hsplit : Split line = []) :
    Ingest ⟨[D], [⟨0, [⟨1, b⟩]⟩]⟩ ⟨[0], [], L⟩ line =
      (⟨[D], [⟨0, [⟨1, b⟩]⟩]⟩, ⟨[], [0], L + 1⟩, none) := by
  simp [Ingest, ingestRooms, hsplit, openRooms, Store.room, MultipleOverlaps, overlapsLoop,
    segmentsDiff, closeRoom, findRoom]

theorem parsed_of_ok {b : List Char} {d : roomData} (h : segmentData b = .ok d) :
    parsed b = d := by
  unfold parsed; rw [h]

theorem parsed_sorted (b : List Char) : (parsed b).Chairs.Pairwise (fun a b => a.1 < b.1) := by
  unfold parsed
  split
  · rename_i d h; exact segmentData_sorted b d h
  · exact List.Pairwise.nil

theorem foldl_append_chairs (bodies : List (List Char)) (D : roomData) (c : Char) :
    (bodies.foldl (fun D x => D.append (parsed x)) D).Chairs.get c =
      D.Chairs.get c + (bodies.map (fun b => (parsed b).Chairs.get c)).sum := by
  induction bodies generalizing D with
  | nil => simp
  | cons x xs ih =>
    rw [List.foldl_cons, ih, List.map_cons, List.sum_cons]
    show (appendChairs D.Chairs (parsed x).Chairs).get c + _ = _
    rw [appendChairs_get _ _ _ (parsed_sorted x)]
    ring

theorem foldl_append_name (bodies : List (List Char)) (D : roomData) :
    (bodies.foldl (fun D x => D.append (parsed x)) D).Name =
      (((bodies.map (fun b => (parsed b).Name)).reverse.find?
        (fun n => decide (n ≠ []))).getD D.Name) := by
  induction bodies generalizing D with
  | nil => simp
  | cons x xs ih =>
    rw [List.foldl_cons, ih, List.map_cons, List.reverse_cons, List.find?_append]
    cases hf : ((xs.map (fun b => (parsed b).Name)).reverse.find?
        (fun n => decide (n ≠ []))) with
    | some n => simp
    | none =>
      simp only [Option.getD_none, Option.none_or, List.find?_cons, List.find?_nil]
      show (if (parsed x).Name ≠ [] then (parsed x).Name else D.Name) = _
      by_cases hn : (parsed x).Name = []
      · simp [hn]
      · simp [hn]

theorem ingestLines_bodies (bottom : List Char) (hbottom : Split bottom = []) :
    ∀ (bodies : List (List Char)) (D : roomData) (b : List Char) (L : Int), b ≠ [] →
      (∀ x ∈ bodies, x ≠ [] ∧ (∀ c ∈ x, isDelimiter c = false) ∧
        ∃ d, segmentData x = .ok d) →
      ∃ bl, ingestLines ⟨[D], [⟨0, [⟨1, b⟩]⟩]⟩ ⟨[0], [], L⟩
          (bodies.map contentLine ++ [bottom]) =
        (⟨[bodies.foldl (fun D x => D.append (parsed x)) D], [⟨0, [⟨1, bl⟩]⟩]⟩,
          ⟨[], [0], L + (bodies.length : Int) + 1⟩, none) := by
  intro bodies
  induction bodies with
  | nil =>
    intro D b L _ _
    refine ⟨b, ?_⟩
    simp [ingestLines, Ingest_bottom L bottom b D hbottom]
  | cons x xs ih =>
    intro D b L hb hall
    obtain ⟨hx1, hx2, d, hd⟩ := hall x (List.mem_cons_self _ _)
    obtain ⟨bl, hbl⟩ := ih (D.append d) x (L + 1) hx1
      (fun y hy => hall y (List.mem_cons_of_mem _ hy))
    refine ⟨bl, ?_⟩
    rw [List.map_cons, List.cons_append, ingestLines,
      Ingest_next_body L (contentLine x) b x D d hb hx1 (Split_of_body x hx1 hx2) hd]
    simp only
    rw [hbl, List.foldl_cons, parsed_of_ok hd]
    simp only [List.length_cons, Prod.mk.injEq, FlatParser.mk.injEq, true_and, and_true]
    push_cast; ring

/-! ## Overlaps on sorted, disjoint segments -/

theorem mem_Overlaps (start length : Int) (S : LineSegments) (s : segment) :
    s ∈ Overlaps start length S ↔ s ∈ S ∧
      ¬ (s.start + (byteLen s.content : Int) ≤ start ∨ start + length ≤ s.start) := by
  rw [Overlaps_eq_filter, List.mem_filter, decide_eq_true_eq]

theorem filter_eq_takeWhile {α : Type} (p : α → Bool) (l : List α)
    (h : ∀ (j k : Nat) (hjk : j < k) (hk : k < l.length), p l[k] = true → p (l[j]) = true) :
    l.filter p = l.takeWhile p := by
  induction l with
  | nil => rfl
  | cons y ys ih =>
    have hys : ∀ (j k : Nat) (hjk : j < k) (hk : k < ys.length), p ys[k] = true →
        p (ys[j]) = true := by
      intro j k hjk hk hp
      have := h (j + 1) (k + 1) (by omega) (by simp; omega)
      simp only [List.getElem_cons_succ] at this
      exact this hp
    rw [List.filter_cons, List.takeWhile_cons]
    by_cases hy : p y = true
    · rw [if_pos hy, if_pos hy, ih hys]
    · rw [if_neg hy, if_neg hy, List.filter_eq_nil_iff]
      intro a ha hpa
      obtain ⟨k, hk, rfl⟩ := List.getElem_of_mem ha
      have := h 0 (k + 1) (by omega) (by simp; omega)
      simp only [List.getElem_cons_succ, List.getElem_cons_zero] at this
      exact hy (this hpa)

theorem takeWhile_eq_take {α : Type} (p : α → Bool) (l : List α) :
    ∃ b, l.takeWhile p = l.take b := by
  induction l with
  | nil => exact ⟨0, rfl⟩
  | cons y ys ih =>
    obtain ⟨b, hb⟩ := ih
    rw [List.takeWhile_cons]
    by_cases hy : p y = true
    · exact ⟨b + 1, by rw [if_pos hy, hb, List.take_succ_cons]⟩
    · exact ⟨0, by rw [if_neg hy, List.take_zero]⟩

/-- A filter whose predicate holds on a convex set of indices keeps a contiguous part. -/
theorem filter_eq_drop_take {α : Type} (p : α → Bool) (l : List α)
    (h : ∀ (i j k : Nat) (hij : i < j) (hjk : j < k) (hk : k < l.length),
      p (l[i]) = true → p l[k] = true → p (l[j]) = true) :
    ∃ a b, l.filter p = (l.drop a).take b := by
  induction l with
  | nil => exact ⟨0, 0, rfl⟩
  | cons x xs ih =>
    by_cases hx : p x = true
    · have hdown : ∀ (j k : Nat) (hjk : j < k) (hk : k < xs.length), p xs[k] = true →
          p (xs[j]) = true := by
        intro j k hjk hk hp
        have := h 0 (j + 1) (k + 1) (by omega) (by omega) (by simp; omega)
        simp only [List.getElem_cons_succ, List.getElem_cons_zero] at this
        exact this hx hp
      obtain ⟨b, hb⟩ := takeWhile_eq_take p xs
      refine ⟨0, b + 1, ?_⟩
      rw [List.filter_cons, if_pos hx, filter_eq_takeWhile p xs hdown, hb, List.drop_zero,
        List.take_succ_cons]
    · have hxs : ∀ (i j k : Nat) (hij : i < j) (hjk : j < k) (hk : k < xs.length),
          p (xs[i]) = true → p xs[k] = true → p (xs[j]) = true := by
        intro i j k hij hjk hk hpi hpk
        have := h (i + 1) (j + 1) (k + 1) (by omega) (by omega) (by simp; omega)
        simp only [List.getElem_cons_succ] at this
        exact this hpi hpk
      obtain ⟨a, b, hab⟩ := ih hxs
      exact ⟨a + 1, b, by rw [List.filter_cons, if_neg hx, hab, List.drop_succ_cons]⟩

/-- In a list where each segment ends at or before the start of the next one, a segment
ends at or before the start of every later one. -/
theorem end_le_start_of_chain (S : LineSegments)
    (h : S.Chain' (fun a b => a.start + (byteLen a.content : Int) ≤ b.start))
    (i j : Nat) (hij : i < j) (hj : j < S.length) :
    S[i].start + (byteLen S[i].content : Int) ≤ S[j].start := by
  haveI : IsTrans segment (fun a b => a.start + (byteLen a.content : Int) ≤ b.start) :=
    ⟨fun a b c hab hbc => by
      have : (0 : Int) ≤ (byteLen b.content : Int) := Int.natCast_nonneg _
      show a.start + (byteLen a.content : Int) ≤ c.start
      have h1 : a.start + (byteLen a.content : Int) ≤ b.start := hab
      have h2 : b.start + (byteLen b.content : Int) ≤ c.start := hbc
      omega⟩
  rw [List.chain'_iff_pairwise, List.pairwise_iff_getElem] at h
  exact h i j (by omega) hj hij

theorem Overlaps_convex (start length : Int) (S : LineSegments)
    (h : S.Chain' (fun a b => a.start + (byteLen a.content : Int) ≤ b.start))
    (i j k : Nat) (hij : i < j) (hjk : j < k) (hk : k < S.length)
    (hi : ¬ (S[i].start + (byteLen S[i].content : Int) ≤ start ∨ start + length ≤ S[i].start))
    (hkk : ¬ (S[k].start + (byteLen S[k].content : Int) ≤ start ∨ start + length ≤ S[k].start)) :
    ¬ (S[j].start + (byteLen S[j].content : Int) ≤ start ∨ start + length ≤ S[j].start) := by
  have h1 := end_le_start_of_chain S h i j hij (by omega)
  have h2 := end_le_start_of_chain S h j k hjk hk
  have h3 : (0 : Int) ≤ (byteLen S[j].content : Int) := Int.natCast_nonneg _
  omega

/-! ## The counts and the name of segmentData -/

theorem mem_splits (str pre : List Char) (c : Char) :
    (pre, c) ∈ splits str ↔ ∃ post, str = pre ++ c :: post := by
  induction str generalizing pre with
  | nil => simp [splits]
  | cons x xs ih =>
    rw [splits, List.mem_cons, List.mem_map]
    constructor
    · rintro (h | ⟨⟨p, y⟩, hp, h⟩)
      · simp only [Prod.mk.injEq] at h
        exact ⟨xs, by rw [h.1, h.2]; rfl⟩
      · simp only [Prod.mk.injEq] at h
        obtain ⟨post, hpost⟩ := (ih p).mp (h.2 ▸ hp)
        exact ⟨post, by rw [← h.1, hpost]; rfl⟩
    · rintro ⟨post, h⟩
      cases pre with
      | nil =>
        simp only [List.nil_append, List.cons.injEq] at h
        exact Or.inl (by rw [h.1])
      | cons y p =>
        simp only [List.cons_append, List.cons.injEq] at h
        exact Or.inr ⟨(p, c), (ih p).mpr ⟨post, h.2⟩, by rw [h.1]⟩

theorem occurrencesFrom_cons (st : Bool) (c x : Char) (xs : List Char) :
    occurrencesFrom st c (x :: xs) =
      (if x = c ∧ st = false then 1 else 0) +
        occurrencesFrom (if x = '(' then true else if x = ')' then false else st) c xs := by
  unfold occurrencesFrom
  rw [splits, List.filter_cons, List.filter_map]
  have hfun : ((fun pc : List Char × Char => decide (pc.2 = c) && !titleFlag st pc.1) ∘
      fun pc : List Char × Char => (x :: pc.1, pc.2)) =
      (fun pc : List Char × Char => decide (pc.2 = c) &&
        !titleFlag (if x = '(' then true else if x = ')' then false else st) pc.1) := by
    funext pc
    simp only [Function.comp, titleFlag]
  rw [hfun]
  by_cases h : x = c ∧ st = false
  · rw [if_pos h, if_pos (by simp [titleFlag, h.1, h.2]), List.length_cons, List.length_map]
    omega
  · rw [if_neg h, if_neg (by
      simp only [titleFlag, Bool.and_eq_true, decide_eq_true_eq, Bool.not_eq_true']
      exact h), List.length_map]
    omega

theorem segmentDataLoop_counts (str roomTitle : List Char) (d d2 : roomData) (st : Bool)
    (h : segmentDataLoop str roomTitle d st = .ok d2) :
    (∀ c, isFurniture c → d2.Chairs.get c = d.Chairs.get c + occurrencesFrom st c str) ∧
      ∀ e ∈ d2.Chairs, e ∈ d.Chairs ∨ isFurniture e.1 := by
  induction str generalizing roomTitle d st with
  | nil =>
    rw [segmentDataLoop] at h
    split at h
    · simp at h
    · simp only [Except.ok.injEq] at h
      subst h
      exact ⟨fun c _ => by simp [occurrencesFrom, splits], fun e he => Or.inl he⟩
  | cons x xs ih =>
    rw [segmentDataLoop] at h
    have hne : ∀ c, isFurniture c → c ≠ '(' ∧ c ≠ ')' ∧ c ≠ ' ' := by
      intro c hc
      rcases hc with rfl | rfl | rfl | rfl <;> decide
    split at h
    · rename_i h1
      obtain ⟨i1, i2⟩ := ih _ _ _ h
      refine ⟨fun c hc => ?_, i2⟩
      rw [i1 c hc, occurrencesFrom_cons, if_pos h1,
        if_neg (fun e => (hne c hc).1 (by rw [← e.1, h1]))]
      simp
    · rename_i h1
      split at h
      · rename_i h2
        obtain ⟨i1, i2⟩ := ih _ { d with Name := TrimSpace roomTitle } _ h
        refine ⟨fun c hc => ?_, i2⟩
        rw [i1 c hc, occurrencesFrom_cons, if_neg h1, if_pos h2,
          if_neg (fun e => (hne c hc).2.1 (by rw [← e.1, h2]))]
        simp
      · rename_i h2
        split at h
        · rename_i h3
          obtain ⟨i1, i2⟩ := ih _ _ _ h
          refine ⟨fun c hc => ?_, i2⟩
          rw [i1 c hc, occurrencesFrom_cons, if_neg h1, if_neg h2,
            if_neg (fun e => by rw [h3] at e; exact absurd e.2 (by simp))]
          simp
        · rename_i h3
          have hst : st = false := by simpa using h3
          split at h
          · rename_i h4
            obtain ⟨i1, i2⟩ := ih _
              { d with Chairs := d.Chairs.set x (d.Chairs.get x + 1) } _ h
            refine ⟨fun c hc => ?_, fun e he => ?_⟩
            · rw [i1 c hc, occurrencesFrom_cons, if_neg h1, if_neg h2]
              show (d.Chairs.set x (d.Chairs.get x + 1)).get c + _ = _
              rw [ChairMap.get_set]
              by_cases hcx : c = x
              · subst hcx
                rw [if_pos rfl, if_pos ⟨rfl, hst⟩]
                push_cast; ring
              · rw [if_neg hcx, if_neg (fun e => hcx e.1.symm)]
                push_cast; ring
            · rcases i2 e he with h5 | h5
              · rcases ChairMap.mem_set d.Chairs x _ e h5 with h6 | h6
                · exact Or.inr (by rw [h6]; exact h4)
                · exact Or.inl h6
              · exact Or.inr h5
          · rename_i h4
            split at h
            · rename_i h5
              obtain ⟨i1, i2⟩ := ih _ _ _ h
              refine ⟨fun c hc => ?_, i2⟩
              rw [i1 c hc, occurrencesFrom_cons, if_neg h1, if_neg h2,
                if_neg (fun e => (hne c hc).2.2 (by rw [← e.1, h5]))]
              simp
            · simp at h

/-! ## Aggregates and the report -/

theorem ChairMap.isMap_of_sorted (m : ChairMap) (h : m.Pairwise (fun a b => a.1 < b.1)) :
    m.isMap := by
  unfold ChairMap.isMap
  rw [List.Nodup, List.pairwise_map]
  exact h.imp (fun hab => ne_of_lt hab)

theorem ChairMap.isMap_cons (k : Char) (v : Int) (m : ChairMap)
    (h : ChairMap.isMap ((k, v) :: m)) : (∀ y ∈ m, y.1 ≠ k) ∧ ChairMap.isMap m := by
  unfold ChairMap.isMap at h ⊢
  rw [List.map_cons, List.nodup_cons] at h
  exact ⟨fun y hy e => h.1 (List.mem_map.mpr ⟨y, hy, e⟩), h.2⟩

theorem ChairMap.get_of_mem (m : ChairMap) (h : m.isMap) (e : Char × Int) (he : e ∈ m) :
    m.get e.1 = e.2 := by
  induction m with
  | nil => exact absurd he (List.not_mem_nil _)
  | cons x m ih =>
    obtain ⟨k, v⟩ := x
    obtain ⟨h1, h2⟩ := ChairMap.isMap_cons k v m h
    rcases List.mem_cons.mp he with rfl | he
    · simp [ChairMap.get]
    · rw [ChairMap.get, if_neg (fun e2 => h1 e he e2.symm)]
      exact ih h2 he

theorem appendChairs_get_of_isMap (chairs incoming : ChairMap) (c : Char)
    (h : incoming.isMap) :
    (appendChairs chairs incoming).get c = chairs.get c + incoming.get c := by
  induction incoming generalizing chairs with
  | nil => simp [appendChairs, ChairMap.get]
  | cons x incoming ih =>
    obtain ⟨k, v⟩ := x
    obtain ⟨h1, h2⟩ := ChairMap.isMap_cons k v incoming h
    have hstep : appendChairs chairs ((k, v) :: incoming) =
        appendChairs (chairs.set k (chairs.get k + v)) incoming := by
      rw [appendChairs]
      by_cases hh : chairs.has k = true
      · rw [if_pos hh]
      · have hh2 : chairs.has k = false := by simpa using hh
        rw [if_neg hh, ChairMap.get_of_not_has chairs k hh2, zero_add]
    rw [hstep, ih _ h2, ChairMap.get_set]
    by_cases hc : c = k
    · subst hc
      have h0 : ChairMap.get incoming c = 0 := ChairMap.get_of_forall_ne incoming c h1
      simp [ChairMap.get, h0]
    · rw [if_neg hc]
      simp only [ChairMap.get]
      rw [if_neg (fun e => hc e.symm)]

theorem foldl_append_get (ds : List roomData) (D : roomData) (c : Char)
    (h : ∀ d ∈ ds, d.Chairs.isMap) :
    (ds.foldl (fun totals d => totals.append d) D).Chairs.get c =
      D.Chairs.get c + (ds.map (fun d => d.Chairs.get c)).sum := by
  induction ds generalizing D with
  | nil => simp
  | cons d ds ih =>
    rw [List.foldl_cons, ih _ (fun x hx => h x (List.mem_cons_of_mem _ hx)), List.map_cons,
      List.sum_cons]
    show (appendChairs D.Chairs d.Chairs).get c + _ = _
    rw [appendChairs_get_of_isMap _ _ _ (h d (List.mem_cons_self _ _))]
    ring

theorem totals_eq (m : Store) (p : FlatParser) (name : List Char) :
    p.totals m name =
      { (p.closedRooms.map m.data).foldl (fun totals d => int64.roomData.append totals d)
          newRoomData with
        Name := name } := by
  unfold FlatParser.totals
  rw [List.foldl_map]

/-- The sorted keys of a map, paired with their values, are the entries of the map in
ascending order of key. -/
theorem sorted_entries (m : ChairMap) (h : m.isMap) :
    (((m.map Prod.fst).insertionSort (fun a b => a ≤ b)).map (fun k => (k, m.get k))).Perm m ∧
    (((m.map Prod.fst).insertionSort (fun a b => a ≤ b)).map
      (fun k => (k, m.get k))).Pairwise (fun a b => a.1 < b.1) := by
  have hperm := List.perm_insertionSort (fun a b : Char => a ≤ b) (m.map Prod.fst)
  constructor
  · have h1 := hperm.map (fun k => (k, m.get k))
    have h2 : (m.map Prod.fst).map (fun k => (k, m.get k)) = m := by
      rw [List.map_map]
      conv_rhs => rw [← List.map_id m]
      apply List.map_congr_left
      intro e he
      show (e.1, m.get e.1) = e
      rw [ChairMap.get_of_mem m h e he]
    rw [h2] at h1
    exact h1
  · rw [List.pairwise_map]
    have hs : List.Sorted (fun a b : Char => a ≤ b)
        ((m.map Prod.fst).insertionSort (fun a b => a ≤ b)) :=
      List.sorted_insertionSort _ _
    have hn : ((m.map Prod.fst).insertionSort (fun a b => a ≤ b)).Nodup :=
      hperm.nodup_iff.mpr h
    exact hs.lt_of_le hn

/-! ## The errors of Ingest -/

theorem appendDataFromSegments_error_iff (m : Store) (d : Nat) (segs : LineSegments) :
    (appendDataFromSegments m d segs).2 ≠ none ↔
      ∃ s ∈ segs, ∃ e, segmentData s.content = .error e := by
  induction segs generalizing m with
  | nil => simp [appendDataFromSegments]
  | cons s segs ih =>
    rw [appendDataFromSegments]
    split
    · rename_i err herr
      simp only [ne_eq, reduceCtorEq, not_false_eq_true, List.mem_cons, exists_eq_or_imp,
        true_iff]
      exact Or.inl ⟨err, herr⟩
    · rename_i data hdata
      rw [ih]
      simp only [List.mem_cons, exists_eq_or_imp, hdata, reduceCtorEq, exists_false,
        false_or]

theorem closeRoom_lineSegments (s : rangeState) (room : Nat) :
    (closeRoom s room).lineSegments = s.lineSegments := by
  rcases closeRoom_cases s room with ⟨_, h⟩ | ⟨f, _, _, h⟩ <;> rw [h]

/-- The first loop of `Ingest` fails only on a segment of its pool, and when it succeeds the
pool it leaves still holds every segment that `segmentData` rejects. -/
theorem ingestRooms_errors (todo idx : Nat) (s : rangeState) :
    ((ingestRooms todo idx s).2 ≠ none →
      ∃ x ∈ s.lineSegments, ∃ e, segmentData x.content = .error e) ∧
    ((ingestRooms todo idx s).2 = none →
      (∀ x ∈ (ingestRooms todo idx s).1.lineSegments, x ∈ s.lineSegments) ∧
      ∀ x ∈ s.lineSegments, (∃ e, segmentData x.content = .error e) →
        x ∈ (ingestRooms todo idx s).1.lineSegments) := by
  induction todo generalizing idx s with
  | zero =>
    simp only [ingestRooms]
    exact ⟨fun h => absurd rfl h, fun _ => ⟨fun x hx => hx, fun x hx _ => hx⟩⟩
  | succ todo ih =>
    rw [ingestRooms]
    simp only
    split
    · obtain ⟨i1, i2⟩ := ih (idx + 1) (closeRoom s (s.backing.getD idx 0))
      rw [closeRoom_lineSegments] at i1 i2
      exact ⟨i1, i2⟩
    · split
      · rename_i mem err hap
        refine ⟨fun _ => ?_, fun h => absurd h (by simp)⟩
        have h1 := (appendDataFromSegments_error_iff s.mem
          (s.mem.room (s.backing.getD idx 0)).RoomData
          (MultipleOverlaps (s.mem.room (s.backing.getD idx 0)).segments
            s.lineSegments).1).mp (by rw [hap]; simp)
        obtain ⟨x, hx, he⟩ := h1
        exact ⟨x, ((mem_overlapping _ _ x).mp hx).1, he⟩
      · rename_i mem hap
        have hall : ¬ ∃ x ∈ (MultipleOverlaps (s.mem.room (s.backing.getD idx 0)).segments
            s.lineSegments).1, ∃ e, segmentData x.content = .error e := by
          rw [← appendDataFromSegments_error_iff s.mem
            (s.mem.room (s.backing.getD idx 0)).RoomData, hap]
          simp
        obtain ⟨i1, i2⟩ := ih (idx + 1)
          { s with
            mem := mem.setRoom (s.backing.getD idx 0)
              { mem.room (s.backing.getD idx 0) with
                segments := (MultipleOverlaps (s.mem.room (s.backing.getD idx 0)).segments
                  s.lineSegments).1 }
            lineSegments := (MultipleOverlaps (s.mem.room (s.backing.getD idx 0)).segments
              s.lineSegments).2 }
        have hsub : ∀ x ∈ (MultipleOverlaps (s.mem.room (s.backing.getD idx 0)).segments
            s.lineSegments).2, x ∈ s.lineSegments := by
          intro x hx
          rw [nonOverlapping_eq_filter] at hx
          exact (List.mem_filter.mp hx).1
        refine ⟨fun h => ?_, fun h => ⟨fun x hx => ?_, fun x hx he => ?_⟩⟩
        · obtain ⟨x, hx, he⟩ := i1 h
          exact ⟨x, hsub x hx, he⟩
        · exact hsub x ((i2 h).1 x hx)
        · apply (i2 h).2 x _ he
          show x ∈ (MultipleOverlaps (s.mem.room (s.backing.getD idx 0)).segments
            s.lineSegments).2
          rw [nonOverlapping_eq_filter, List.mem_filter]
          refine ⟨hx, ?_⟩
          rw [decide_eq_true_eq]
          intro s1 hs1 hov
          exact hall ⟨x, (mem_overlapping _ _ x).mpr ⟨hx, s1, hs1, hov⟩, he⟩

theorem openRooms_error_iff (Line : Int) (segs : LineSegments) (m : Store)
    (OpenRooms : List Nat) :
    (openRooms Line segs m OpenRooms).2.2 ≠ none ↔
      ∃ x ∈ segs, ∃ e, segmentData x.content = .error e := by
  induction segs generalizing m OpenRooms with
  | nil => simp [openRooms]
  | cons seg segs ih =>
    rw [openRooms]
    simp only
    have hA := appendDataFromSegments_error_iff { m with datas := m.datas ++ [⟨[], []⟩] }
      m.datas.length [seg]
    split
    · rename_i m2 err hap
      rw [hap] at hA
      simp only [ne_eq, reduceCtorEq, not_false_eq_true, List.mem_singleton, exists_eq_left,
        true_iff] at hA
      simp only [ne_eq, reduceCtorEq, not_false_eq_true, List.mem_cons, exists_eq_or_imp,
        true_iff]
      exact Or.inl hA
    · rename_i m2 hap
      rw [hap] at hA
      simp only [ne_eq, not_true_eq_false, List.mem_singleton, exists_eq_left,
        false_iff] at hA
      rw [ih]
      simp only [List.mem_cons, exists_eq_or_imp, hA, false_or]

/-! ## Ingest on a new parser -/

theorem ChairMap.has_of_forall_ne (m : ChairMap) (k : Char) (h : ∀ x ∈ m, x.1 ≠ k) :
    m.has k = false := by
  induction m with
  | nil => rfl
  | cons x m ih =>
    obtain ⟨k2, w⟩ := x
    have h1 : k2 ≠ k := h (k2, w) (List.mem_cons_self _ _)
    simp only [ChairMap.has, if_neg h1]
    exact ih (fun y hy => h y (List.mem_cons_of_mem _ hy))

theorem ChairMap.set_of_forall_lt (m : ChairMap) (k : Char) (v : Int)
    (h : ∀ x ∈ m, x.1 < k) : m.set k v = m ++ [(k, v)] := by
  induction m with
  | nil => rfl
  | cons x m ih =>
    obtain ⟨k2, w⟩ := x
    have h1 : k2 < k := h (k2, w) (List.mem_cons_self _ _)
    simp only [ChairMap.set, if_neg (not_lt_of_gt h1), if_neg (ne_of_gt h1), List.cons_append]
    rw [ih (fun y hy => h y (List.mem_cons_of_mem _ hy))]

theorem appendChairs_sorted (chairs incoming : ChairMap)
    (h : (chairs ++ incoming).Pairwise (fun a b => a.1 < b.1)) :
    appendChairs chairs incoming = chairs ++ incoming := by
  induction incoming generalizing chairs with
  | nil => simp [appendChairs]
  | cons x incoming ih =>
    obtain ⟨k, v⟩ := x
    have hlt : ∀ y ∈ chairs, y.1 < k := by
      intro y hy
      exact (List.pairwise_append.mp h).2.2 y hy (k, v) (List.mem_cons_self _ _)
    rw [appendChairs, ChairMap.has_of_forall_ne chairs k (fun y hy => ne_of_lt (hlt y hy))]
    simp only [Bool.false_eq_true, if_false]
    rw [ChairMap.set_of_forall_lt chairs k v hlt, ih _ (by simpa using h)]
    simp

theorem empty_append (d : roomData) (h : d.Chairs.Pairwise (fun a b => a.1 < b.1)) :
    (⟨[], []⟩ : roomData).append d = d := by
  unfold roomData.append
  cases d with
  | mk name chairs =>
    simp only [roomData.mk.injEq]
    refine ⟨by by_cases hn : name = [] <;> simp [hn], ?_⟩
    rw [appendChairs_sorted [] chairs (by simpa using h)]
    simp

/-- The second loop of `Ingest` when every segment parses: one new `roomData` and one new
`openRoom` for each segment, in order. -/
theorem openRooms_ok (Line : Int) (segs : LineSegments) (m : Store) (OpenRooms : List Nat)
    (h : ∀ s ∈ segs, ∃ d, segmentData s.content = .ok d) :
    openRooms Line segs m OpenRooms =
      (⟨m.datas ++ segs.map (fun s => parsed s.content),
        m.rooms ++ (segs.enumFrom m.datas.length).map (fun is => ⟨is.1, [is.2]⟩)⟩,
        OpenRooms ++ List.range' m.rooms.length segs.length, none) := by
  induction segs generalizing m OpenRooms with
  | nil => simp [openRooms]
  | cons seg segs ih =>
    obtain ⟨d, hd⟩ := h seg (List.mem_cons_self _ _)
    have hap : appendDataFromSegments { m with datas := m.datas ++ [⟨[], []⟩] } m.datas.length
        [seg] = (⟨m.datas ++ [d], m.rooms⟩, none) := by
      simp only [appendDataFromSegments, hd, Store.setData, Store.data]
      simp [empty_append d (segmentData_sorted _ _ hd)]
    rw [openRooms]
    simp only [hap]
    rw [ih _ _ (fun s hs => h s (List.mem_cons_of_mem _ hs))]
    simp [parsed_of_ok hd, List.enumFrom_cons, List.range'_succ]

/-! ## Reading the input -/

theorem ReadString_rest_length (delim : Char) (reader : List Char)
    (h : (ReadString delim reader).2.2 = false) :
    (ReadString delim reader).2.1.length < reader.length := by
  induction reader with
  | nil => simp [ReadString] at h
  | cons c reader ih =>
    rw [ReadString] at h ⊢
    split
    · simp
    · rename_i hc
      rw [if_neg hc] at h
      have := ih h
      simp only [List.length_cons]; omega

theorem ingestAllCalls_congr (a b : Nat) (m : Store) (p : FlatParser) (reader : List Char)
    (ha : reader.length < a) (hb : reader.length < b) :
    ingestAllCalls a m p reader = ingestAllCalls b m p reader := by
  induction a generalizing b m p reader with
  | zero => omega
  | succ a ih =>
    cases b with
    | zero => omega
    | succ b =>
      rw [ingestAllCalls, ingestAllCalls]
      by_cases hEOF : (ReadString '\n' reader).2.2 = true
      · rw [if_pos hEOF, if_pos hEOF]
      · rw [if_neg hEOF, if_neg hEOF]
        have hlt := ReadString_rest_length '\n' reader (by simpa using hEOF)
        cases hI : Ingest m p (ReadString '\n' reader).1 with
        | mk m2 r =>
          cases r with
          | mk p2 e =>
            cases e with
            | some err => rfl
            | none =>
              simp only
              exact ih b m2 p2 _ (by omega) (by omega)

/-- The bound on the calls of `IngestAllFromReader` is never reached: more calls than the
text has characters give the same result. -/
theorem ingestAllCalls_enough (calls : Nat) (m : Store) (p : FlatParser) (reader : List Char)
    (h : reader.length < calls) :
    ingestAllCalls calls m p reader = IngestAllFromReader m p reader :=
  ingestAllCalls_congr calls (reader.length + 1) m p reader h (by omega)

/-- One call of `IngestAllFromReader`, as in the source. -/
theorem IngestAllFromReader_eq (m : Store) (p : FlatParser) (reader : List Char) :
    IngestAllFromReader m p reader =
      if (ReadString '\n' reader).2.2 = true then (m, p, none)
      else
        match Ingest m p (ReadString '\n' reader).1 with
        | (m2, p2, some err) => (m2, p2, some ⟨p2.Line, err⟩)
        | (m2, p2, none) => IngestAllFromReader m2 p2 (ReadString '\n' reader).2.1 := by
  conv_lhs => rw [IngestAllFromReader, ingestAllCalls]
  by_cases hEOF : (ReadString '\n' reader).2.2 = true
  · rw [if_pos hEOF, if_pos hEOF]
  · rw [if_neg hEOF, if_neg hEOF]
    have hlt := ReadString_rest_length '\n' reader (by simpa using hEOF)
    cases hI : Ingest m p (ReadString '\n' reader).1 with
    | mk m2 r =>
      cases r with
      | mk p2 e =>
        cases e with
        | some err => rfl
        | none =>
          simp only
          exact ingestAllCalls_enough _ m2 p2 _ (by omega)

/-! ## Closed rooms are kept -/

theorem appendDataFromSegments_datas (m : Store) (d : Nat) (segs : LineSegments) :
    (appendDataFromSegments m d segs).1.datas.length = m.datas.length ∧
      ∀ a, a ≠ d → (appendDataFromSegments m d segs).1.data a = m.data a := by
  induction segs generalizing m with
  | nil => exact ⟨rfl, fun _ _ => rfl⟩
  | cons s segs ih =>
    rw [appendDataFromSegments]
    split
    · exact ⟨rfl, fun _ _ => rfl⟩
    · rename_i data _
      obtain ⟨h1, h2⟩ := ih (m.setData d ((m.data d).append data))
      refine ⟨by rw [h1]; simp [Store.setData], fun a ha => ?_⟩
      rw [h2 a ha]
      unfold Store.data Store.setData
      simp only [List.getD_eq_getElem?_getD, List.getElem?_set]
      rw [if_neg (fun e : d = a => ha e.symm)]

theorem appendDataFromSegments_last (pre : List roomData) (x : roomData)
    (rooms : List openRoom) (segs : LineSegments) :
    ∃ x2, (appendDataFromSegments ⟨pre ++ [x], rooms⟩ pre.length segs).1 =
      ⟨pre ++ [x2], rooms⟩ := by
  induction segs generalizing x with
  | nil => exact ⟨x, rfl⟩
  | cons s segs ih =>
    rw [appendDataFromSegments]
    split
    · exact ⟨x, rfl⟩
    · rename_i data _
      have e : (⟨pre ++ [x], rooms⟩ : Store).setData pre.length
          (((⟨pre ++ [x], rooms⟩ : Store).data pre.length).append data) =
          ⟨pre ++ [x.append data], rooms⟩ := by
        simp [Store.setData, Store.data]
      rw [e]
      exact ih _

/-- The second loop of `Ingest`, whether it fails or not: it appends new `roomData`s and new
`openRoom`s to the store, the new rooms to `OpenRooms`, and the `i`-th new room points to the
`i`-th new `roomData`. -/
theorem openRooms_shape (Line : Int) (segs : LineSegments) (m : Store) (OpenRooms : List Nat) :
    ∃ (newRooms : List openRoom) (newDatas : List roomData),
      (openRooms Line segs m OpenRooms).1 = ⟨m.datas ++ newDatas, m.rooms ++ newRooms⟩ ∧
      (openRooms Line segs m OpenRooms).2.1 =
        OpenRooms ++ List.range' m.rooms.length newRooms.length ∧
      newRooms.map (fun r => r.RoomData) = List.range' m.datas.length newRooms.length ∧
      newRooms.length ≤ newDatas.length := by
  induction segs generalizing m OpenRooms with
  | nil => exact ⟨[], [], by simp [openRooms], by simp [openRooms], rfl, le_refl _⟩
  | cons seg segs ih =>
    obtain ⟨x2, hx2⟩ := appendDataFromSegments_last m.datas ⟨[], []⟩ m.rooms [seg]
    rw [openRooms]
    simp only
    split
    · rename_i m2 err hap
      have e : m2 = ⟨m.datas ++ [x2], m.rooms⟩ := by
        have := congrArg Prod.fst hap
        simp only at this
        rw [← this]; exact hx2
      exact ⟨[], [x2], by simp [e], by simp, rfl, by simp⟩
    · rename_i m2 hap
      have e : m2 = ⟨m.datas ++ [x2], m.rooms⟩ := by
        have := congrArg Prod.fst hap
        simp only at this
        rw [← this]; exact hx2
      obtain ⟨nr, nd, h1, h2, h3, h4⟩ := ih
        { m2 with rooms := m2.rooms ++ [⟨m.datas.length, [seg]⟩] } (OpenRooms ++ [m2.rooms.length])
      refine ⟨⟨m.datas.length, [seg]⟩ :: nr, x2 :: nd, ?_, ?_, ?_, ?_⟩
      · rw [h1, e]; simp
      · rw [h2, e]; simp [List.range'_succ]
      · rw [List.map_cons, h3, e]; simp [List.range'_succ]
      · simp only [List.length_cons]; omega

/-- Induction over the iterations of the first loop of `Ingest`, for a call that succeeds or
fails: `Q` holds of the state in which the loop ends or returns its error. -/
theorem ingestRooms_invariant_result (P : Nat → rangeState → Prop) (Q : rangeState → Prop)
    (bound : Nat) (hdone : ∀ s, P bound s → Q s)
    (hclose : ∀ idx s, idx < bound → P idx s →
      (MultipleOverlaps (s.mem.room (s.backing.getD idx 0)).segments
        s.lineSegments).1.length = 0 →
      P (idx + 1) (closeRoom s (s.backing.getD idx 0)))
    (hkeep : ∀ idx s mem, idx < bound → P idx s →
      ¬ (MultipleOverlaps (s.mem.room (s.backing.getD idx 0)).segments
        s.lineSegments).1.length = 0 →
      appendDataFromSegments s.mem (s.mem.room (s.backing.getD idx 0)).RoomData
        (MultipleOverlaps (s.mem.room (s.backing.getD idx 0)).segments s.lineSegments).1
        = (mem, none) →
      P (idx + 1)
        { s with
          mem := mem.setRoom (s.backing.getD idx 0)
            { mem.room (s.backing.getD idx 0) with
              segments := (MultipleOverlaps (s.mem.room (s.backing.getD idx 0)).segments
                s.lineSegments).1 }
          lineSegments := (MultipleOverlaps (s.mem.room (s.backing.getD idx 0)).segments
            s.lineSegments).2 })
    (herr : ∀ idx s mem err, idx < bound → P idx s →
      ¬ (MultipleOverlaps (s.mem.room (s.backing.getD idx 0)).segments
        s.lineSegments).1.length = 0 →
      appendDataFromSegments s.mem (s.mem.room (s.backing.getD idx 0)).RoomData
        (MultipleOverlaps (s.mem.room (s.backing.getD idx 0)).segments s.lineSegments).1
        = (mem, some err) →
      Q { s with mem := mem }) :
    ∀ todo idx s, idx + todo = bound → P idx s → Q (ingestRooms todo idx s).1 := by
  intro todo
  induction todo with
  | zero =>
    intro idx s hb hP
    simp only [ingestRooms]
    rw [Nat.add_zero] at hb
    exact hdone s (hb ▸ hP)
  | succ todo ih =>
    intro idx s hb hP
    rw [ingestRooms]
    simp only
    split
    · rename_i h0
      exact ih (idx + 1) _ (by omega) (hclose idx s (by omega) hP h0)
    · rename_i h0
      split
      · rename_i mem err hap
        exact herr idx s mem err (by omega) hP h0 hap
      · rename_i mem hap
        exact ih (idx + 1) _ (by omega) (hkeep idx s mem (by omega) hP h0 hap)

theorem take_split_at (b : List Nat) (f len room : Nat) (hf : f < len)
    (h : b[f]? = some room) :
    b.take len = b.take f ++ room :: (b.take len).drop (f + 1) := by
  have h1b : (b.take len)[f]? = some room := by
    rw [List.getElem?_take, if_pos hf]; exact h
  have hfl2 : f < (b.take len).length := by
    by_contra hc
    rw [List.getElem?_eq_none (by omega)] at h1b
    exact absurd h1b (by simp)
  have e1 : (b.take len)[f] = room := by
    rw [List.getElem?_eq_getElem hfl2] at h1b
    exact Option.some.inj h1b
  conv_lhs => rw [← List.take_append_drop f (b.take len)]
  rw [List.take_take, min_eq_left (by omega), List.drop_eq_getElem_cons hfl2, e1]

theorem closingInv_closeRoom (m : Store) (R closed : List Nat) (s : rangeState) (room : Nat)
    (h : closingInv m R closed s) : closingInv m R closed (closeRoom s room) := by
  obtain ⟨h1, h2, h3, ⟨C, h4, h5⟩, h6, h7, h8, h9⟩ := h
  rcases closeRoom_found s room h1 with
    ⟨_, e⟩ | ⟨f, hf, hf1, _, e1, _, e3, e4, e5, e6, e7⟩
  · rw [e]; exact ⟨h1, h2, h3, ⟨C, h4, h5⟩, h6, h7, h8, h9⟩
  · refine ⟨closeRoom_len_le s room h1, by rw [e6]; exact h2, ?_, ⟨C ++ [room], ?_, ?_⟩,
      by rw [e1]; exact h6, by rw [e1]; exact h7, by rw [e1]; exact h8,
      by rw [e1]; exact h9⟩
    · intro x hx
      rw [e4] at hx
      apply h3
      rcases List.mem_append.mp hx with hx | hx
      · rcases List.mem_append.mp hx with hx | hx
        · exact List.mem_of_mem_take hx
        · exact List.mem_of_mem_take (List.mem_of_mem_drop hx)
      · exact List.mem_of_mem_drop hx
    · rw [e3, h4, h7 room]; simp
    · rw [e7]
      have hsplit := take_split_at s.backing f s.len room hf hf1
      rw [hsplit] at h5
      refine List.Perm.trans ?_ h5
      rw [List.perm_iff_count]
      intro a
      simp only [List.count_append, List.count_cons, List.count_nil]
      omega

/-- The invariant `closingInv` holds of the state in which the first loop of `Ingest` ends,
with or without an error, when no open room's aggregate is among the closed ones. -/
theorem ingestRooms_closingInv (m : Store) (R closed : List Nat) (pool : LineSegments)
    (hdisj : ∀ r ∈ R, (m.room r).RoomData ∉ closed) :
    closingInv m R closed (ingestRooms R.length 0 ⟨m, R, R.length, closed, pool⟩).1 := by
  have hfresh : ∀ (idx : Nat) (s : rangeState), idx < R.length → closingInv m R closed s →
      ∀ a ∈ closed, a ≠ (s.mem.room (s.backing.getD idx 0)).RoomData := by
    intro idx s hidx ⟨_, h2, h3, _, _, h7, _, _⟩ a ha e
    have hmem : s.backing.getD idx 0 ∈ R := by
      apply h3
      rw [List.getD_eq_getElem _ _ (by omega)]
      exact List.getElem_mem _
    rw [h7] at e
    exact hdisj _ hmem (e ▸ ha)
  refine ingestRooms_invariant_result (fun _ s => closingInv m R closed s)
    (closingInv m R closed) R.length (fun s hs => hs) ?_ ?_ ?_ R.length 0 _ (by omega) ?_
  · intro idx s _ hP _
    exact closingInv_closeRoom m R closed s _ hP
  · intro idx s mem hidx hP _ hap
    have hfr := hfresh idx s hidx hP
    obtain ⟨h1, h2, h3, h45, h6, h7, h8, h9⟩ := hP
    have hrooms : mem.rooms = s.mem.rooms := by
      have := appendDataFromSegments_rooms s.mem (s.mem.room (s.backing.getD idx 0)).RoomData
        (MultipleOverlaps (s.mem.room (s.backing.getD idx 0)).segments s.lineSegments).1
      rw [hap] at this; exact this
    obtain ⟨d1, d2⟩ := appendDataFromSegments_datas s.mem
      (s.mem.room (s.backing.getD idx 0)).RoomData
      (MultipleOverlaps (s.mem.room (s.backing.getD idx 0)).segments s.lineSegments).1
    rw [hap] at d1 d2
    refine ⟨h1, h2, h3, h45, ?_, ?_, ?_, ?_⟩
    · show (mem.rooms.set _ _).length = _
      rw [List.length_set, hrooms]; exact h6
    · intro a
      show ((mem.setRoom _ _).room a).RoomData = _
      rw [room_setRoom_RoomData, room_of_rooms_eq hrooms]
      exact h7 a
    · show mem.datas.length = _
      rw [d1]; exact h8
    · intro a ha
      show mem.data a = _
      rw [d2 a (hfr a ha)]; exact h9 a ha
  · intro idx s mem err hidx hP _ hap
    have hfr := hfresh idx s hidx hP
    obtain ⟨h1, h2, h3, h45, h6, h7, h8, h9⟩ := hP
    have hrooms : mem.rooms = s.mem.rooms := by
      have := appendDataFromSegments_rooms s.mem (s.mem.room (s.backing.getD idx 0)).RoomData
        (MultipleOverlaps (s.mem.room (s.backing.getD idx 0)).segments s.lineSegments).1
      rw [hap] at this; exact this
    obtain ⟨d1, d2⟩ := appendDataFromSegments_datas s.mem
      (s.mem.room (s.backing.getD idx 0)).RoomData
      (MultipleOverlaps (s.mem.room (s.backing.getD idx 0)).segments s.lineSegments).1
    rw [hap] at d1 d2
    refine ⟨h1, h2, h3, h45, ?_, ?_, ?_, ?_⟩
    · show mem.rooms.length = _
      rw [hrooms]; exact h6
    · intro a
      show (mem.room a).RoomData = _
      rw [room_of_rooms_eq hrooms]; exact h7 a
    · show mem.datas.length = _
      rw [d1]; exact h8
    · intro a ha
      show mem.data a = _
      rw [d2 a (hfr a ha)]; exact h9 a ha
  · exact ⟨le_refl _, rfl, fun x hx => hx, ⟨[], by simp, by simp⟩, rfl, fun _ => rfl, rfl,
      fun _ _ => rfl⟩

/-- Every call of `Ingest`, failing or not: the first loop ends in a state `s2` that meets
`closingInv`, and the second loop appends new aggregates and new rooms. -/
theorem Ingest_shape (m : Store) (p : FlatParser) (line : List Char)
    (hdisj : ∀ r ∈ p.OpenRooms, (m.room r).RoomData ∉ p.closedRooms) :
    ∃ (s2 : rangeState) (newRooms : List openRoom) (newDatas : List roomData),
      closingInv m p.OpenRooms p.closedRooms s2 ∧
      (Ingest m p line).1 = ⟨s2.mem.datas ++ newDatas, s2.mem.rooms ++ newRooms⟩ ∧
      (Ingest m p line).2.1.OpenRooms =
        s2.backing.take s2.len ++ List.range' s2.mem.rooms.length newRooms.length ∧
      (Ingest m p line).2.1.closedRooms = s2.closedRooms ∧
      newRooms.map (fun r => r.RoomData) = List.range' s2.mem.datas.length newRooms.length ∧
      newRooms.length ≤ newDatas.length := by
  have hinv := ingestRooms_closingInv m p.OpenRooms p.closedRooms (Split line) hdisj
  unfold Ingest
  simp only
  cases hrun : ingestRooms p.OpenRooms.length 0
      ⟨m, p.OpenRooms, p.OpenRooms.length, p.closedRooms, Split line⟩ with
  | mk s2 err =>
    rw [hrun] at hinv
    cases err with
    | some e =>
      exact ⟨s2, [], [], hinv, by simp, by simp, rfl, rfl, le_refl _⟩
    | none =>
      obtain ⟨nr, nd, h1, h2, h3, h4⟩ := openRooms_shape (p.Line + 1) s2.lineSegments s2.mem
        (s2.backing.take s2.len)
      exact ⟨s2, nr, nd, hinv, h1, h2, rfl, h3, h4⟩

theorem range_map_getD_append {α : Type} (A B : List α) (d : α) :
    (List.range' A.length B.length).map (fun r => (A ++ B).getD r d) = B := by
  apply List.ext_getElem
  · simp
  · intro n h1 h2
    rw [List.getElem_map, List.getElem_range', List.getD_append_right _ _ _ _ (by omega)]
    simp only [Nat.one_mul, Nat.add_sub_cancel_left]
    rw [List.getD_eq_getElem _ _ h2]

/-- `Ingest`, failing or not, keeps a well-formed state well formed, only appends to
`closedRooms`, and leaves the aggregates that were closed before the call as they were. -/
theorem Ingest_wellFormed (m : Store) (p : FlatParser) (line : List Char)
    (hwf : wellFormed m p) :
    wellFormed (Ingest m p line).1 (Ingest m p line).2.1 ∧
    p.closedRooms <+: (Ingest m p line).2.1.closedRooms ∧
    ∀ a ∈ p.closedRooms, (Ingest m p line).1.data a = m.data a := by
  obtain ⟨n1, n2, n3, n4⟩ := hwf
  have hdisj : ∀ r ∈ p.OpenRooms, (m.room r).RoomData ∉ p.closedRooms := by
    intro r hr hc
    exact (List.nodup_append.mp n3).2.2 (List.mem_map.mpr ⟨r, hr, rfl⟩) hc
  obtain ⟨s2, nr, nd, ⟨_, _, _, ⟨C, k1, k2⟩, k3, k4, k5, k6⟩, e1, e2, e3, e4, e5⟩ :=
    Ingest_shape m p line hdisj
  unfold wellFormed
  rw [e1, e2, e3, k1]
  have hOR : ∀ r ∈ s2.backing.take s2.len, r ∈ p.OpenRooms :=
    fun r hr => k2.subset (List.mem_append_left _ hr)
  have hCR : ∀ r ∈ C, r ∈ p.OpenRooms := fun r hr => k2.subset (List.mem_append_right _ hr)
  have hdataLt : ∀ r ∈ p.OpenRooms, (m.room r).RoomData < m.datas.length :=
    fun r hr => n4 _ (List.mem_append_left _ (List.mem_map.mpr ⟨r, hr, rfl⟩))
  have hclosedLt : ∀ a ∈ p.closedRooms, a < m.datas.length :=
    fun a ha => n4 _ (List.mem_append_right _ ha)
  -- the aggregates of the rooms that stay open, and of the new rooms
  have hF4 : (s2.backing.take s2.len).map
      (fun r => ((⟨s2.mem.datas ++ nd, s2.mem.rooms ++ nr⟩ : Store).room r).RoomData) =
      (s2.backing.take s2.len).map (fun r => (m.room r).RoomData) := by
    apply List.map_congr_left
    intro r hr
    have hlt : r < s2.mem.rooms.length := by rw [k3]; exact n2 r (hOR r hr)
    show ((s2.mem.rooms ++ nr).getD r _).RoomData = _
    rw [List.getD_append _ _ _ _ hlt]
    exact k4 r
  have hF3 : (List.range' s2.mem.rooms.length nr.length).map
      (fun r => ((⟨s2.mem.datas ++ nd, s2.mem.rooms ++ nr⟩ : Store).room r).RoomData) =
      List.range' s2.mem.datas.length nr.length := by
    rw [← e4]
    have := range_map_getD_append s2.mem.rooms nr (⟨0, []⟩ : openRoom)
    conv_rhs => rw [← this]
    rw [List.map_map]
    rfl
  have hcount : ∀ a, List.count a ((s2.backing.take s2.len).map (fun r => (m.room r).RoomData))
      + List.count a (C.map (fun r => (m.room r).RoomData))
      = List.count a (p.OpenRooms.map (fun r => (m.room r).RoomData)) := by
    intro a
    have := (k2.map (fun r => (m.room r).RoomData)).count_eq a
    rw [List.map_append, List.count_append] at this
    exact this
  have hle : ∀ a, List.count a (p.OpenRooms.map (fun r => (m.room r).RoomData))
      + List.count a p.closedRooms ≤ 1 := by
    intro a
    have := List.nodup_iff_count_le_one.mp n3 a
    rw [List.count_append] at this
    exact this
  have hnodup3 : ((s2.backing.take s2.len ++ List.range' s2.mem.rooms.length nr.length).map
      (fun r => ((⟨s2.mem.datas ++ nd, s2.mem.rooms ++ nr⟩ : Store).room r).RoomData) ++
      (p.closedRooms ++ C.map (fun r => (m.room r).RoomData))).Nodup := by
    rw [List.map_append, hF4, hF3, List.nodup_iff_count_le_one]
    intro a
    simp only [List.count_append]
    have h1 := hcount a
    have h2 := hle a
    have h3 := List.nodup_iff_count_le_one.mp (List.nodup_range' s2.mem.datas.length nr.length) a
    by_cases ha : a < m.datas.length
    · have h4 : List.count a (List.range' s2.mem.datas.length nr.length) = 0 := by
        apply List.count_eq_zero_of_not_mem
        rw [List.mem_range'_1, k5]; omega
      omega
    · have h4 : List.count a (p.OpenRooms.map (fun r => (m.room r).RoomData)) = 0 := by
        apply List.count_eq_zero_of_not_mem
        intro hm
        exact ha (n4 a (List.mem_append_left _ hm))
      have h5 : List.count a p.closedRooms = 0 := by
        apply List.count_eq_zero_of_not_mem
        intro hm
        exact ha (hclosedLt a hm)
      omega
  refine ⟨⟨?_, ?_, hnodup3, ?_⟩, List.prefix_append _ _, ?_⟩
  · rw [List.nodup_append]
    refine ⟨?_, List.nodup_range' _ _, ?_⟩
    · exact (List.nodup_append.mp ((k2.nodup_iff).mpr n1)).1
    · intro x hx1 hx2
      have h1 := n2 x (hOR x hx1)
      rw [List.mem_range'_1, k3] at hx2
      omega
  · intro r hr
    show r < (s2.mem.rooms ++ nr).length
    rw [List.length_append, k3]
    rcases List.mem_append.mp hr with hr | hr
    · have := n2 r (hOR r hr); omega
    · rw [List.mem_range'_1, k3] at hr; omega
  · intro a ha
    show a < (s2.mem.datas ++ nd).length
    rw [List.length_append, k5]
    rw [List.map_append, hF4, hF3] at ha
    rcases List.mem_append.mp ha with ha | ha
    · rcases List.mem_append.mp ha with ha | ha
      · obtain ⟨r, hr, rfl⟩ := List.mem_map.mp ha
        have := hdataLt r (hOR r hr); omega
      · rw [List.mem_range'_1, k5] at ha; omega
    · rcases List.mem_append.mp ha with ha | ha
      · have := hclosedLt a ha; omega
      · obtain ⟨r, hr, rfl⟩ := List.mem_map.mp ha
        have := hdataLt r (hCR r hr); omega
  · intro a ha
    have hlt : a < s2.mem.datas.length := by rw [k5]; exact hclosedLt a ha
    show (s2.mem.datas ++ nd).getD a _ = _
    rw [List.getD_append _ _ _ _ hlt]
    exact k6 a ha

/-- The state `NewRoomParser` starts from is well formed. -/
theorem wellFormed_NewRoomParser : wellFormed ⟨[], []⟩ NewRoomParser := by decide

/-- Every state reached by ingesting lines from a well-formed state is well formed. -/
theorem ingestLines_wellFormed (lines : List (List Char)) (m : Store) (p : FlatParser)
    (hwf : wellFormed m p) :
    wellFormed (ingestLines m p lines).1 (ingestLines m p lines).2.1 := by
  induction lines generalizing m p with
  | nil => exact hwf
  | cons line lines ih =>
    have h := (Ingest_wellFormed m p line hwf).1
    unfold ingestLines
    rcases hI : Ingest m p line with ⟨m2, p2, _ | err⟩
    · rw [hI] at h
      exact ih m2 p2 h
    · rw [hI] at h
      exact h

theorem ReadString_line (l rest : List Char) (hl : '\n' ∉ l) :
    ReadString '\n' (l ++ '\n' :: rest) = (l ++ ['\n'], rest, false) := by
  induction l with
  | nil => simp [ReadString]
  | cons c l ih =>
    have hc : c ≠ '\n' := fun e => hl (by simp [e])
    have hl2 : '\n' ∉ l := fun h => hl (List.mem_cons_of_mem _ h)
    rw [List.cons_append, ReadString, if_neg hc, ih hl2]
    rfl

theorem ReadString_tail (tail : List Char) (ht : '\n' ∉ tail) :
    ReadString '\n' tail = (tail, [], true) := by
  induction tail with
  | nil => rfl
  | cons c l ih =>
    have hc : c ≠ '\n' := fun e => ht (by simp [e])
    have hl2 : '\n' ∉ l := fun h => ht (List.mem_cons_of_mem _ h)
    rw [ReadString, if_neg hc, ih hl2]

theorem isBoundedRun_snoc_iff (line : List Char) (n : Char) (hn : isDelimiter n = false)
    (s : segment) : isBoundedRun (line ++ [n]) s ↔ isBoundedRun line s := by
  constructor
  · rintro ⟨pre, d1, d2, post, e, h1, h2, h3, h4, h5⟩
    rcases List.eq_nil_or_concat post with hp | ⟨post2, x, hp⟩
    · subst hp
      have e2 : line ++ [n] = (pre ++ d1 :: s.content) ++ [d2] := by simp [e]
      have := (List.append_inj' e2 rfl).2
      simp only [List.cons.injEq, and_true] at this
      rw [this, h2] at hn
      exact absurd hn (by simp)
    · subst hp
      have e2 : line ++ [n] = (pre ++ d1 :: s.content ++ d2 :: post2) ++ [x] := by
        simp [e]
      have := (List.append_inj' e2 rfl).1
      exact ⟨pre, d1, d2, post2, this, h1, h2, h3, h4, h5⟩
  · rintro ⟨pre, d1, d2, post, e, h1, h2, h3, h4, h5⟩
    exact ⟨pre, d1, d2, post ++ [n], by rw [e]; simp, h1, h2, h3, h4, h5⟩

/-- The newline that `ReadString` leaves at the end of a line changes no segment. -/
theorem Split_snoc (line : List Char) (n : Char) (hn : isDelimiter n = false) :
    Split (line ++ [n]) = Split line := by
  have hnd : ∀ l : List Char, (Split l).Nodup := fun l =>
    (Split_pairwise l).imp (fun {a b} h e => by rw [e] at h; exact lt_irrefl _ h)
  have hperm : (Split (line ++ [n])).Perm (Split line) := by
    rw [List.perm_ext_iff_of_nodup (hnd _) (hnd _)]
    intro s
    rw [mem_Split, mem_Split, isBoundedRun_snoc_iff line n hn]
  haveI : IsAntisymm segment (fun a b => a.start < b.start) :=
    ⟨fun a b h1 h2 => absurd (lt_trans h1 h2) (lt_irrefl _)⟩
  exact List.eq_of_perm_of_sorted hperm (Split_pairwise _) (Split_pairwise _)

theorem Ingest_newline (m : Store) (p : FlatParser) (line : List Char) :
    Ingest m p (line ++ ['\n']) = Ingest m p line := by
  unfold Ingest
  rw [Split_snoc line '\n' (by decide)]

/-- On a text whose lines `ls` each end in a newline, followed by a `tail` without one,
`IngestAllFromReader` ingests the lines `ls` in order and stops at the first error, which it
returns with the number of the line; the `tail` is not ingested. -/
theorem IngestAllFromReader_lines (ls : List (List Char)) (tail : List Char)
    (hls : ∀ l ∈ ls, '\n' ∉ l) (ht : '\n' ∉ tail) (m : Store) (p : FlatParser) :
    IngestAllFromReader m p ((ls.map (fun l => l ++ ['\n'])).flatten ++ tail) =
      ((ingestLines m p ls).1, (ingestLines m p ls).2.1,
        (ingestLines m p ls).2.2.map (fun e => ⟨(ingestLines m p ls).2.1.Line, e⟩)) := by
  induction ls generalizing m p with
  | nil =>
    rw [IngestAllFromReader_eq]
    simp only [List.map_nil, List.flatten_nil, List.nil_append]
    rw [ReadString_tail tail ht, if_pos rfl]
    rfl
  | cons l ls ih =>
    have hl := hls l (List.mem_cons_self _ _)
    have hls2 : ∀ x ∈ ls, '\n' ∉ x := fun x hx => hls x (List.mem_cons_of_mem _ hx)
    rw [IngestAllFromReader_eq]
    simp only [List.map_cons, List.flatten_cons, List.append_assoc, List.singleton_append,
      List.cons_append, List.nil_append]
    rw [ReadString_line l _ hl, if_neg (by simp), Ingest_newline]
    simp only
    unfold ingestLines
    rcases hI : Ingest m p l with ⟨m2, p2, _ | err⟩
    · simp only
      exact ih hls2 m2 p2
    · rfl

/-! ## The range of `int` -/

theorem wrapInt_of_isInt (v : Int) (h : isInt v) : wrapInt v = v := by
  unfold isInt at h
  unfold wrapInt
  omega

theorem isInt_wrapInt (v : Int) : isInt (wrapInt v) := by
  unfold isInt wrapInt
  omega

theorem wrapInt_add_wrapInt (a b : Int) : wrapInt (wrapInt a + b) = wrapInt (a + b) := by
  unfold wrapInt
  omega

theorem Overlaps_int64_eq_filter (start length : Int) (S : LineSegments) :
    int64.Overlaps start length S = S.filter (fun s =>
      decide (¬ (wrapInt (s.start + (byteLen s.content : Int)) ≤ start ∨
        wrapInt (start + length) ≤ s.start))) := by
  induction S with
  | nil => rfl
  | cons s S ih =>
    by_cases h : wrapInt (s.start + (byteLen s.content : Int)) ≤ start ∨
        wrapInt (start + length) ≤ s.start
    · simp only [int64.Overlaps, if_pos h, ih, List.filter_cons]
      simp [h]
    · simp only [int64.Overlaps, if_neg h, ih, List.filter_cons]
      simp [h]

/-- When no sum leaves the range of `int`, `Overlaps` on `int` is `Overlaps` on the unbounded
integers. -/
theorem Overlaps_int64_eq (start length : Int) (S : LineSegments)
    (hq : isInt (start + length))
    (hS : ∀ s ∈ S, isInt (s.start + (byteLen s.content : Int))) :
    int64.Overlaps start length S = Overlaps start length S := by
  induction S with
  | nil => rfl
  | cons s S ih =>
    rw [int64.Overlaps, Overlaps, ih (fun x hx => hS x (List.mem_cons_of_mem _ hx)),
      wrapInt_of_isInt _ hq, wrapInt_of_isInt _ (hS s (List.mem_cons_self _ _))]

/-- The segments of a line whose length is an `int` start and end inside the line: their
sums stay in the range of `int`. -/
theorem Split_isInt (line : List Char) (h : isInt (byteLen line)) (s : segment)
    (hs : s ∈ Split line) :
    isInt s.start ∧ isInt (s.start + (byteLen s.content : Int)) := by
  obtain ⟨pre, d1, d2, post, e, _, _, _, _, h5⟩ := (mem_Split line s).mp hs
  have hlen : byteLen line =
      byteLen (pre ++ [d1]) + byteLen s.content + byteLen (d2 :: post) := by
    rw [e, ← byteLen_append, ← byteLen_append]
    congr 1
    simp
  unfold isInt at h ⊢
  rw [h5]
  omega

theorem ChairMap.has_set (m : ChairMap) (k c : Char) (v : Int) :
    (m.set k v).has c = (decide (c = k) || m.has c) := by
  induction m with
  | nil =>
    simp only [ChairMap.set, ChairMap.has]
    by_cases h : c = k
    · simp [h]
    · have hkc : ¬ k = c := fun e => h e.symm
      simp [h, hkc]
  | cons x m ih =>
    obtain ⟨k2, w⟩ := x
    simp only [ChairMap.set]
    by_cases h1 : k < k2
    · simp only [if_pos h1, ChairMap.has]
      by_cases h : c = k
      · simp [h]
      · have hkc : ¬ k = c := fun e => h e.symm
        simp [h, hkc]
    · simp only [if_neg h1]
      by_cases h2 : k = k2
      · subst h2
        simp only [if_true, ChairMap.has]
        by_cases h : c = k
        · simp [h]
        · have hkc : ¬ k = c := fun e => h e.symm
          simp [h, hkc]
      · simp only [if_neg h2, ChairMap.has, ih]
        by_cases h : k2 = c
        · simp [h]
        · simp [h]

theorem ChairMap.has_eq_false_of_forall_ne (m : ChairMap) (k : Char)
    (h : ∀ x ∈ m, x.1 ≠ k) : m.has k = false := by
  induction m with
  | nil => rfl
  | cons x m ih =>
    obtain ⟨k2, w⟩ := x
    have h1 : k2 ≠ k := h (k2, w) (List.mem_cons_self _ _)
    simp only [ChairMap.has, if_neg h1]
    exact ih (fun y hy => h y (List.mem_cons_of_mem _ hy))

theorem ChairMap.isInt_get (m : ChairMap) (h : ∀ e ∈ m, isInt e.2) (c : Char) :
    isInt (m.get c) := by
  induction m with
  | nil => exact (by decide : isInt 0)
  | cons x m ih =>
    obtain ⟨k, v⟩ := x
    rw [ChairMap.get]
    split
    · exact h (k, v) (List.mem_cons_self _ _)
    · exact ih (fun e he => h e (List.mem_cons_of_mem _ he))

/-- The count of `c` after `roomData.append` on `int`: the sum wraps around when both maps
have the key, and is the count of the one map that has it otherwise. -/
theorem appendChairs_int64_get (chairs incoming : ChairMap) (c : Char)
    (h : incoming.isMap) :
    (int64.appendChairs chairs incoming).get c =
      if incoming.has c = true ∧ chairs.has c = true then
        wrapInt (chairs.get c + incoming.get c)
      else chairs.get c + incoming.get c := by
  induction incoming generalizing chairs with
  | nil => simp [int64.appendChairs, ChairMap.get, ChairMap.has]
  | cons x incoming ih =>
    obtain ⟨k, v⟩ := x
    obtain ⟨h1, h2⟩ := ChairMap.isMap_cons k v incoming h
    by_cases hh : chairs.has k = true
    · rw [int64.appendChairs, if_pos hh, ih _ h2, ChairMap.get_set, ChairMap.has_set]
      by_cases hc : c = k
      · subst hc
        have h0 : ChairMap.get incoming c = 0 := ChairMap.get_of_forall_ne incoming c h1
        have h3 : ChairMap.has incoming c = false :=
          ChairMap.has_eq_false_of_forall_ne incoming c h1
        simp [ChairMap.get, ChairMap.has, h0, h3, hh]
      · have hkc : ¬ k = c := fun e => hc e.symm
        simp [ChairMap.get, ChairMap.has, hc, hkc]
    · have hh2 : chairs.has k = false := by simpa using hh
      rw [int64.appendChairs, if_neg hh, ih _ h2, ChairMap.get_set, ChairMap.has_set]
      by_cases hc : c = k
      · subst hc
        have h0 : ChairMap.get incoming c = 0 := ChairMap.get_of_forall_ne incoming c h1
        have h3 : ChairMap.has incoming c = false :=
          ChairMap.has_eq_false_of_forall_ne incoming c h1
        simp [ChairMap.get, ChairMap.has, h0, h3, hh2, ChairMap.get_of_not_has chairs c hh2]
      · have hkc : ¬ k = c := fun e => hc e.symm
        simp [ChairMap.get, ChairMap.has, hc, hkc]

theorem appendChairs_int64_get_wrap (chairs incoming : ChairMap) (c : Char)
    (h : incoming.isMap) (h1 : isInt (chairs.get c)) (h2 : isInt (incoming.get c)) :
    (int64.appendChairs chairs incoming).get c = wrapInt (chairs.get c + incoming.get c) := by
  rw [appendChairs_int64_get chairs incoming c h]
  split
  · rfl
  · rename_i hn
    by_cases hi : incoming.has c = true
    · have hc : chairs.has c = false := by
        by_cases hc : chairs.has c = true
        · exact absurd ⟨hi, hc⟩ hn
        · simpa using hc
      rw [ChairMap.get_of_not_has chairs c hc, zero_add, wrapInt_of_isInt _ h2]
    · have hi2 : incoming.has c = false := by simpa using hi
      rw [ChairMap.get_of_not_has incoming c hi2, add_zero, wrapInt_of_isInt _ h1]

theorem appendChairs_int64_get_exact (chairs incoming : ChairMap) (c : Char)
    (h : incoming.isMap) (h1 : isInt (chairs.get c + incoming.get c)) :
    (int64.appendChairs chairs incoming).get c = chairs.get c + incoming.get c := by
  rw [appendChairs_int64_get chairs incoming c h]
  split
  · exact wrapInt_of_isInt _ h1
  · rfl

theorem foldl_append_int64_get (ds : List roomData) (D : roomData) (c : Char)
    (hmap : ∀ d ∈ ds, d.Chairs.isMap) (hint : ∀ d ∈ ds, isInt (d.Chairs.get c))
    (hD : isInt (D.Chairs.get c)) :
    (ds.foldl (fun totals d => int64.roomData.append totals d) D).Chairs.get c =
      wrapInt (D.Chairs.get c + (ds.map (fun d => d.Chairs.get c)).sum) := by
  induction ds generalizing D with
  | nil => simp [wrapInt_of_isInt _ hD]
  | cons d ds ih =>
    have hstep : (int64.roomData.append D d).Chairs.get c =
        wrapInt (D.Chairs.get c + d.Chairs.get c) :=
      appendChairs_int64_get_wrap D.Chairs d.Chairs c (hmap d (List.mem_cons_self _ _)) hD
        (hint d (List.mem_cons_self _ _))
    rw [List.foldl_cons, ih _ (fun x hx => hmap x (List.mem_cons_of_mem _ hx))
      (fun x hx => hint x (List.mem_cons_of_mem _ hx)) (by rw [hstep]; exact isInt_wrapInt _),
      hstep, wrapInt_add_wrapInt, List.map_cons, List.sum_cons, add_assoc]

/-- Where the sum of the two counts is in the range of `int`, `roomData.append` on `int`
leaves the count that `roomData.append` on the unbounded integers leaves. -/
theorem roomData_append_int64_get_eq (d d2 : roomData) (c : Char) (h : d2.Chairs.isMap)
    (hc : isInt (d.Chairs.get c + d2.Chairs.get c)) :
    (int64.roomData.append d d2).Chairs.get c = (d.append d2).Chairs.get c :=
  (appendChairs_int64_get_exact d.Chairs d2.Chairs c h hc).trans
    (appendChairs_get_of_isMap d.Chairs d2.Chairs c h).symm

/-! ## The order of the names -/

theorem stringLess_total (a b : List Char) :
    stringLess b a = false ∨ stringLess a b = false := by
  induction a generalizing b with
  | nil => cases b <;> simp [stringLess]
  | cons x a ih =>
    cases b with
    | nil => simp [stringLess]
    | cons y b =>
      simp only [stringLess]
      rcases lt_trichotomy x y with h | h | h
      · have h2 : ¬ y < x := not_lt_of_gt h
        simp [h, h2]
      · subst h
        simp only [lt_irrefl, if_false]
        exact ih b
      · have h2 : ¬ x < y := not_lt_of_gt h
        simp [h, h2]

theorem stringLess_le_trans (a b c : List Char) (hab : stringLess b a = false)
    (hbc : stringLess c b = false) : stringLess c a = false := by
  induction a generalizing b c with
  | nil => cases c <;> simp [stringLess]
  | cons x a ih =>
    cases b with
    | nil => simp [stringLess] at hab
    | cons y b =>
      cases c with
      | nil => simp [stringLess] at hbc
      | cons z c =>
        simp only [stringLess] at hab hbc ⊢
        rcases lt_trichotomy x y with h1 | h1 | h1
        · have h1n : ¬ y < x := not_lt_of_gt h1
          rcases lt_trichotomy y z with h2 | h2 | h2
          · have h3 : x < z := lt_trans h1 h2
            have h3n : ¬ z < x := not_lt_of_gt h3
            simp [h3, h3n]
          · subst h2
            simp [h1, h1n]
          · simp [h2] at hbc
        · subst h1
          rcases lt_trichotomy x z with h2 | h2 | h2
          · have h2n : ¬ z < x := not_lt_of_gt h2
            simp [h2, h2n]
          · subst h2
            simp only [lt_irrefl, if_false] at hab hbc ⊢
            exact ih b c hab hbc
          · simp [h2] at hbc
        · simp [h1] at hab

/-- The insertion sort returns a permutation of the closed rooms in which no room has a name
less than the name of a room before it. -/
theorem insertionSortSlice_names (name : Nat → List Char) (x : List Nat) :
    (insertionSortSlice (fun i j => stringLess (name i) (name j)) x).Perm x ∧
    (insertionSortSlice (fun i j => stringLess (name i) (name j)) x).Pairwise
      (fun a b => stringLess (name b) (name a) = false) := by
  haveI : IsTotal Nat (fun a b => stringLess (name b) (name a) = false) :=
    ⟨fun a b => stringLess_total (name a) (name b)⟩
  haveI : IsTrans Nat (fun a b => stringLess (name b) (name a) = false) :=
    ⟨fun a b c hab hbc => stringLess_le_trans (name a) (name b) (name c) hab hbc⟩
  exact ⟨List.perm_insertionSort _ x,
    List.sorted_insertionSort (fun a b => stringLess (name b) (name a) = false) x⟩

/-- The text that `FlatParser.String` returns, whatever `sort.Slice` does to `closedRooms`. -/
theorem FlatParser_String_text (sortSlice : (Nat → Nat → Bool) → List Nat → List Nat)
    (m : Store) (p : FlatParser) :
    (FlatParser.String sortSlice m p).2 =
      Join ((FlatParser.totals m
          ⟨p.OpenRooms,
            sortSlice (fun i j => stringLess (m.data i).Name (m.data j).Name) p.closedRooms,
            p.Line⟩ "total".toList).String ::
        (sortSlice (fun i j => stringLess (m.data i).Name (m.data j).Name) p.closedRooms).map
          (fun room => (m.data room).String)) "\n".toList :=
  rfl

/-- For every result that `sort.Slice` may give on this call (a permutation of `closedRooms`
in which no room has a name less than the name of a room before it), `FlatParser.String`
returns the total room followed by the closed rooms in that order. -/
theorem FlatParser_String_of_contract
    (sortSlice : (Nat → Nat → Bool) → List Nat → List Nat) (m : Store) (p : FlatParser)
    (hperm : (sortSlice (fun i j => stringLess (m.data i).Name (m.data j).Name)
      p.closedRooms).Perm p.closedRooms)
    (hsorted : (sortSlice (fun i j => stringLess (m.data i).Name (m.data j).Name)
      p.closedRooms).Pairwise
        (fun a b => stringLess (m.data b).Name (m.data a).Name = false)) :
    ∃ rooms : List Nat, rooms.Perm p.closedRooms ∧
      rooms.Pairwise (fun a b => stringLess (m.data b).Name (m.data a).Name = false) ∧
      (FlatParser.String sortSlice m p).2 =
        Join ((FlatParser.totals m ⟨p.OpenRooms, rooms, p.Line⟩ "total".toList).String ::
          rooms.map (fun room => (m.data room).String)) "\n".toList :=
  ⟨_, hperm, hsorted, rfl⟩

/-! # The claims -/

/-- C1: on a fresh parser, a top line of delimiters, then the `k >= 1` lines `"|" + b + "|"`
for non-empty delimiter-free bodies `b` that `segmentData` accepts, then a bottom line of
delimiters are all ingested without error (`Line` ends at `k + 2`) and leave no open room and
exactly one closed room, whose count of each symbol is the sum of the bodies' parsed counts
and whose name is the last non-empty parsed name (empty when there is none). -/
theorem round_trip_of_one_room (top bottom : List Char) (bodies : List (List Char))
    (hk : bodies ≠ [])
    (htop : ∀ c ∈ top, isDelimiter c = true) (hbottom : ∀ c ∈ bottom, isDelimiter c = true)
    (hbodies : ∀ b ∈ bodies, b ≠ [] ∧ (∀ c ∈ b, isDelimiter c = false) ∧
      ∃ d, segmentData b = .ok d) :
    ∃ m, ingestLines ⟨[], []⟩ NewRoomParser (top :: bodies.map contentLine ++ [bottom]) =
        (m, ⟨[], [0], (bodies.length : Int) + 2⟩, none) ∧
      (∀ c, (m.data 0).Chairs.get c = (bodies.map (fun b => (parsed b).Chairs.get c)).sum) ∧
      (m.data 0).Name = lastName (bodies.map (fun b => (parsed b).Name)) := by
  cases bodies with
  | nil => exact absurd rfl hk
  | cons b1 rest =>
    obtain ⟨h1, h2, d1, hd1⟩ := hbodies b1 (List.mem_cons_self _ _)
    obtain ⟨bl, hbl⟩ := ingestLines_bodies bottom (Split_of_delimiters bottom hbottom) rest
      ((⟨[], []⟩ : roomData).append d1) b1 (0 + 1 + 1) h1
      (fun y hy => hbodies y (List.mem_cons_of_mem _ hy))
    refine ⟨⟨[List.foldl (fun D x => D.append (parsed x))
      ((⟨[], []⟩ : roomData).append d1) rest], [⟨0, [⟨1, bl⟩]⟩]⟩, ?_, ?_, ?_⟩
    · rw [List.cons_append, ingestLines]
      unfold NewRoomParser
      rw [Ingest_no_room_no_segment _ _ _ _ (Split_of_delimiters top htop)]
      simp only
      rw [List.map_cons, List.cons_append, ingestLines,
        Ingest_first_body _ (contentLine b1) b1 d1 (Split_of_body b1 h1 h2) hd1]
      simp only
      rw [hbl]
      simp only [List.length_cons, Prod.mk.injEq, FlatParser.mk.injEq, true_and, and_true]
      push_cast; ring
    · intro c
      have e : List.foldl (fun D x => D.append (parsed x))
          ((⟨[], []⟩ : roomData).append d1) rest =
          List.foldl (fun D x => D.append (parsed x)) (⟨[], []⟩ : roomData) (b1 :: rest) := by
        rw [List.foldl_cons, parsed_of_ok hd1]
      show (List.foldl (fun D x => D.append (parsed x))
        ((⟨[], []⟩ : roomData).append d1) rest).Chairs.get c = _
      rw [e, foldl_append_chairs]
      simp [ChairMap.get]
    · have e : List.foldl (fun D x => D.append (parsed x))
          ((⟨[], []⟩ : roomData).append d1) rest =
          List.foldl (fun D x => D.append (parsed x)) (⟨[], []⟩ : roomData) (b1 :: rest) := by
        rw [List.foldl_cons, parsed_of_ok hd1]
      show (List.foldl (fun D x => D.append (parsed x))
        ((⟨[], []⟩ : roomData).append d1) rest).Name = _
      rw [e, foldl_append_name]
      rfl

/-- The test `1 closed room` of `TestRoomParser_Ingest` (`+------+`, `| W    |`, `+------+`),
through C1. -/
theorem round_trip_of_one_room_witness :
    ∃ m, ingestLines ⟨[], []⟩ NewRoomParser
        ("+------+".toList :: [" W    ".toList].map contentLine ++ ["+------+".toList]) =
        (m, ⟨[], [0], (([" W    ".toList] : List (List Char)).length : Int) + 2⟩, none) ∧
      (∀ c, (m.data 0).Chairs.get c =
        ([" W    ".toList].map (fun b => (parsed b).Chairs.get c)).sum) ∧
      (m.data 0).Name = lastName ([" W    ".toList].map (fun b => (parsed b).Name)) :=
  round_trip_of_one_room "+------+".toList "+------+".toList [" W    ".toList] (by simp)
    (by decide) (by decide)
    (fun b hb => by
      rw [List.mem_singleton] at hb
      subst hb
      exact ⟨by decide, by decide, ⟨_, rfl⟩⟩)

/-- C2, on the code: three rooms side by side (`+-+-+-+`, `|W|P|S|`) and a closing line
`+-+-+-+`, which has no segment. Closing the first room moves the others down in the array
the loop is reading, so the second room (address 1) is never evaluated: it stays open, and
only the first and third rooms are closed. -/
theorem Ingest_skips_the_room_after_a_closed_one :
    ingestLines ⟨[], []⟩ NewRoomParser ["+-+-+-+".toList, "|W|P|S|".toList] =
      (threeRoomsStore, threeRoomsParser, none) ∧
    Split "+-+-+-+".toList = [] ∧
    Ingest threeRoomsStore threeRoomsParser "+-+-+-+".toList =
      (threeRoomsStore, ⟨[1], [0, 2], 3⟩, none) := by
  refine ⟨by rfl, by rfl, by rfl⟩

/-- C3, as stated, fails: after `+--+--+` and `|  |  |` the line `|     |` has one segment,
which overlaps the last segments of both rooms; the first room claims it, and the second room
(address 1) is closed although a segment of `Split(line)` overlaps its last segment. -/
theorem Ingest_closes_a_room_that_overlaps_the_line :
    ingestLines ⟨[], []⟩ NewRoomParser ["+--+--+".toList, "|  |  |".toList] =
      (twoRoomsStore, twoRoomsParser, none) ∧
    (Ingest twoRoomsStore twoRoomsParser "|     |".toList).2.2 = none ∧
    1 ∈ twoRoomsParser.OpenRooms ∧
    closedBy twoRoomsStore (Ingest twoRoomsStore twoRoomsParser "|     |".toList).2.1 1 ∧
    ∃ s ∈ Split "|     |".toList, ∃ t ∈ (twoRoomsStore.room 1).segments, spansOverlap t s := by
  refine ⟨by rfl, by rfl, by decide, by decide, ?_⟩
  exact ⟨⟨1, "     ".toList⟩, by decide, ⟨4, "  ".toList⟩, by decide, by decide⟩

/-- C3, amended: for a parser state whose open rooms are distinct allocated rooms and a line
on which `Ingest` succeeds, a room that was open before the call, and before which no
earlier-opened room is closed by the call, has been closed by the call if and only if every
segment of `Split(line)` that overlaps one of its last segments also overlaps a last segment
of an earlier-opened room (so that no segment left in the pool overlaps it). -/
theorem Ingest_closes_iff (m : Store) (p : FlatParser) (line : List Char) (i : Nat)
    (hi : i < p.OpenRooms.length) (hnodup : p.OpenRooms.Nodup)
    (hvalid : ∀ r ∈ p.OpenRooms, r < m.rooms.length)
    (hok : (Ingest m p line).2.2 = none)
    (hearlier : ∀ k, k < i → ¬ closedBy m (Ingest m p line).2.1 (p.OpenRooms.getD k 0)) :
    closedBy m (Ingest m p line).2.1 (p.OpenRooms.getD i 0) ↔
      ∀ s ∈ Split line,
        (∃ t ∈ (m.room (p.OpenRooms.getD i 0)).segments, spansOverlap t s) →
        ∃ k, k < i ∧ ∃ t ∈ (m.room (p.OpenRooms.getD k 0)).segments, spansOverlap t s := by
  obtain ⟨s2, new, hrun, hopen, hnew, hclosed, _⟩ := Ingest_ok m p line hok
  obtain ⟨_, _, hrl, _⟩ := ingestRooms_frame _ _ _ _ (by simp) hrun
  have hiff : ∀ k, k < p.OpenRooms.length →
      (closedBy m (Ingest m p line).2.1 (p.OpenRooms.getD k 0) ↔
        ((m.room (p.OpenRooms.getD k 0)).RoomData ∈ s2.closedRooms ∧
          p.OpenRooms.getD k 0 ∉ s2.backing.take s2.len)) := by
    intro k hk
    unfold closedBy
    rw [hopen, hclosed, List.mem_append, not_or]
    constructor
    · exact fun h => ⟨h.1, h.2.1⟩
    · intro h
      refine ⟨h.1, h.2, fun hx => ?_⟩
      have h1 := hnew _ hx
      have h2 := hvalid _ (getD_mem hk)
      rw [hrl] at h1
      simp only at h1
      omega
  rw [hiff i hi]
  have key := ingestRooms_prefix m p.OpenRooms hnodup i hi p.OpenRooms.length 0 _ s2
    (Nat.zero_le _) (by simp) rfl rfl (fun _ => rfl) (fun _ _ _ => rfl) hrun
    (fun k _ hk => by rw [← hiff k (by omega)]; exact hearlier k hk)
  rw [key]
  constructor
  · intro h s hs hov
    obtain ⟨k, _, hk, hr⟩ := h s hs hov
    exact ⟨k, hk, hr⟩
  · intro h s hs hov
    obtain ⟨k, hk, hr⟩ := h s hs hov
    exact ⟨k, Nat.zero_le _, hk, hr⟩

/-- The amended C3 on the two rooms side by side and the line `|     |`. -/
theorem Ingest_closes_iff_witness :
    closedBy twoRoomsStore (Ingest twoRoomsStore twoRoomsParser "|     |".toList).2.1 1 ↔
      ∀ s ∈ Split "|     |".toList,
        (∃ t ∈ (twoRoomsStore.room 1).segments, spansOverlap t s) →
        ∃ k, k < 1 ∧ ∃ t ∈ (twoRoomsStore.room ([0, 1].getD k 0)).segments, spansOverlap t s :=
  Ingest_closes_iff twoRoomsStore twoRoomsParser "|     |".toList 1 (by decide) (by decide)
    (by decide) (by rfl)
    (fun k hk => by
      have e : k = 0 := by omega
      subst e
      decide)

/-- C4, on the code: three rooms side by side (`+-+-+-+`, `|W|P|S|`) and the line `+-+ | |`,
which closes the first room and continues the other two. The second room is skipped and the
third is evaluated twice: it claims the segment at offset 5 and is then closed, so that
segment of `Split(line)` is among the last segments of no open room. -/
theorem Ingest_loses_a_claimed_segment :
    (Ingest threeRoomsStore threeRoomsParser "+-+ | |".toList).2.2 = none ∧
    (Ingest threeRoomsStore threeRoomsParser "+-+ | |".toList).2.1.OpenRooms = [1, 3] ∧
    (Ingest threeRoomsStore threeRoomsParser "+-+ | |".toList).2.1.closedRooms = [0, 2] ∧
    Split "+-+ | |".toList = [⟨3, [' ']⟩, ⟨5, [' ']⟩] ∧
    ∀ room ∈ (Ingest threeRoomsStore threeRoomsParser "+-+ | |".toList).2.1.OpenRooms,
      (⟨5, [' ']⟩ : segment) ∉
        ((Ingest threeRoomsStore threeRoomsParser "+-+ | |".toList).1.room room).segments := by
  refine ⟨by rfl, by rfl, by rfl, by rfl, by decide⟩

/-- C5: `Split line` holds exactly the bounded runs of `line` (a non-empty run of
non-delimiter runes with a delimiter right before and right after it, starting at the byte
offset of its first rune, its content kept verbatim), each once and from left to right
(starts strictly increase); a line with fewer than two delimiters yields no segment. -/
theorem Split_bounded_runs (line : List Char) :
    (∀ s, s ∈ Split line ↔ isBoundedRun line s) ∧
    (Split line).Pairwise (fun a b => a.start < b.start) ∧
    ((line.filter isDelimiter).length < 2 → Split line = []) := by
  refine ⟨mem_Split line, Split_pairwise line, fun h => ?_⟩
  rw [List.eq_nil_iff_forall_not_mem]
  intro s hs
  obtain ⟨pre, d1, d2, post, e, h1, h2, _⟩ := (mem_Split line s).mp hs
  have h4 : ∀ c ∈ s.content, isDelimiter c = false := by
    obtain ⟨_, _, _, _, _, _, _, _, h, _⟩ := (mem_Split line s).mp hs
    exact h
  rw [e] at h
  simp only [List.filter_append, List.filter_cons, h1, h2, if_true, List.length_append,
    List.length_cons, List.cons_append] at h
  omega

/-- C6, as stated, fails where a sum leaves the range of `int`: for the query span of start 1
and length `2^63 - 1` and the one segment of `|a|`, the test of the claim holds on the exact
sums (the segment ends at 2, after 1, and the query ends after the segment starts), but
`start + length` wraps around to `-2^63` and `Overlaps` returns nothing. -/
theorem Overlaps_drops_a_segment_on_overflow :
    Split "|a|".toList = [⟨1, ['a']⟩] ∧
    int64.Overlaps 1 9223372036854775807 (Split "|a|".toList) = [] ∧
    (Split "|a|".toList).filter (fun s =>
      decide (¬ (s.start + (byteLen s.content : Int) ≤ 1 ∨
        1 + 9223372036854775807 ≤ s.start))) = [⟨1, ['a']⟩] := by
  refine ⟨by rfl, by decide, by decide⟩

/-- C6, amended: `Overlaps start length S` is the sublist of `S`, in the order of `S`, of the
segments `s` for which NOT (`s.start + len(s.content) <= start` OR `start + length <= s.start`),
the two sums being sums of `int`, which wrap around; when `start + length` and every
`s.start + len(s.content)` are in the range of `int`, they are the exact sums. -/
theorem Overlaps_is_the_filter (start length : Int) (S : LineSegments) :
    int64.Overlaps start length S = S.filter (fun s =>
      decide (¬ (wrapInt (s.start + (byteLen s.content : Int)) ≤ start ∨
        wrapInt (start + length) ≤ s.start))) ∧
    (isInt (start + length) → (∀ s ∈ S, isInt (s.start + (byteLen s.content : Int))) →
      int64.Overlaps start length S = S.filter (fun s =>
        decide (¬ (s.start + (byteLen s.content : Int) ≤ start ∨ start + length ≤ s.start)))) := by
  refine ⟨Overlaps_int64_eq_filter start length S, fun hq hS => ?_⟩
  rw [Overlaps_int64_eq start length S hq hS, Overlaps_eq_filter]

/-- C6 on the query span from 2 to 5 and the segments of the line `|ab|cd|`. -/
theorem Overlaps_is_the_filter_witness :
    isInt (2 + 3) ∧
    (∀ s ∈ Split "|ab|cd|".toList, isInt (s.start + (byteLen s.content : Int))) ∧
    int64.Overlaps 2 3 (Split "|ab|cd|".toList) = (Split "|ab|cd|".toList).filter (fun s =>
      decide (¬ (s.start + (byteLen s.content : Int) ≤ 2 ∨ 2 + 3 ≤ s.start))) :=
  ⟨by decide, by decide,
    (Overlaps_is_the_filter 2 3 (Split "|ab|cd|".toList)).2 (by decide) (by decide)⟩

/-- C7: in `MultipleOverlaps set1 set2`, `nonOverlapping` is the sublist of `set2`, in order,
of the segments that overlap no segment of `set1`; every segment of `overlapping` is a segment
of `set2` that overlaps some segment of `set1`; the two together cover `set2`; and no segment
of `nonOverlapping` is the same (start and content) as one of `overlapping`. -/
theorem MultipleOverlaps_partition (set1 set2 : LineSegments) :
    (MultipleOverlaps set1 set2).2 =
        set2.filter (fun s => decide (∀ s1 ∈ set1, ¬ spansOverlap s1 s)) ∧
    (∀ s ∈ (MultipleOverlaps set1 set2).1, s ∈ set2 ∧ ∃ s1 ∈ set1, spansOverlap s1 s) ∧
    (∀ s ∈ set2, s ∈ (MultipleOverlaps set1 set2).1 ∨ s ∈ (MultipleOverlaps set1 set2).2) ∧
    (∀ s ∈ (MultipleOverlaps set1 set2).2, ∀ t ∈ (MultipleOverlaps set1 set2).1,
      s.IsSame t = false) := by
  refine ⟨nonOverlapping_eq_filter set1 set2, fun s hs => (mem_overlapping set1 set2 s).mp hs,
    ?_, ?_⟩
  · intro s hs
    by_cases h : ∃ s1 ∈ set1, spansOverlap s1 s
    · exact Or.inl ((mem_overlapping set1 set2 s).mpr ⟨hs, h⟩)
    · right
      rw [nonOverlapping_eq_filter, List.mem_filter]
      refine ⟨hs, ?_⟩
      simp only [decide_eq_true_eq]
      intro s1 h1 h2
      exact h ⟨s1, h1, h2⟩
  · intro s hs t ht
    rw [nonOverlapping_eq_filter, List.mem_filter] at hs
    have h1 := hs.2
    simp only [decide_eq_true_eq] at h1
    obtain ⟨_, s1, hs1, ho⟩ := (mem_overlapping set1 set2 t).mp ht
    cases hsame : s.IsSame t with
    | false => rfl
    | true =>
      have e := (IsSame_iff s t).mp hsame
      subst e
      exact absurd ho (h1 s1 hs1)

/-- C8: `segmentData` fails on every text in which some `(` is followed by no later `)`. -/
theorem segmentData_fails_on_open_title (str : List Char) (h : titleOpen str) :
    ∃ e, segmentData str = .error e :=
  segmentDataLoop_open_fails str [] newRoomData false ((titleOpen_iff_flag str).mp h)

/-- The test `title on multiple lines` of `TestSegmentData`, through C8. -/
theorem segmentData_fails_on_open_title_witness :
    titleOpen "(Living room WPSC".toList ∧
      ∃ e, segmentData "(Living room WPSC".toList = .error e :=
  ⟨⟨[], "Living room WPSC".toList, rfl, by decide⟩,
    segmentData_fails_on_open_title "(Living room WPSC".toList
      ⟨[], "Living room WPSC".toList, rfl, by decide⟩⟩

/-- C9: `segmentData` fails on every text that holds, outside any open title, a character
that is not whitespace, not a parenthesis and not one of `W`, `P`, `S`, `C`. -/
theorem segmentData_fails_on_stray_character (pre post : List Char) (c : Char)
    (hout : ¬ titleOpen pre) (hspace : isSpace c = false) (hopen : c ≠ '(') (hclose : c ≠ ')')
    (hfurniture : ¬ isFurniture c) :
    ∃ e, segmentData (pre ++ c :: post) = .error e := by
  have hflag : titleFlag false pre = false := by
    rw [titleOpen_iff_flag] at hout
    simpa using hout
  have hsp : c ≠ ' ' := by
    rintro rfl
    exact absurd hspace (by decide)
  unfold isFurniture at hfurniture
  have hstep : ∀ roomTitle d, segmentDataLoop (c :: post) roomTitle d false =
      .error (.strangeCharacter c) := by
    intro roomTitle d
    rw [segmentDataLoop, if_neg hopen, if_neg hclose, if_neg (by simp), if_neg hfurniture,
      if_neg hsp]
  rcases segmentDataLoop_prefix pre (c :: post) [] newRoomData false with h | ⟨t, d, h⟩
  · exact h
  · exact ⟨_, by unfold segmentData; rw [h, hflag, hstep]⟩

/-- The test `invalid character` of `TestSegmentData`, through C9. -/
theorem segmentData_fails_on_stray_character_witness :
    ∃ e, segmentData "W(PZ)C X".toList = .error e :=
  segmentData_fails_on_stray_character "W(PZ)C ".toList [] 'X'
    (by rw [titleOpen_iff_flag]; decide) (by decide) (by decide) (by decide)
    (by unfold isFurniture; decide)

/-- C10, as stated, fails: a tab is whitespace and stands outside any title, every
title of the text `"\t"` is closed, and `segmentData` rejects it. -/
theorem segmentData_rejects_tab :
    ¬ titleOpen ['\t'] ∧
    (∀ pre c post, ['\t'] = pre ++ c :: post → ¬ titleOpen pre →
      isSpace c = true ∨ c = '(' ∨ c = ')' ∨ isFurniture c) ∧
    segmentData ['\t'] = .error (.strangeCharacter '\t') := by
  refine ⟨by rw [titleOpen_iff_flag]; decide, ?_, rfl⟩
  intro pre c post e _
  cases pre with
  | nil =>
    simp only [List.nil_append, List.cons.injEq] at e
    rw [← e.1]
    exact Or.inl (by decide)
  | cons x pre =>
    simp only [List.cons_append, List.cons.injEq] at e
    exact absurd e.2 (by simp)

/-- C10, amended: `segmentData` succeeds on every text in which every opened title is
closed and every character outside a title is a space (U+0020), a parenthesis or one of `W`,
`P`, `S`, `C`, whatever the titles contain. -/
theorem segmentData_succeeds (str : List Char) (hclosed : ¬ titleOpen str)
    (hchars : ∀ pre c post, str = pre ++ c :: post → ¬ titleOpen pre →
      c = ' ' ∨ c = '(' ∨ c = ')' ∨ isFurniture c) :
    ∃ d, segmentData str = .ok d := by
  apply segmentDataLoop_succeeds
  · rw [titleOpen_iff_flag] at hclosed
    simpa using hclosed
  · intro pre c post e hf
    apply hchars pre c post e
    rw [titleOpen_iff_flag, hf]
    simp

/-- The test `room with all elements` of `TestSegmentData`, through the amended C10. -/
theorem segmentData_succeeds_witness : ∃ d, segmentData "(Living Room) WPSSC".toList = .ok d :=
  segmentData_succeeds "(Living Room) WPSSC".toList (by rw [titleOpen_iff_flag]; decide)
    (fun pre c post e h => of_outsideAllowed "(Living Room) WPSSC".toList false (by decide)
      pre c post e (by rw [titleOpen_iff_flag] at h; simpa using h))

/-- C11, on the code: `roomTitle` is never emptied when a title closes, so the text of a
second title is added to the text of the first: for `"(a)(b)"` the returned name is `"ab"`,
not `"b"`. -/
theorem segmentData_concatenates_titles :
    segmentData "(a)(b)".toList = .ok ⟨"ab".toList, []⟩ ∧
    segmentData "(kitchen) WW (old)".toList = .ok ⟨"kitchenold".toList, [('W', 2)]⟩ :=
  ⟨rfl, rfl⟩

/-- C12: when `segmentData` succeeds, the count of each of `W`, `P`, `S`, `C` is the number
of its occurrences outside titles, and no other symbol has an entry. -/
theorem segmentData_counts (str : List Char) (d : roomData) (h : segmentData str = .ok d) :
    (∀ c, isFurniture c → d.Chairs.get c = (occurrencesOutside c str : Int)) ∧
    (∀ e ∈ d.Chairs, isFurniture e.1) ∧
    (∀ c, ¬ isFurniture c → d.Chairs.get c = 0) := by
  obtain ⟨h1, h2⟩ := segmentDataLoop_counts str [] newRoomData d false h
  have h3 : ∀ e ∈ d.Chairs, isFurniture e.1 := by
    intro e he
    rcases h2 e he with h4 | h4
    · exact absurd h4 (by simp [newRoomData])
    · exact h4
  refine ⟨fun c hc => ?_, h3, fun c hc => ?_⟩
  · rw [h1 c hc]
    simp [newRoomData, ChairMap.get, occurrencesOutside]
  · exact ChairMap.get_of_forall_ne d.Chairs c (fun e he hec => hc (hec ▸ h3 e he))

/-- C12 on a text with symbols inside and outside a title. -/
theorem segmentData_counts_witness :
    (∀ c, isFurniture c →
      (⟨"W C".toList, [('S', 2), ('W', 1)]⟩ : roomData).Chairs.get c =
        (occurrencesOutside c "W (W C) SS".toList : Int)) ∧
    (∀ e ∈ (⟨"W C".toList, [('S', 2), ('W', 1)]⟩ : roomData).Chairs, isFurniture e.1) ∧
    (∀ c, ¬ isFurniture c →
      (⟨"W C".toList, [('S', 2), ('W', 1)]⟩ : roomData).Chairs.get c = 0) :=
  segmentData_counts "W (W C) SS".toList ⟨"W C".toList, [('S', 2), ('W', 1)]⟩ rfl

/-- C13, as stated, fails where a sum leaves the range of `int`: appending an aggregate with
one `W` to an aggregate whose count of `W` is `2^63 - 1` leaves the count `-2^63`, not the sum
`2^63`; the incoming count is not negative and the count has decreased. -/
theorem roomData_append_wraps_around :
    (int64.roomData.append ⟨[], [('W', 9223372036854775807)]⟩ ⟨[], [('W', 1)]⟩).Chairs =
      [('W', -9223372036854775808)] ∧
    (⟨[], [('W', 9223372036854775807)]⟩ : roomData).Chairs.get 'W' +
      (⟨[], [('W', 1)]⟩ : roomData).Chairs.get 'W' = 9223372036854775808 ∧
    (∀ e ∈ (⟨[], [('W', 1)]⟩ : roomData).Chairs, 0 ≤ e.2) ∧
    (int64.roomData.append ⟨[], [('W', 9223372036854775807)]⟩ ⟨[], [('W', 1)]⟩).Chairs.get 'W' <
      (⟨[], [('W', 9223372036854775807)]⟩ : roomData).Chairs.get 'W' := by
  refine ⟨by decide, by decide, by decide, by decide⟩

/-- C13, amended: after `d.append(d2)`, for a map `d2.Chairs`, the count of every symbol is
its count in `d` plus its count in `d2` (absent symbols count as 0) whenever that sum is in
the range of `int`, and for counts that are values of `int` it is that sum wrapped around;
the name is the name of `d2` when that is non-empty and the name of `d` otherwise; so a name
that is set is not cleared and, for non-negative incoming counts, no count whose sum is in the
range of `int` decreases. -/
theorem roomData_append_spec (d d2 : roomData) (hmap : d2.Chairs.isMap) :
    (∀ c, isInt (d.Chairs.get c + d2.Chairs.get c) →
      (int64.roomData.append d d2).Chairs.get c = d.Chairs.get c + d2.Chairs.get c) ∧
    (∀ c, isInt (d.Chairs.get c) → isInt (d2.Chairs.get c) →
      (int64.roomData.append d d2).Chairs.get c =
        wrapInt (d.Chairs.get c + d2.Chairs.get c)) ∧
    (d2.Name ≠ [] → (int64.roomData.append d d2).Name = d2.Name) ∧
    (d2.Name = [] → (int64.roomData.append d d2).Name = d.Name) ∧
    (d.Name ≠ [] → (int64.roomData.append d d2).Name ≠ []) ∧
    ((∀ c, 0 ≤ d2.Chairs.get c) → ∀ c, isInt (d.Chairs.get c + d2.Chairs.get c) →
      d.Chairs.get c ≤ (int64.roomData.append d d2).Chairs.get c) := by
  have hget : ∀ c, isInt (d.Chairs.get c + d2.Chairs.get c) →
      (int64.roomData.append d d2).Chairs.get c = d.Chairs.get c + d2.Chairs.get c :=
    fun c hc => appendChairs_int64_get_exact d.Chairs d2.Chairs c hmap hc
  refine ⟨hget, ?_, ?_, ?_, ?_, ?_⟩
  · intro c h1 h2
    exact appendChairs_int64_get_wrap d.Chairs d2.Chairs c hmap h1 h2
  · intro h
    show (if d2.Name ≠ [] then d2.Name else d.Name) = _
    rw [if_pos h]
  · intro h
    show (if d2.Name ≠ [] then d2.Name else d.Name) = _
    rw [if_neg (by simpa using h)]
  · intro h
    show (if d2.Name ≠ [] then d2.Name else d.Name) ≠ []
    by_cases h2 : d2.Name ≠ []
    · rw [if_pos h2]; exact h2
    · rw [if_neg h2]; exact h
  · intro h c hc
    rw [hget c hc]
    have := h c
    omega

/-- C13 on a named room that absorbs an unnamed fragment. -/
theorem roomData_append_spec_witness :
    ChairMap.isMap [('P', 2), ('W', 3)] ∧
    (int64.roomData.append ⟨"a".toList, [('W', 1)]⟩ ⟨[], [('P', 2), ('W', 3)]⟩).Chairs.get 'W'
        = (⟨"a".toList, [('W', 1)]⟩ : roomData).Chairs.get 'W' +
          (⟨[], [('P', 2), ('W', 3)]⟩ : roomData).Chairs.get 'W' ∧
    (int64.roomData.append ⟨"a".toList, [('W', 1)]⟩ ⟨[], [('P', 2), ('W', 3)]⟩).Name =
      "a".toList :=
  ⟨by decide,
    (roomData_append_spec ⟨"a".toList, [('W', 1)]⟩ ⟨[], [('P', 2), ('W', 3)]⟩ (by decide)).1
      'W' (by decide),
    (roomData_append_spec ⟨"a".toList, [('W', 1)]⟩ ⟨[], [('P', 2), ('W', 3)]⟩
      (by decide)).2.2.2.1 rfl⟩

/-- C14: `roomData.String` of a map returns `"(no data)"` without entries and name, the name
without entries and with a name, and otherwise the name, `":"`, a newline and the pairs
`"Symbol: count"` of all the entries, in ascending order of symbol, joined by `", "`. -/
theorem roomData_String_spec (d : roomData) (hmap : d.Chairs.isMap) :
    (d.Chairs = [] → d.Name = [] → d.String = "(no data)".toList) ∧
    (d.Chairs = [] → d.Name ≠ [] → d.String = d.Name) ∧
    (d.Chairs ≠ [] → ∃ entries : List (Char × Int), entries.Perm d.Chairs ∧
      entries.Pairwise (fun a b => a.1 < b.1) ∧
      d.String = d.Name ++ ":\n".toList ++
        Join (entries.map (fun e => [e.1] ++ ": ".toList ++ formatInt e.2)) ", ".toList) := by
  refine ⟨?_, ?_, ?_⟩
  · intro h1 h2
    simp [roomData.String, h1, h2]
  · intro h1 h2
    simp [roomData.String, h1, h2]
  · intro h1
    obtain ⟨hp, hs⟩ := sorted_entries d.Chairs hmap
    refine ⟨_, hp, hs, ?_⟩
    have hlen : ¬ d.Chairs.length = 0 := fun e => h1 (List.length_eq_zero.mp e)
    unfold roomData.String
    rw [if_neg hlen]
    simp only [List.map_map]
    rfl

/-- The test `Multiple Chairs Unordered` of `TestRoomString`, through C14. -/
theorem roomData_String_spec_witness :
    ∃ entries : List (Char × Int), entries.Perm [('B', 2), ('A', 1)] ∧
      entries.Pairwise (fun a b => a.1 < b.1) ∧
      (⟨"Kitchen".toList, [('B', 2), ('A', 1)]⟩ : roomData).String = "Kitchen".toList ++
        ":\n".toList ++
        Join (entries.map (fun e => [e.1] ++ ": ".toList ++ formatInt e.2)) ", ".toList :=
  (roomData_String_spec ⟨"Kitchen".toList, [('B', 2), ('A', 1)]⟩ (by decide)).2.2 (by simp)

/-- C15, as stated, fails where a sum leaves the range of `int`: with two closed rooms whose
counts of `W` are `2^63 - 1` and 1, the total's count of `W` is `-2^63`, not the sum `2^63`. -/
theorem totals_wraps_around :
    (FlatParser.totals ⟨[⟨[], [('W', 9223372036854775807)]⟩, ⟨[], [('W', 1)]⟩], []⟩
      ⟨[], [0, 1], 6⟩ "total".toList).Chairs = [('W', -9223372036854775808)] ∧
    (([0, 1] : List Nat).map (fun room =>
      ((⟨[⟨[], [('W', 9223372036854775807)]⟩, ⟨[], [('W', 1)]⟩], []⟩ :
        Store).data room).Chairs.get 'W')).sum = 9223372036854775808 := by
  refine ⟨by decide, by decide⟩

/-- C15, amended: for closed rooms whose `Chairs` are maps with counts of `int`, the room
computed by `totals("total")` is named `"total"`, whatever the names of the closed rooms, and
its count of every symbol is the sum of the counts of that symbol over all the closed rooms,
each counted on its own, wrapped around into the range of `int`: it is the sum itself
whenever the sum is in that range. -/
theorem totals_spec (m : Store) (p : FlatParser)
    (hmaps : ∀ room ∈ p.closedRooms, (m.data room).Chairs.isMap)
    (hints : ∀ room ∈ p.closedRooms, ∀ e ∈ (m.data room).Chairs, isInt e.2) :
    (p.totals m "total".toList).Name = "total".toList ∧
    (∀ c, (p.totals m "total".toList).Chairs.get c =
      wrapInt (p.closedRooms.map (fun room => (m.data room).Chairs.get c)).sum) ∧
    (∀ c, isInt (p.closedRooms.map (fun room => (m.data room).Chairs.get c)).sum →
      (p.totals m "total".toList).Chairs.get c =
        (p.closedRooms.map (fun room => (m.data room).Chairs.get c)).sum) := by
  have hwrap : ∀ c, (p.totals m "total".toList).Chairs.get c =
      wrapInt (p.closedRooms.map (fun room => (m.data room).Chairs.get c)).sum := by
    intro c
    rw [totals_eq]
    show ((p.closedRooms.map m.data).foldl (fun totals d => int64.roomData.append totals d)
      newRoomData).Chairs.get c = _
    have h0 : isInt (newRoomData.Chairs.get c) := (by decide : isInt 0)
    rw [foldl_append_int64_get _ newRoomData c
      (fun d hd => by
        obtain ⟨a, ha, rfl⟩ := List.mem_map.mp hd
        exact hmaps a ha)
      (fun d hd => by
        obtain ⟨a, ha, rfl⟩ := List.mem_map.mp hd
        exact ChairMap.isInt_get _ (hints a ha) c)
      h0, List.map_map]
    simp only [newRoomData, ChairMap.get, zero_add]
    rfl
  refine ⟨rfl, hwrap, fun c hc => ?_⟩
  rw [hwrap c, wrapInt_of_isInt _ hc]

/-- C15 on two closed rooms of the same name. -/
theorem totals_spec_witness :
    (∀ room ∈ ([0, 1] : List Nat),
      ((⟨[⟨"a".toList, [('W', 1)]⟩, ⟨"a".toList, [('P', 2), ('W', 3)]⟩], []⟩ :
        Store).data room).Chairs.isMap) ∧
    (FlatParser.totals ⟨[⟨"a".toList, [('W', 1)]⟩, ⟨"a".toList, [('P', 2), ('W', 3)]⟩], []⟩
      ⟨[], [0, 1], 4⟩ "total".toList).Name = "total".toList ∧
    (FlatParser.totals
        ⟨[⟨"a".toList, [('W', 1)]⟩, ⟨"a".toList, [('P', 2), ('W', 3)]⟩], []⟩
        ⟨[], [0, 1], 4⟩ "total".toList).Chairs.get 'W' =
      (([0, 1] : List Nat).map (fun room =>
        ((⟨[⟨"a".toList, [('W', 1)]⟩, ⟨"a".toList, [('P', 2), ('W', 3)]⟩], []⟩ :
          Store).data room).Chairs.get 'W')).sum :=
  ⟨by decide,
    (totals_spec ⟨[⟨"a".toList, [('W', 1)]⟩, ⟨"a".toList, [('P', 2), ('W', 3)]⟩], []⟩
      ⟨[], [0, 1], 4⟩ (by decide) (by decide)).1,
    (totals_spec ⟨[⟨"a".toList, [('W', 1)]⟩, ⟨"a".toList, [('P', 2), ('W', 3)]⟩], []⟩
      ⟨[], [0, 1], 4⟩ (by decide) (by decide)).2.2 'W' (by decide)⟩

/-- C16: `FlatParser.String` returns the representation of the total room followed by the
representations of the closed rooms, each once (a permutation of `closedRooms`), in ascending
order of name (no room has a name less than the name of a room before it, so no named room
comes before an unnamed one), joined by newlines; without closed rooms it returns `"total"`. -/
theorem FlatParser_String_spec (m : Store) (p : FlatParser) :
    (∃ rooms : List Nat, rooms.Perm p.closedRooms ∧
      rooms.Pairwise (fun a b => stringLess (m.data b).Name (m.data a).Name = false) ∧
      rooms.Pairwise (fun a b => (m.data b).Name = [] → (m.data a).Name = []) ∧
      (FlatParser.String insertionSortSlice m p).2 =
        Join ((FlatParser.totals m ⟨p.OpenRooms, rooms, p.Line⟩ "total".toList).String ::
          rooms.map (fun room => (m.data room).String)) "\n".toList) ∧
    (p.closedRooms = [] → (FlatParser.String insertionSortSlice m p).2 = "total".toList) := by
  obtain ⟨hperm, hsorted⟩ :=
    insertionSortSlice_names (fun room => (m.data room).Name) p.closedRooms
  refine ⟨⟨_, hperm, hsorted, ?_, FlatParser_String_text insertionSortSlice m p⟩, ?_⟩
  · refine hsorted.imp ?_
    intro a b hab hb
    rw [hb] at hab
    cases hname : (m.data a).Name with
    | nil => rfl
    | cons x xs => rw [hname] at hab; simp [stringLess] at hab
  · intro h
    rw [FlatParser_String_text, h]
    rfl

/-- C16 on three closed rooms named `b`, (none) and `a`: the unnamed room comes first, then
`a`, then `b`. -/
theorem FlatParser_String_spec_witness :
    (FlatParser.String insertionSortSlice
      ⟨[⟨"b".toList, [('W', 1)]⟩, ⟨[], [('P', 2), ('W', 3)]⟩, ⟨"a".toList, []⟩], []⟩
      ⟨[], [0, 1, 2], 5⟩).1.closedRooms = [1, 2, 0] ∧
    ∃ rooms : List Nat, rooms.Perm [0, 1, 2] ∧
      (FlatParser.String insertionSortSlice
        ⟨[⟨"b".toList, [('W', 1)]⟩, ⟨[], [('P', 2), ('W', 3)]⟩, ⟨"a".toList, []⟩], []⟩
        ⟨[], [0, 1, 2], 5⟩).2 =
      Join ((FlatParser.totals
          ⟨[⟨"b".toList, [('W', 1)]⟩, ⟨[], [('P', 2), ('W', 3)]⟩, ⟨"a".toList, []⟩], []⟩
          ⟨[], rooms, 5⟩ "total".toList).String ::
        rooms.map (fun room =>
          ((⟨[⟨"b".toList, [('W', 1)]⟩, ⟨[], [('P', 2), ('W', 3)]⟩, ⟨"a".toList, []⟩], []⟩ :
            Store).data room).String)) "\n".toList := by
  refine ⟨by decide, ?_⟩
  obtain ⟨rooms, h1, _, _, h2⟩ := (FlatParser_String_spec
    ⟨[⟨"b".toList, [('W', 1)]⟩, ⟨[], [('P', 2), ('W', 3)]⟩, ⟨"a".toList, []⟩], []⟩
    ⟨[], [0, 1, 2], 5⟩).1
  exact ⟨rooms, h1, h2⟩

/-- C17: `Ingest` returns an error exactly when `segmentData` fails on the content of some
segment of `Split(line)`, whatever the parser state: closing a room cannot fail, and every
segment of the line is parsed, by the room that claims it or as the seed of a new room. -/
theorem Ingest_error_iff (m : Store) (p : FlatParser) (line : List Char) :
    (Ingest m p line).2.2 ≠ none ↔
      ∃ s ∈ Split line, ∃ e, segmentData s.content = .error e := by
  obtain ⟨h1, h2⟩ := ingestRooms_errors p.OpenRooms.length 0
    ⟨m, p.OpenRooms, p.OpenRooms.length, p.closedRooms, Split line⟩
  unfold Ingest
  simp only
  cases hrun : ingestRooms p.OpenRooms.length 0
      ⟨m, p.OpenRooms, p.OpenRooms.length, p.closedRooms, Split line⟩ with
  | mk s2 err =>
    rw [hrun] at h1 h2
    cases err with
    | some e =>
      simp only [ne_eq, reduceCtorEq, not_false_eq_true, true_iff]
      exact h1 (by simp)
    | none =>
      simp only
      obtain ⟨h3, h4⟩ := h2 rfl
      have hC := openRooms_error_iff (p.Line + 1) s2.lineSegments s2.mem
        (s2.backing.take s2.len)
      constructor
      · intro h
        obtain ⟨x, hx, he⟩ := hC.mp h
        exact ⟨x, h3 x hx, he⟩
      · rintro ⟨x, hx, he⟩
        exact hC.mpr ⟨x, h4 x hx he, he⟩

/-- C18: `Ingest` on a new parser sets `Line` to 1 and closes no room; when `segmentData`
accepts every segment of `Split(line)` the call succeeds and opens one room for each segment,
in the order of the line, whose last segments are that segment alone and whose data is the
parsed data of that segment. A line of delimiters leaves no open room, and the line
`|    |   |` leaves two. -/
theorem Ingest_of_NewRoomParser (m : Store) (line : List Char) :
    (Ingest m NewRoomParser line).2.1.Line = 1 ∧
    (Ingest m NewRoomParser line).2.1.closedRooms = [] ∧
    ((∀ s ∈ Split line, ∃ d, segmentData s.content = .ok d) →
      Ingest m NewRoomParser line =
        (⟨m.datas ++ (Split line).map (fun s => parsed s.content),
          m.rooms ++ ((Split line).enumFrom m.datas.length).map (fun is => ⟨is.1, [is.2]⟩)⟩,
          ⟨List.range' m.rooms.length (Split line).length, [], 1⟩, none)) ∧
    ((∀ c ∈ line, isDelimiter c = true) →
      Ingest m NewRoomParser line = (m, ⟨[], [], 1⟩, none)) ∧
    Ingest ⟨[], []⟩ NewRoomParser "|    |   |".toList =
      (⟨[⟨[], []⟩, ⟨[], []⟩], [⟨0, [⟨1, "    ".toList⟩]⟩, ⟨1, [⟨6, "   ".toList⟩]⟩]⟩,
        ⟨[0, 1], [], 1⟩, none) := by
  have hshape : Ingest m NewRoomParser line =
      ((openRooms 1 (Split line) m []).1,
        ⟨(openRooms 1 (Split line) m []).2.1, [], 1⟩, (openRooms 1 (Split line) m []).2.2) := by
    simp [Ingest, NewRoomParser, ingestRooms]
  refine ⟨by rw [hshape], by rw [hshape], ?_, ?_, rfl⟩
  · intro h
    rw [hshape, openRooms_ok 1 (Split line) m [] h]
    simp
  · intro h
    rw [hshape, Split_of_delimiters line h]
    simp [openRooms]

/-- C19, as stated, fails: a zero-length query span that lies strictly inside a segment gets
that segment, and a segment with empty content that lies strictly inside the query span is
returned. -/
theorem Overlaps_returns_for_zero_length_spans :
    int64.Overlaps 5 0 [⟨3, "abcd".toList⟩] = [⟨3, "abcd".toList⟩] ∧
    int64.Overlaps 3 4 [⟨5, []⟩] = [⟨5, []⟩] := by
  exact ⟨by decide, by decide⟩

/-- C19, amended: for values `start` and `s.start` of `int`, `Overlaps` never returns a
segment whose span only touches the query span; for a zero-length query span and a segment
whose end `s.start + len(s.content)` is in the range of `int`, the segment is returned exactly
when it is in `S` and the point `start` lies strictly inside it; and when the end
`start + length` of the query span is in the range of `int`, a segment with empty content is
returned exactly when it is in `S` and lies strictly inside the query span. -/
theorem Overlaps_touching_and_zero_length (start length : Int) (S : LineSegments)
    (s : segment) (hstart : isInt start) (hs : isInt s.start) :
    ((s.start + (byteLen s.content : Int) = start ∨ start + length = s.start) →
      s ∉ int64.Overlaps start length S) ∧
    (length = 0 → isInt (s.start + (byteLen s.content : Int)) →
      (s ∈ int64.Overlaps start length S ↔
        s ∈ S ∧ s.start < start ∧ start < s.start + (byteLen s.content : Int))) ∧
    (s.content = [] → isInt (start + length) →
      (s ∈ int64.Overlaps start length S ↔
        s ∈ S ∧ start < s.start ∧ s.start < start + length)) := by
  have hmem : s ∈ int64.Overlaps start length S ↔ s ∈ S ∧
      ¬ (wrapInt (s.start + (byteLen s.content : Int)) ≤ start ∨
        wrapInt (start + length) ≤ s.start) := by
    rw [Overlaps_int64_eq_filter, List.mem_filter, decide_eq_true_eq]
  refine ⟨?_, ?_, ?_⟩
  · intro h hin
    have h2 := (hmem.mp hin).2
    rcases h with h | h
    · rw [h, wrapInt_of_isInt _ hstart] at h2
      exact h2 (Or.inl (le_refl _))
    · rw [h, wrapInt_of_isInt _ hs] at h2
      exact h2 (Or.inr (le_refl _))
  · intro h hend
    rw [hmem, h, add_zero, wrapInt_of_isInt _ hstart, wrapInt_of_isInt _ hend]
    constructor
    · rintro ⟨h1, h2⟩; exact ⟨h1, by omega, by omega⟩
    · rintro ⟨h1, h2, h3⟩; exact ⟨h1, by omega⟩
  · intro h hend
    rw [hmem, h]
    simp only [byteLen, Int.ofNat_zero, add_zero]
    rw [wrapInt_of_isInt _ hs, wrapInt_of_isInt _ hend]
    constructor
    · rintro ⟨h1, h2⟩; exact ⟨h1, by omega, by omega⟩
    · rintro ⟨h1, h2, h3⟩; exact ⟨h1, by omega⟩

/-- C19 on the point 5 inside the segment `abcd` at offset 3, and on the segment that ends
where the query span from 7 starts. -/
theorem Overlaps_touching_and_zero_length_witness :
    isInt 5 ∧ isInt 3 ∧ isInt 7 ∧
    ((⟨3, "abcd".toList⟩ : segment) ∈ int64.Overlaps 5 0 [⟨3, "abcd".toList⟩] ↔
      (⟨3, "abcd".toList⟩ : segment) ∈ [(⟨3, "abcd".toList⟩ : segment)] ∧ (3 : Int) < 5 ∧
        (5 : Int) < 3 + (byteLen "abcd".toList : Int)) ∧
    (⟨3, "abcd".toList⟩ : segment) ∉ int64.Overlaps 7 2 [⟨3, "abcd".toList⟩] :=
  ⟨by decide, by decide, by decide,
    (Overlaps_touching_and_zero_length 5 0 [⟨3, "abcd".toList⟩] ⟨3, "abcd".toList⟩
      (by decide) (by decide)).2.1 rfl (by decide),
    (Overlaps_touching_and_zero_length 7 2 [⟨3, "abcd".toList⟩] ⟨3, "abcd".toList⟩
      (by decide) (by decide)).1 (Or.inl (by decide))⟩

/-- C20: when each segment of `S` ends at or before the start of the next one (so `S` is
sorted by start and pairwise disjoint), `Overlaps start length S` is a contiguous part of
`S`: with `S[i]` and `S[k]`, every `S[j]` between them is returned, and the result is `S`
without a prefix and a suffix. -/
theorem Overlaps_contiguous (start length : Int) (S : LineSegments)
    (hS : S.Chain' (fun a b => a.start + (byteLen a.content : Int) ≤ b.start)) :
    (∀ (i j k : Nat) (hij : i < j) (hjk : j < k) (hk : k < S.length),
      S[i] ∈ Overlaps start length S → S[k] ∈ Overlaps start length S →
      S[j] ∈ Overlaps start length S) ∧
    ∃ a b, Overlaps start length S = (S.drop a).take b := by
  constructor
  · intro i j k hij hjk hk hi hkk
    rw [mem_Overlaps] at hi hkk ⊢
    exact ⟨List.getElem_mem _, Overlaps_convex start length S hS i j k hij hjk hk hi.2 hkk.2⟩
  · rw [Overlaps_eq_filter]
    apply filter_eq_drop_take
    intro i j k hij hjk hk hi hkk
    rw [decide_eq_true_eq] at hi hkk ⊢
    exact Overlaps_convex start length S hS i j k hij hjk hk hi hkk

/-- C20 on the segments of the test `SurroundedSegment` and the query span `[2, 7)`. -/
theorem Overlaps_contiguous_witness :
    (∀ (i j k : Nat) (hij : i < j) (hjk : j < k)
        (hk : k < ([⟨0, "abc".toList⟩, ⟨3, "def".toList⟩, ⟨6, "ghi".toList⟩] :
          LineSegments).length),
      ([⟨0, "abc".toList⟩, ⟨3, "def".toList⟩, ⟨6, "ghi".toList⟩] : LineSegments)[i] ∈
        Overlaps 2 5 [⟨0, "abc".toList⟩, ⟨3, "def".toList⟩, ⟨6, "ghi".toList⟩] →
      ([⟨0, "abc".toList⟩, ⟨3, "def".toList⟩, ⟨6, "ghi".toList⟩] : LineSegments)[k] ∈
        Overlaps 2 5 [⟨0, "abc".toList⟩, ⟨3, "def".toList⟩, ⟨6, "ghi".toList⟩] →
      ([⟨0, "abc".toList⟩, ⟨3, "def".toList⟩, ⟨6, "ghi".toList⟩] : LineSegments)[j] ∈
        Overlaps 2 5 [⟨0, "abc".toList⟩, ⟨3, "def".toList⟩, ⟨6, "ghi".toList⟩]) ∧
    ∃ a b, Overlaps 2 5 [⟨0, "abc".toList⟩, ⟨3, "def".toList⟩, ⟨6, "ghi".toList⟩] =
      (([⟨0, "abc".toList⟩, ⟨3, "def".toList⟩, ⟨6, "ghi".toList⟩] : LineSegments).drop a).take b :=
  Overlaps_contiguous 2 5 [⟨0, "abc".toList⟩, ⟨3, "def".toList⟩, ⟨6, "ghi".toList⟩]
    (List.chain'_cons.mpr ⟨by decide, List.chain'_cons.mpr ⟨by decide,
      List.chain'_singleton _⟩⟩)

/-- C21: closed is terminal. For every well-formed state (no room is open twice, no aggregate
is shared by two rooms or is both open and closed; the state of `NewRoomParser` is well formed)
and every line, after `Ingest`, successful or failing: the previous `closedRooms` is a prefix of
the new one, every aggregate closed before has the name and the chair counts it had, no
aggregate occurs twice in `closedRooms`, no open room's aggregate is in `closedRooms`, and the
state is well formed again. -/
theorem Ingest_keeps_closed_rooms (m : Store) (p : FlatParser) (line : List Char)
    (hwf : wellFormed m p) :
    p.closedRooms <+: (Ingest m p line).2.1.closedRooms ∧
    (∀ a ∈ p.closedRooms, (Ingest m p line).1.data a = m.data a) ∧
    (Ingest m p line).2.1.closedRooms.Nodup ∧
    (∀ room ∈ (Ingest m p line).2.1.OpenRooms,
      ((Ingest m p line).1.room room).RoomData ∉ (Ingest m p line).2.1.closedRooms) ∧
    wellFormed (Ingest m p line).1 (Ingest m p line).2.1 := by
  obtain ⟨h1, h2, h3⟩ := Ingest_wellFormed m p line hwf
  refine ⟨h2, h3, (List.nodup_append.mp h1.2.2.1).2.1, ?_, h1⟩
  intro room hroom hc
  exact (List.nodup_append.mp h1.2.2.1).2.2 (List.mem_map.mpr ⟨room, hroom, rfl⟩) hc

/-- C21 at a state with one closed room (aggregate 0) and one open room (aggregate 1), on the
line `+-+` that closes the open room. -/
theorem Ingest_keeps_closed_rooms_witness :
    wellFormed ⟨[⟨['a'], [('W', 1)]⟩, ⟨[], []⟩], [⟨1, [⟨1, [' ']⟩]⟩]⟩ ⟨[0], [0], 3⟩ ∧
    ([0] : List Nat) <+: (Ingest ⟨[⟨['a'], [('W', 1)]⟩, ⟨[], []⟩], [⟨1, [⟨1, [' ']⟩]⟩]⟩
      ⟨[0], [0], 3⟩ ['+', '-', '+']).2.1.closedRooms :=
  ⟨by decide,
    (Ingest_keeps_closed_rooms ⟨[⟨['a'], [('W', 1)]⟩, ⟨[], []⟩], [⟨1, [⟨1, [' ']⟩]⟩]⟩
      ⟨[0], [0], 3⟩ ['+', '-', '+'] (by decide)).1⟩

/-- C22, on the code: a room that splits around an inner room and is joined again by one wide
segment. After the lines `+-----+`, `|     |`, `| +-+ |`, `| |W| |`, `| +-+ |` the outer room's
last segments are the two spaces at offsets 1 and 5. The only segment of the line `|  P  |`
overlaps both, so `MultipleOverlaps` returns it twice and `appendDataFromSegments` adds its
content twice: the room's count of `P` grows by 2 for one `P` on the line, and the room is
left with the same segment twice as its last segments. -/
theorem Ingest_counts_a_rejoining_segment_twice :
    ingestLines ⟨[], []⟩ NewRoomParser
        ["+-----+".toList, "|     |".toList, "| +-+ |".toList, "| |W| |".toList,
          "| +-+ |".toList] =
      (⟨[⟨[], []⟩, ⟨[], [('W', 1)]⟩], [⟨0, [⟨1, [' ']⟩, ⟨5, [' ']⟩]⟩, ⟨1, [⟨3, ['W']⟩]⟩]⟩,
        ⟨[0], [1], 5⟩, none) ∧
    Split "|  P  |".toList = [⟨1, "  P  ".toList⟩] ∧
    segmentData "  P  ".toList = .ok ⟨[], [('P', 1)]⟩ ∧
    MultipleOverlaps [⟨1, [' ']⟩, ⟨5, [' ']⟩] (Split "|  P  |".toList) =
      ([⟨1, "  P  ".toList⟩, ⟨1, "  P  ".toList⟩], []) ∧
    Ingest ⟨[⟨[], []⟩, ⟨[], [('W', 1)]⟩], [⟨0, [⟨1, [' ']⟩, ⟨5, [' ']⟩]⟩, ⟨1, [⟨3, ['W']⟩]⟩]⟩
        ⟨[0], [1], 5⟩ "|  P  |".toList =
      (⟨[⟨[], [('P', 2)]⟩, ⟨[], [('W', 1)]⟩],
          [⟨0, [⟨1, "  P  ".toList⟩, ⟨1, "  P  ".toList⟩]⟩, ⟨1, [⟨3, ['W']⟩]⟩]⟩,
        ⟨[0], [1], 6⟩, none) :=
  ⟨rfl, rfl, rfl, rfl, rfl⟩

/-- C23, on the code: the text of the three lines `+-+`, `|W|`, `+-+` with no newline after
the last one. `ReadString` returns the last line together with `io.EOF`, and
`IngestAllFromReader` returns nil without ingesting it: two lines are ingested, `Line` is 2 and
the room is still open, whereas `Ingest` on each of the three lines ends with `Line` 3 and the
room closed. With a newline after the last line the two agree. -/
theorem IngestAllFromReader_drops_the_unterminated_line :
    ReadString '\n' "+-+".toList = ("+-+".toList, [], true) ∧
    IngestAllFromReader ⟨[], []⟩ NewRoomParser "+-+\n|W|\n+-+".toList =
      (⟨[⟨[], [('W', 1)]⟩], [⟨0, [⟨1, ['W']⟩]⟩]⟩, ⟨[0], [], 2⟩, none) ∧
    ingestLines ⟨[], []⟩ NewRoomParser ["+-+".toList, "|W|".toList, "+-+".toList] =
      (⟨[⟨[], [('W', 1)]⟩], [⟨0, [⟨1, ['W']⟩]⟩]⟩, ⟨[], [0], 3⟩, none) ∧
    IngestAllFromReader ⟨[], []⟩ NewRoomParser "+-+\n|W|\n+-+\n".toList =
      (⟨[⟨[], [('W', 1)]⟩], [⟨0, [⟨1, ['W']⟩]⟩]⟩, ⟨[], [0], 3⟩, none) :=
  ⟨rfl, rfl, rfl, rfl⟩

end Enspired
